import Mathlib

/-!
Shallow embedding of the `dense` Go package (`Set63`, a compact
representation of sets of integers in `[0, 2^63)` as sorted lists of
dyadic cells) and of its `Cover` approximation algorithm.

Machine integers: Go `uint64` values are embedded as `Nat` kept below
`2^64`, with an explicit `% 2^64` wherever the Go code can overflow.
Go `int64` values are embedded as `Int`.  A Go `panic` is embedded as
`Option.none` in the few functions that can fail.
-/

namespace Dense

/-- `2^64`, the modulus of Go's `uint64` arithmetic. -/
def U64 : Nat := 2 ^ 64

/-- Two's complement negation on 64 bits: Go's `-c` for `c : uint64`. -/
def neg64 (c : Nat) : Nat := (U64 - c % U64) % U64

/-- 64-bit truncating subtraction: Go's `a - b` on `uint64`. -/
def sub64 (a b : Nat) : Nat := (a % U64 + (U64 - b % U64)) % U64

/-- Bitwise complement on 64 bits: Go's `^x` for `x : uint64`. -/
def not64 (x : Nat) : Nat := (x % U64) ^^^ (U64 - 1)

/-- A cell63 is a dyadic interval `[b, e)` packed into a 64-bit word:
the position of the least significant set bit is the level, the bits
above it are the common binary prefix of `b` and `e`.  Embedded as a
`Nat` below `2^64`. -/
abbrev cell63 := Nat  -- kept for documentation; code below uses Nat directly

/-- `unity63`, the whole interval `[0, 2^63)`. -/
def unity63 : Nat := 2 ^ 63

/-- Go `func (c cell63) lsb() cell63 { return c & -c }`. -/
def lsb (c : Nat) : Nat := c &&& neg64 c

/-- Go `func (c cell63) contains(d cell63) bool`:
`(c^d) & ^((c&-c)<<1-1) == 0`. -/
def contains (c d : Nat) : Bool :=
  (c ^^^ d) &&& not64 (sub64 (lsb c * 2) 1) == 0

/-- Go `func (c cell63) sibling() cell63 { return c ^ ((c & -c) << 1) }`. -/
def sibling (c : Nat) : Nat := c ^^^ (lsb c * 2 % U64)

/-- Go `func (c cell63) parent() cell63 { return (c ^ (c&-c)) | (c&-c)<<1 }`. -/
def parent (c : Nat) : Nat := (c ^^^ lsb c) ||| (lsb c * 2 % U64)

/-- Go `func (c cell63) children() (p, q cell63)`. -/
def children (c : Nat) : Nat × Nat :=
  let p := lsb c / 2
  let c' := c ||| p
  (c' &&& not64 (p * 2), c' ||| (p * 2))

/-- Go `func singleton(e int64) cell63 { return cell63(e<<1) | 1 }`,
specialised to the non-negative arguments it is applied to (the callers
check `e ≥ 0` first, or pass a `uint64` below `2^63` converted through
`int64`; in both cases the bit pattern is `2*e + 1` modulo `2^64`). -/
def singleton (e : Nat) : Nat := (2 * e + 1) % U64

/-- Go `func (c cell63) begin() uint64 { return (c - (c & -c)) >> 1 }`. -/
def cbegin (c : Nat) : Nat := (c - lsb c) / 2

/-- Go `func (c cell63) end() uint64 { return (c-(c&-c))>>1 + (c & -c) }`. -/
def cend (c : Nat) : Nat := (c - lsb c) / 2 + lsb c

/-- A `Set63` is a sorted list of cells. -/
abbrev Set63 := List Nat

/-! ### `headx`: first contiguous run of a set -/

/-- The scan inside Go `Set63.headx`: starting from the previous cell,
collect the following cells as long as each one begins exactly where
the previous one ends.  Returns the collected run (without its first
cell), the remainder, and the end of the last collected cell
(`cend prev` when nothing further is collected). -/
def runSplit (prev : Nat) : List Nat → List Nat × List Nat × Nat
  | [] => ([], [], cend prev)
  | x :: xs =>
    if cend prev == cbegin x then
      let r := runSplit x xs
      (x :: r.1, r.2.1, r.2.2)
    else ([], x :: xs, cend prev)

/-- Go `func (s Set63) headx() (sh, st Set63, b, e uint64)`: the first
contiguous run of `s`, the remainder, and the run's begin and end.  The
`nil` slice returned for an empty set is embedded as `none`. -/
def headx : List Nat → Option (List Nat) × List Nat × Nat × Nat
  | [] => (none, [], 0, 0)
  | x :: xs =>
    let r := runSplit x xs
    (some (x :: r.1), r.2.1, cbegin x, r.2.2)

theorem runSplit_length (prev : Nat) (l : List Nat) :
    (runSplit prev l).1.length + (runSplit prev l).2.1.length = l.length := by
  induction l generalizing prev with
  | nil => simp [runSplit]
  | cons x xs ih =>
    simp only [runSplit]
    by_cases h : cend prev == cbegin x
    · have := ih x
      simp only [h, if_true, List.length_cons]
      omega
    · simp [h]

/-- The remainder produced by `headx` is strictly shorter for a
non-empty list, and the begin/end pair of an empty list is degenerate;
packaged as the measure inequality used for termination of the
merge-walk loops. -/
theorem headx_measure (s : List Nat) :
    (headx s).2.1.length + (if (headx s).2.2.1 ≠ (headx s).2.2.2 then 1 else 0) ≤
      s.length := by
  cases s with
  | nil => simp [headx]
  | cons x xs =>
    have hl := runSplit_length x xs
    simp only [headx, List.length_cons]
    by_cases h : cbegin x ≠ (runSplit x xs).2.2
    · simp only [if_pos h]
      omega
    · simp only [if_neg h]
      omega

/-! ### `interval`: canonical decomposition of a contiguous range -/

/-- The inner loop of Go `interval`: walk up through `parent()` as long
as the parent is nonzero, still begins at `min`, and ends within
`max`.  The loop's level strictly increases, so 64 steps of fuel are
never exhausted; the fuel only makes the recursion structural. -/
def climb : Nat → Nat → Nat → Nat → Nat
  | 0, c, _, _ => c
  | fuel + 1, c, mn, mx =>
    let p := parent c
    if p ≠ 0 ∧ cbegin p = mn ∧ cend p ≤ mx then climb fuel p mn mx else c

/-- The loop of Go `func interval(min, max uint64) (s Set63)`, with the
iteration count made explicit: each iteration advances `min` by at
least one (`min < cend c` whenever `min < 2^63`), so `max - min`
iterations of fuel are never exhausted on the domain the program uses
(`min < max ≤ 2^63`). -/
def intervalFuel : Nat → Nat → Nat → Set63
  | 0, _, _ => []
  | fuel + 1, mn, mx =>
    if mn < mx then
      let c := climb 64 (singleton mn) mn mx
      c :: intervalFuel fuel (cend c) mx
    else []

/-- Go `func interval(min, max uint64) (s Set63)`: greedy canonical
decomposition of the half-open range `[min, max)` into cells. -/
def interval (mn mx : Nat) : Set63 := intervalFuel (mx - mn) mn mx

/-- The loop of Go `func (s Set63) search(i, j int, c cell63) int`,
with the iteration count made explicit: every iteration shrinks
`j - i`, so the fuel `j - i` supplied by `search` is never
exhausted. -/
def searchF : Nat → List Nat → Nat → Nat → Nat → Nat
  | 0, _, i, _, _ => i
  | fuel + 1, s, i, j, c =>
    if i < j then
      let h := i + (j - i) / 2
      if s.getD h 0 < c then searchF fuel s (h + 1) j c else searchF fuel s i h c
    else i

/-- Go `func (s Set63) search(i, j int, c cell63) int`: binary search
for the first position in `s[i:j]` whose cell is not less than `c`. -/
def search (s : List Nat) (i j : Nat) (c : Nat) : Nat :=
  searchF (j - i) s i j c

/-! ### `Union` and `Intersection`: merge-walks over contiguous runs -/

/-- The candidate run to emit: the verbatim slice when the run was not
modified (`ss != nil` in Go), otherwise a fresh cover of `[b, e)`. -/
def emitRun (ss : Option (List Nat)) (b e : Nat) : List Nat :=
  match ss with
  | some run => run
  | none => interval b e

/-- The main loop of Go `func (s Set63) Union(t Set63) Set63`,
maintaining the current candidate run `[sb, se)` from `s` (verbatim
slice `ss` when unmodified) and `[tb, te)` from `t`, and the output
accumulator `r`.  The six cases are translated in source order; the
final `panic("impossible interval order")` is unreachable because the
sixth condition is implied by the failure of the first five, so the
sixth case is the `else` branch. -/
def unionLoop : Nat → Option (List Nat) → List Nat → Nat → Nat →
    Option (List Nat) → List Nat → Nat → Nat → List Nat → List Nat
  | 0, _, _, _, _, _, _, _, _, r => r
  | fuel + 1, ss, s, sb, se, tt, t, tb, te, r =>
    if sb ≠ se ∧ tb ≠ te then
      -- s is entirely contained in t
      if tb ≤ sb ∧ se ≤ te then
        unionLoop fuel (headx s).1 (headx s).2.1 (headx s).2.2.1 (headx s).2.2.2 tt t tb te r
      -- t is entirely contained in s
      else if sb ≤ tb ∧ te ≤ se then
        unionLoop fuel ss s sb se (headx t).1 (headx t).2.1 (headx t).2.2.1 (headx t).2.2.2 r
      -- s comes entirely before t, and doesn't touch
      else if se < tb then
        unionLoop fuel (headx s).1 (headx s).2.1 (headx s).2.2.1 (headx s).2.2.2 tt t tb te
          (r ++ emitRun ss sb se)
      -- t comes entirely before s, and doesn't touch
      else if te < sb then
        unionLoop fuel ss s sb se (headx t).1 (headx t).2.1 (headx t).2.2.1 (headx t).2.2.2
          (r ++ emitRun tt tb te)
      -- [sb ...[tb .. se)...te): merge into the t candidate, not verbatim
      else if sb ≤ tb ∧ se ≤ te then
        unionLoop fuel (headx s).1 (headx s).2.1 (headx s).2.2.1 (headx s).2.2.2 none t sb te r
      -- [tb ...[sb .. te)...se): merge into the s candidate, not verbatim
      else
        unionLoop fuel none s tb se (headx t).1 (headx t).2.1 (headx t).2.2.1 (headx t).2.2.2 r
    else
      let r1 := if sb ≠ se then (r ++ emitRun ss sb se) ++ s else r
      if tb ≠ te then (r1 ++ emitRun tt tb te) ++ t else r1

/-- Go `func (s Set63) Union(t Set63) Set63`.  Every loop iteration
strictly shrinks `len(s) + len(t)` plus the count of live candidate
runs, so the supplied fuel is never exhausted. -/
def Union (s t : List Nat) : List Nat :=
  if t.isEmpty then s
  else if s.isEmpty then t
  else
    unionLoop (s.length + t.length + 2)
      (headx s).1 (headx s).2.1 (headx s).2.2.1 (headx s).2.2.2
      (headx t).1 (headx t).2.1 (headx t).2.2.1 (headx t).2.2.2 []

/-- The main loop of Go `func (s Set63) Intersection(t Set63) Set63`,
with the same six-case structure as `unionLoop` but emitting only
overlaps. -/
def interLoop : Nat → Option (List Nat) → List Nat → Nat → Nat →
    Option (List Nat) → List Nat → Nat → Nat → List Nat → List Nat
  | 0, _, _, _, _, _, _, _, _, r => r
  | fuel + 1, ss, s, sb, se, tt, t, tb, te, r =>
    if sb ≠ se ∧ tb ≠ te then
      -- s is entirely contained in t
      if tb ≤ sb ∧ se ≤ te then
        interLoop fuel (headx s).1 (headx s).2.1 (headx s).2.2.1 (headx s).2.2.2 tt t tb te
          (r ++ emitRun ss sb se)
      -- t is entirely contained in s
      else if sb ≤ tb ∧ te ≤ se then
        interLoop fuel ss s sb se (headx t).1 (headx t).2.1 (headx t).2.2.1 (headx t).2.2.2
          (r ++ emitRun tt tb te)
      -- s comes entirely before t
      else if se ≤ tb then
        interLoop fuel (headx s).1 (headx s).2.1 (headx s).2.2.1 (headx s).2.2.2 tt t tb te r
      -- t comes entirely before s
      else if te ≤ sb then
        interLoop fuel ss s sb se (headx t).1 (headx t).2.1 (headx t).2.2.1 (headx t).2.2.2 r
      -- [sb ...[tb .. se)...te): emit [tb, se), keep [se, te) as t candidate
      else if sb ≤ tb ∧ se ≤ te then
        interLoop fuel (headx s).1 (headx s).2.1 (headx s).2.2.1 (headx s).2.2.2 none t se te
          (r ++ interval tb se)
      -- [tb ...[sb .. te)...se): emit [sb, te), keep [te, se) as s candidate
      else
        interLoop fuel none s te se (headx t).1 (headx t).2.1 (headx t).2.2.1 (headx t).2.2.2
          (r ++ interval sb te)
    else r

/-- Go `func (s Set63) Intersection(t Set63) Set63`; fuel as in
`Union`. -/
def Intersection (s t : List Nat) : List Nat :=
  if t.isEmpty then t
  else if s.isEmpty then s
  else
    interLoop (s.length + t.length + 2)
      (headx s).1 (headx s).2.1 (headx s).2.2.1 (headx s).2.2.2
      (headx t).1 (headx t).2.1 (headx t).2.2.1 (headx t).2.2.2 []

/-! ### `Complement` -/

/-- The loop of Go `func (s Set63) Complement() (r Set63)`: for each
run `[sb, se)` of `s`, emit the gap `[b, sb)` before it, then continue
from `b = se`; finally emit the gap up to `2^63`. -/
def complLoop : Nat → Nat → Nat → Nat → List Nat → List Nat → List Nat
  | 0, _, _, _, _, r => r
  | fuel + 1, b, sb, se, s, r =>
    if sb ≠ se ∧ b < 2 ^ 63 then
      complLoop fuel se (headx s).2.2.1 (headx s).2.2.2 (headx s).2.1 (r ++ interval b sb)
    else if b < 2 ^ 63 then r ++ interval b (2 ^ 63) else r

/-- Go `func (s Set63) Complement() (r Set63)`.  Every loop iteration
consumes at least one cell of `s` (or retires the current run), so the
supplied fuel is never exhausted. -/
def Complement (s : List Nat) : List Nat :=
  complLoop (s.length + 1) 0 (headx s).2.2.1 (headx s).2.2.2 (headx s).2.1 []

/-! ### `Intersects`

Go `Set63.Intersects` indexes `t[i]` with an index produced by
`search`, which can be `len(t)`, and re-enters its inner loops with an
empty slice, indexing `s[0]`; both are runtime panics, embedded as
`.panic` / `none`. -/

/-- Result of one of the two inner loops of `Intersects`: a panic, a
hit (`return true`), or the updated state when the loop condition
fails. -/
inductive IStep where
  | ipanic : IStep
  | ihit : IStep
  | icont : List Nat → List Nat → IStep

/-- The first inner loop of Go `Intersects`:
`for len(s) <= len(t) { i := t.search(0, len(t), s[0]); ... }`.
When `s` is empty the loop condition `0 <= len(t)` still holds and
`s[0]` panics. -/
def intersectsS : List Nat → List Nat → IStep
  | [], _ => .ipanic  -- s[0] out of range
  | c :: s', t =>
    if s'.length + 1 ≤ t.length then
      let i := search t 0 t.length c
      if i < t.length then
        if contains (t.getD i 0) c || contains c (t.getD i 0) then .ihit
        else intersectsS s' (t.drop i)
      else .ipanic  -- t[i] out of range
    else .icont (c :: s') t

/-- The second inner loop of Go `Intersects`:
`for len(t) <= len(s) { i := s.search(0, len(s), t[0]); ... }`. -/
def intersectsT : List Nat → List Nat → IStep
  | _, [] => .ipanic  -- t[0] out of range
  | s, c :: t' =>
    if t'.length + 1 ≤ s.length then
      let i := search s 0 s.length c
      if i < s.length then
        if contains c (s.getD i 0) || contains (s.getD i 0) c then .ihit
        else intersectsT (s.drop i) t'
      else .ipanic  -- s[i] out of range
    else .icont s (c :: t')

/-- The outer loop of Go `func (s Set63) Intersects(t Set63) bool`.
Every completed outer iteration strictly shrinks `len(s) + len(t)`, so
the explicit fuel `len(s) + len(t) + 1` used below is never exhausted;
`none` means the Go code panics. -/
def intersectsOuter : Nat → List Nat → List Nat → Option Bool
  | 0, _, _ => none
  | fuel + 1, s, t =>
    if 0 < s.length ∧ 0 < t.length then
      match intersectsS s t with
      | .ipanic => none
      | .ihit => some true
      | .icont s' t' =>
        if s'.length = 0 then some false
        else
          match intersectsT s' t' with
          | .ipanic => none
          | .ihit => some true
          | .icont s'' t'' => intersectsOuter fuel s'' t''
    else some false

/-- Go `func (s Set63) Intersects(t Set63) bool`; `none` is a panic. -/
def Intersects (s t : List Nat) : Option Bool :=
  intersectsOuter (s.length + t.length + 1) s t

/-! ### the remaining `Set63` queries -/

/-- Go `func (s Set63) Contains(elem int64) bool`. -/
def Contains (s : List Nat) (elem : Int) : Bool :=
  if 0 ≤ elem then
    let i := search s 0 s.length (singleton elem.toNat)
    if 0 < i ∧ elem.toNat < cend (s.getD (i - 1) 0) then true
    else if i < s.length ∧ cbegin (s.getD i 0) ≤ elem.toNat then true
    else false
  else false

/-- Go `func Interval(min, max int64) Set63`: panics (`none`) on
`min < 0`, returns the empty set when `min > max`, and otherwise the
canonical decomposition of the closed range `[min, max]`. -/
def Interval (mn mx : Int) : Option Set63 :=
  if mn < 0 then none
  else if mn > mx then some []
  else some (interval mn.toNat (mx.toNat + 1))

/-- Go `func (s Set63) IsEmpty() bool`. -/
def IsEmpty (s : List Nat) : Bool := s.isEmpty

/-- Go `func (s Set63) Equal(t Set63) bool`: element-wise comparison. -/
def Equal (s t : List Nat) : Bool := s == t

/-- Go `func (s Set63) Count() (n uint64)`: `n += uint64(v.lsb())` over
all cells, in wrapping 64-bit arithmetic. -/
def Count (s : List Nat) : Nat := s.foldl (fun n v => (n + lsb v) % U64) 0

/-- The same sum without the 64-bit truncation; used to state that the
sum never overflows on canonical sets. -/
def CountExact (s : List Nat) : Nat := s.foldl (fun n v => n + lsb v) 0

/-- The pair scan inside Go `func (s Set63) unnormalized() []cell63`,
carrying the previous cell. -/
def unnormAux : Nat → List Nat → List Nat
  | _, [] => []
  | p, x :: xs =>
    if p ≥ x ∨ contains x p ∨ contains p x ∨ sibling x == p then
      x :: unnormAux x xs
    else unnormAux x xs

/-- Go `func (s Set63) unnormalized() (r []cell63)`: the cells that
violate canonical form with respect to their predecessor. -/
def unnormalized : List Nat → List Nat
  | [] => []
  | x :: xs => unnormAux x xs

/-! ### `NewSet63` -/

/-- The second inner loop of Go `NewSet63`: as long as the most recent
accepted cell equals `e`'s sibling (`ss[l]^e^e.lsb()<<1 == 0`), drop it
and replace `e` by its parent.  The accepted cells are carried in
reverse order (most recent first). -/
def foldSib : Nat → List Nat → Nat × List Nat
  | e, [] => (e, [])
  | e, x :: rest =>
    if x ^^^ e ^^^ (lsb e * 2 % U64) == 0 then foldSib (parent e) rest
    else (e, x :: rest)

/-- The first inner loop of Go `NewSet63`: drop accepted cells that `e`
contains (dead for a level-0 `e` already checked for the converse, but
translated faithfully). -/
def dropContained (e : Nat) : List Nat → List Nat
  | [] => []
  | x :: rest => if contains e x then dropContained e rest else x :: rest

/-- One iteration of the `NewSet63` element loop, on the reversed
accumulator (most recently accepted cell first). -/
def insert63 (rss : List Nat) (e : Nat) : List Nat :=
  match rss with
  | x :: _ =>
    if contains x e then rss
    else
      let p := foldSib e (dropContained e rss)
      p.1 :: p.2
  | [] => [e]

/-- Go `func NewSet63(elem ...int64) Set63`: sort, panic (`none`) when
the smallest element is negative, then fold every element in as a
singleton, merging upward.  Go's `sort.Sort` is embedded as insertion
sort: on integers any sorting algorithm yields the same (unique) sorted
permutation.  The accumulator is reversed at the end because the fold
works on the reversed list. -/
def NewSet63 (elem : List Int) : Option Set63 :=
  if elem.isEmpty then some []
  else
    let sorted := elem.insertionSort (· ≤ ·)
    match sorted with
    | [] => some []
    | x :: _ =>
      if x < 0 then none
      else some ((sorted.foldl (fun rss ee => insert63 rss (singleton ee.toNat)) []).reverse)

/-! ### `Cover` (cover.go)

The transient state of one `Cover` call: an arena `shape` of candidate
nodes and a min-heap `leaves` of indices into it, driven by Go's
`container/heap`.  `int` fields that use `-1` as a sentinel are
embedded as `Int`.  Out-of-range slice reads, which panic in Go, are
embedded as `none` where they can occur on a `Cover` execution
(`blowup`); the loops whose iteration counts Go does not bound
syntactically take explicit fuel large enough for every terminating
execution. -/

/-- Go `type cand struct`. -/
structure cand where
  c : Nat
  w : Nat
  il : Int
  ir : Int
  ip : Int
  g : Nat

/-- The out-of-range default for arena reads (never read on the
executions considered; Go would panic instead). -/
def cdefault : cand := ⟨0, 0, -1, -1, -1, 0⟩

/-- Go `func (c *cand) waste() uint64 { return uint64(c.c.lsb()) - c.w }`
(wrapping 64-bit subtraction). -/
def waste (x : cand) : Nat := sub64 (lsb x.c) x.w

/-- Go `func (c *cand) isLeaf() bool { return c.il == -1 }`. -/
def isLeaf (x : cand) : Bool := x.il == -1

/-- The promotion loop inside `shape`'s single-cell case:
`for uint64(cc.lsb()) < minGrain { p := cc.parent(); if p == 0 { break };
cc = p }`.  The level strictly increases, so 64 steps of fuel are never
exhausted. -/
def promote : Nat → Nat → Nat → Nat
  | 0, cc, _ => cc
  | fuel + 1, cc, minGrain =>
    if lsb cc < minGrain then
      let p := parent cc
      if p == 0 then cc else promote fuel p minGrain
    else cc

/-- Go `func (s Set63) shape(i, j int, c cell63, minGrain uint64,
sh *[]cand) uint64`: build the decomposition tree of `s[i:j]` under the
candidate cell `c`, appending nodes to `sh` (children before their
parent) and returning the covered weight.  The recursion descends one
level per call, so fuel 64 from the root `unity63` is never exhausted
on the inputs where the Go recursion terminates. -/
def shape (s : List Nat) : Nat → Nat → Nat → Nat → Nat → List cand → List cand × Nat
  | 0, _, _, _, _, sh => (sh, 0)
  | fuel + 1, i, j, c, minGrain, sh =>
    if i == j then (sh, 0)
    else if lsb c < minGrain * 2 % U64 then
      let w := Count ((s.drop i).take (j - i))
      (sh ++ [⟨c, w, -1, -1, -1, 0⟩], w)
    else if i + 1 == j then
      let w := lsb (s.getD i 0)
      let cc := promote 64 (s.getD i 0) minGrain
      (sh ++ [⟨cc, w, -1, -1, -1, 0⟩], w)
    else
      let cl := (children c).1
      let cr := (children c).2
      let m := search s i j c
      let r1 := shape s fuel i m cl minGrain sh
      let il := (r1.1.length : Int) - 1
      let r2 := shape s fuel m j cr minGrain r1.1
      let ir := (r2.1.length : Int) - 1
      let nl := r1.2
      let nr := r2.2
      if nl ≠ 0 ∧ nr ≠ 0 then
        let nn : cand := ⟨c, (nl + nr) % U64, il, ir, -1, 0⟩
        let shIl := r2.1.getD il.toNat cdefault
        let shIr := r2.1.getD ir.toNat cdefault
        let g := sub64 (sub64 (waste nn) (waste shIl)) (waste shIr)
        let sh2 := ((r2.1.set il.toNat { shIl with ip := r2.1.length, g := g }).set
          ir.toNat { shIr with ip := r2.1.length, g := g }) ++ [nn]
        (sh2, (nl + nr) % U64)
      else (r2.1, (nl + nr) % U64)

/-- `container/heap`'s `Less` through `pQ.Less`: compare the waste-gain
of the two referenced nodes, break ties by heap position. -/
def pqLess (sh : List cand) (leaves : List Nat) (i j : Nat) : Bool :=
  let gi := (sh.getD (leaves.getD i 0) cdefault).g
  let gj := (sh.getD (leaves.getD j 0) cdefault).g
  if gi ≠ gj then gi < gj else i < j

/-- `pQ.Swap` on the `leaves` array. -/
def lswap (l : List Nat) (i j : Nat) : List Nat :=
  (l.set i (l.getD j 0)).set j (l.getD i 0)

/-- The loop of `container/heap`'s `up(h, j)`; the position `j`
strictly decreases, so the fuel `j + 1` supplied by `heapUp` is never
exhausted. -/
def heapUpF (sh : List cand) : Nat → List Nat → Nat → List Nat
  | 0, leaves, _ => leaves
  | fuel + 1, leaves, j =>
    let i := (j - 1) / 2
    if i = j ∨ ¬ pqLess sh leaves j i then leaves
    else heapUpF sh fuel (lswap leaves i j) i

/-- `container/heap`'s `up(h, j)`. -/
def heapUp (sh : List cand) (leaves : List Nat) (j : Nat) : List Nat :=
  heapUpF sh (j + 1) leaves j

/-- The loop of `container/heap`'s `down(h, i, n)`; `n - i` strictly
decreases, so the fuel supplied by `heapDown` is never exhausted. -/
def heapDownF (sh : List cand) : Nat → List Nat → Nat → Nat → List Nat
  | 0, leaves, _, _ => leaves
  | fuel + 1, leaves, i, n =>
    let j1 := 2 * i + 1
    if j1 < n then
      let j := if j1 + 1 < n ∧ pqLess sh leaves (j1 + 1) j1 then j1 + 1 else j1
      if pqLess sh leaves j i then
        heapDownF sh fuel (lswap leaves i j) j n
      else leaves
    else leaves

/-- `container/heap`'s `down(h, i, n)` (the boolean result is unused by
`Pop`). -/
def heapDown (sh : List cand) (leaves : List Nat) (i n : Nat) : List Nat :=
  heapDownF sh (n - i) leaves i n

/-- `heap.Push`: append, then sift up from the last position. -/
def heapPush (sh : List cand) (leaves : List Nat) (x : Nat) : List Nat :=
  heapUp sh (leaves ++ [x]) leaves.length

/-- `heap.Pop`: swap the root to the end, sift down the prefix, then
remove and return the last element. -/
def heapPop (sh : List cand) (leaves : List Nat) : Nat × List Nat :=
  let n := leaves.length - 1
  let l2 := heapDown sh (lswap leaves 0 n) 0 n
  (l2.getD n 0, l2.take n)

/-- Go `func (pq *pQ) blowup(ip int)`: invalidate both children of
node `ip` and turn it into a leaf.  `none` embeds the panics: the
explicit `panic("blowup 0")` and the out-of-range child indices. -/
def blowupF (sh : List cand) (ip : Nat) : Option (List cand) :=
  if ip = 0 then none
  else
    let p := sh.getD ip cdefault
    if 0 ≤ p.il ∧ p.il.toNat < sh.length ∧ 0 ≤ p.ir ∧ p.ir.toNat < sh.length then
      let sh1 := sh.set p.il.toNat { sh.getD p.il.toNat cdefault with c := 0 }
      let sh2 := sh1.set p.ir.toNat { sh1.getD p.ir.toNat cdefault with c := 0 }
      some (sh2.set ip { p with il := -1, ir := -1 })
    else none

/-- The shave loop of Go `Cover`: pop leaves in waste-gain order; merge
a popped live leaf into its parent when its gain is zero or the queue
is still over budget; stop otherwise.  `Sum.inr` is the early
`return Set63{...}` for the root; `Sum.inl` is the final arena.  Each
iteration pops one entry and a merge retires two live nodes, so the
fuel supplied by `Cover` is never exhausted. -/
def shave : Nat → List cand → List Nat → Nat → Option (List cand ⊕ List Nat)
  | 0, _, _, _ => none
  | fuel + 1, sh, leaves, maxSize =>
    if 1 < leaves.length then
      let pr := heapPop sh leaves
      let i := pr.1
      let leaves' := pr.2
      if (sh.getD i cdefault).c == 0 then shave fuel sh leaves' maxSize
      else
        let g := (sh.getD i cdefault).g
        if g == 0 ∨ maxSize ≤ leaves'.length then
          let ip := (sh.getD i cdefault).ip
          if ip == -1 then some (Sum.inr [(sh.getD i cdefault).c])
          else
            match blowupF sh ip.toNat with
            | none => none
            | some sh' => shave fuel sh' (heapPush sh' leaves' ip.toNat) maxSize
        else if leaves'.length < maxSize then some (Sum.inl sh)
        else shave fuel sh leaves' maxSize
    else some (Sum.inl sh)

/-- Go `func (pq *pQ) getLeaves(i int, s *Set63)`: collect the cells of
the surviving leaves left to right.  Children always precede their
parent in the arena, so the recursion depth is bounded by the arena
size and the fuel supplied by `Cover` is never exhausted. -/
def getLeaves (sh : List cand) : Nat → Nat → List Nat → List Nat
  | 0, _, s => s
  | fuel + 1, i, s =>
    if (sh.getD i cdefault).c ≠ 0 ∧ isLeaf (sh.getD i cdefault) then
      s ++ [(sh.getD i cdefault).c]
    else
      getLeaves sh fuel (sh.getD i cdefault).ir.toNat
        (getLeaves sh fuel (sh.getD i cdefault).il.toNat s)

/-- Go `func (s Set63) Cover(maxSize int, minGrain uint64) Set63`;
`none` embeds a panic (or exhausted fuel, which no terminating Go
execution reaches). -/
def Cover (s : List Nat) (maxSize : Int) (minGrain : Nat) : Option (List Nat) :=
  if s.isEmpty then some []
  else
    let maxSize' := if maxSize < 1 ∨ (s.length : Int) < maxSize then (s.length : Int) else maxSize
    let sh := (shape s 64 0 s.length unity63 minGrain []).1
    let leaves := (List.range sh.length).foldl
      (fun lv i => if isLeaf (sh.getD i cdefault) then heapPush sh lv i else lv) []
    match shave ((sh.length + leaves.length + 1) * 4) sh leaves maxSize'.toNat with
    | none => none
    | some (Sum.inr out) => some out
    | some (Sum.inl shF) => some (getLeaves shF (shF.length + 1) (shF.length - 1) [])

/-!
## Verification layer

Every nonzero 64-bit cell has the normal form `(2*m + 1) * 2^k`: `k` is
the level and `m` indexes the cell among its peers.  The lemmas below
compute each bit-twiddling operation of the source on this normal form.
-/

theorem U64_eq : U64 = 2 ^ 64 := rfl

/-- Bits of the bounded complement `2^j - 1 - x`. -/
theorem testBit_two_pow_sub_one_sub {j x : Nat} (hx : x < 2 ^ j) (i : Nat) :
    (2 ^ j - 1 - x).testBit i = (decide (i < j) && !x.testBit i) := by
  induction j generalizing x i with
  | zero =>
    interval_cases x
    simp [Nat.zero_testBit]
  | succ j ih =>
    have hp : (2 : Nat) ^ (j + 1) = 2 * 2 ^ j := by ring
    cases i with
    | zero =>
      have h2 : (2 ^ (j + 1) - 1 - x) % 2 = 1 - x % 2 := by omega
      rcases Nat.mod_two_eq_zero_or_one x with h | h <;>
        simp [Nat.testBit_zero, h2, h]
    | succ i =>
      have h2 : (2 ^ (j + 1) - 1 - x) / 2 = 2 ^ j - 1 - x / 2 := by omega
      rw [Nat.testBit_add_one, h2, ih (by omega), Nat.testBit_add_one]
      have : (decide (i + 1 < j + 1)) = (decide (i < j)) := by simp
      rw [this]

/-- `x &&& y = 0` means no bit is shared. -/
theorem land_eq_zero_iff {x y : Nat} :
    x &&& y = 0 ↔ ∀ i, ¬(x.testBit i = true ∧ y.testBit i = true) := by
  constructor
  · intro h i hb
    have := congrArg (fun z => z.testBit i) h
    simp only [Nat.testBit_land, Nat.zero_testBit] at this
    rw [hb.1, hb.2] at this
    simp at this
  · intro h
    apply Nat.eq_of_testBit_eq
    intro i
    simp only [Nat.testBit_land, Nat.zero_testBit]
    have := h i
    cases hx : x.testBit i <;> cases hy : y.testBit i <;> simp_all

/-- Being below `2^j` is having no bit at `j` or above. -/
theorem lt_two_pow_iff_high {x j : Nat} :
    x < 2 ^ j ↔ ∀ i, j ≤ i → x.testBit i = false := by
  constructor
  · intro h i hi
    exact Nat.testBit_lt_two_pow (lt_of_lt_of_le h (Nat.pow_le_pow_right (by norm_num) hi))
  · intro h
    have hz : x >>> j = 0 := by
      apply Nat.eq_of_testBit_eq
      intro i
      rw [Nat.testBit_shiftRight, Nat.zero_testBit]
      exact h _ (Nat.le_add_right _ _)
    rw [Nat.shiftRight_eq_div_pow] at hz
    exact (Nat.div_eq_zero_iff (Nat.pos_pow_of_pos j (by norm_num))).mp hz

/-- Bits of the high mask `2^64 - 2^j`. -/
theorem testBit_U64_sub_two_pow {j : Nat} (hj : j ≤ 64) (i : Nat) :
    (U64 - 2 ^ j).testBit i = (decide (j ≤ i) && decide (i < 64)) := by
  have hsplit : U64 - 2 ^ j = 2 ^ j * (2 ^ (64 - j) - 1) := by
    rw [Nat.mul_sub, mul_one, ← pow_add, U64_eq]
    congr 2
    omega
  rw [hsplit, Nat.testBit_mul_pow_two, Nat.testBit_two_pow_sub_one]
  rcases Nat.lt_or_ge i j with h | h
  · simp [Nat.not_le.mpr h, ge_iff_le, Nat.not_le.mpr h]
  · have h1 : decide (i ≥ j) = true := decide_eq_true h
    rw [h1, Bool.true_and, Bool.true_and, decide_eq_decide]
    omega

/-- Masking by the high mask tests the magnitude. -/
theorem land_high_mask_eq_zero {x j : Nat} (hx : x < U64) (hj : j ≤ 64) :
    x &&& (U64 - 2 ^ j) = 0 ↔ x < 2 ^ j := by
  rw [land_eq_zero_iff, lt_two_pow_iff_high]
  constructor
  · intro h i hi
    by_cases h64 : i < 64
    · by_contra hb
      simp only [Bool.not_eq_false] at hb
      exact h i ⟨hb, by rw [testBit_U64_sub_two_pow hj]; simp [hi, h64]⟩
    · exact Nat.testBit_lt_two_pow (lt_of_lt_of_le hx
        (by rw [U64_eq]; exact Nat.pow_le_pow_right (by norm_num) (by omega)))
  · intro h i hb
    obtain ⟨hx1, hx2⟩ := hb
    rw [testBit_U64_sub_two_pow hj] at hx2
    simp only [Bool.and_eq_true, decide_eq_true_eq] at hx2
    rw [h i hx2.1] at hx1
    exact Bool.false_ne_true hx1

/-- Two numbers agree above bit `j` iff their xor is below `2^j`. -/
theorem xor_lt_iff_div_eq {c d j : Nat} :
    c ^^^ d < 2 ^ j ↔ c / 2 ^ j = d / 2 ^ j := by
  have hs : (c ^^^ d) >>> j = (c >>> j) ^^^ (d >>> j) := by
    apply Nat.eq_of_testBit_eq
    intro i
    simp [Nat.testBit_shiftRight, Nat.testBit_xor]
  constructor
  · intro h
    have : (c ^^^ d) >>> j = 0 := by
      rw [Nat.shiftRight_eq_div_pow]
      exact Nat.div_eq_of_lt h
    rw [hs] at this
    have := Nat.xor_eq_zero.mp this
    rwa [Nat.shiftRight_eq_div_pow, Nat.shiftRight_eq_div_pow] at this
  · intro h
    have : (c ^^^ d) >>> j = 0 := by
      rw [hs, Nat.shiftRight_eq_div_pow, Nat.shiftRight_eq_div_pow, h, Nat.xor_self]
    rw [Nat.shiftRight_eq_div_pow] at this
    have h2 := (Nat.div_eq_zero_iff (Nat.pos_pow_of_pos j (by norm_num))).mp this
    exact h2

theorem testBit_two_mul_add_one_zero (m : Nat) : (2 * m + 1).testBit 0 = true := by
  rw [Nat.testBit_zero]
  have h : (2 * m + 1) % 2 = 1 := by omega
  simp [h]

theorem testBit_two_mul_add_one_succ (m i : Nat) : (2 * m + 1).testBit (i + 1) = m.testBit i := by
  rw [Nat.testBit_add_one]
  congr 1
  omega

theorem testBit_two_mul_zero (m : Nat) : (2 * m).testBit 0 = false := by
  rw [Nat.testBit_zero]
  have h : (2 * m) % 2 = 0 := by omega
  simp [h]

theorem testBit_two_mul_succ (m i : Nat) : (2 * m).testBit (i + 1) = m.testBit i := by
  rw [Nat.testBit_add_one]
  have h : 2 * m / 2 = m := by omega
  rw [h]

/-- Bits of a cell in normal form. -/
theorem testBit_form (m k i : Nat) :
    ((2 * m + 1) * 2 ^ k).testBit i = (decide (k ≤ i) && (2 * m + 1).testBit (i - k)) := by
  rw [mul_comm, Nat.testBit_mul_pow_two]

theorem two_pow_le_form (m k : Nat) : 2 ^ k ≤ (2 * m + 1) * 2 ^ k := by
  calc 2 ^ k = 1 * 2 ^ k := by ring
  _ ≤ (2 * m + 1) * 2 ^ k := Nat.mul_le_mul_right _ (by omega)

theorem form_k_lt {m k : Nat} (h : (2 * m + 1) * 2 ^ k < U64) : k < 64 := by
  have h1 := two_pow_le_form m k
  rw [U64_eq] at h
  have h2 : (2 : Nat) ^ k < 2 ^ 64 := lt_of_le_of_lt h1 h
  exact (Nat.pow_lt_pow_iff_right (by norm_num)).mp h2

theorem form_m_lt {m k : Nat} (h : (2 * m + 1) * 2 ^ k < U64) :
    2 * m + 1 < 2 ^ (64 - k) := by
  have hk := form_k_lt h
  have hsplit : (2 : Nat) ^ 64 = 2 ^ (64 - k) * 2 ^ k := by
    rw [← pow_add]
    congr 1
    omega
  rw [U64_eq, hsplit] at h
  exact Nat.lt_of_mul_lt_mul_right h

/-- The least-significant-bit extraction, on the normal form. -/
theorem lsb_form {m k : Nat} (h : (2 * m + 1) * 2 ^ k < U64) :
    lsb ((2 * m + 1) * 2 ^ k) = 2 ^ k := by
  have hk := form_k_lt h
  have hm := form_m_lt h
  have key : (2 * m + 1) * 2 ^ k + 2 ^ k * (2 ^ (64 - k) - 1 - 2 * m) = U64 := by
    have hX : (2 * m + 1) + (2 ^ (64 - k) - 1 - 2 * m) = 2 ^ (64 - k) := by omega
    calc (2 * m + 1) * 2 ^ k + 2 ^ k * (2 ^ (64 - k) - 1 - 2 * m)
        = 2 ^ k * ((2 * m + 1) + (2 ^ (64 - k) - 1 - 2 * m)) := by ring
    _ = 2 ^ k * 2 ^ (64 - k) := by rw [hX]
    _ = U64 := by rw [U64_eq, ← pow_add]; congr 1; omega
  have hc0 : 0 < (2 * m + 1) * 2 ^ k := by positivity
  have hneg : neg64 ((2 * m + 1) * 2 ^ k) = 2 ^ k * (2 ^ (64 - k) - 1 - 2 * m) := by
    show (U64 - (2 * m + 1) * 2 ^ k % U64) % U64 = _
    rw [Nat.mod_eq_of_lt h, Nat.mod_eq_of_lt (by omega)]
    omega
  rw [lsb, hneg]
  apply Nat.eq_of_testBit_eq
  intro i
  rw [Nat.testBit_land, testBit_form, Nat.testBit_mul_pow_two,
    testBit_two_pow_sub_one_sub (show 2 * m < 2 ^ (64 - k) by omega), Nat.testBit_two_pow]
  rcases Nat.lt_trichotomy i k with hik | hik | hik
  · have h1 : ¬(k ≤ i) := by omega
    have h2 : ¬(k = i) := by omega
    simp [h1, h2]
  · subst hik
    have h1 : i ≤ i := le_refl i
    have h2 : 0 < 64 - i := by omega
    simp only [Nat.sub_self, h1, decide_eq_true h1, Bool.true_and, ge_iff_le,
      testBit_two_mul_add_one_zero, testBit_two_mul_zero]
    simp [h2]
  · have h1 : k ≤ i := by omega
    have h2 : ¬(k = i) := by omega
    obtain ⟨d, hd⟩ : ∃ d, i - k = d + 1 := ⟨i - k - 1, by omega⟩
    simp only [decide_eq_true h1, Bool.true_and, ge_iff_le, hd,
      testBit_two_mul_add_one_succ, testBit_two_mul_succ, h2, decide_eq_false h2]
    cases hmb : (m.testBit d) <;> simp [hmb]

theorem cbegin_form {m k : Nat} (h : (2 * m + 1) * 2 ^ k < U64) :
    cbegin ((2 * m + 1) * 2 ^ k) = m * 2 ^ k := by
  show ((2 * m + 1) * 2 ^ k - lsb _) / 2 = m * 2 ^ k
  rw [lsb_form h]
  have h1 : (2 * m + 1) * 2 ^ k = 2 * (m * 2 ^ k) + 2 ^ k := by ring
  rw [h1]
  generalize m * 2 ^ k = B
  generalize (2 : Nat) ^ k = C
  omega

theorem cend_form {m k : Nat} (h : (2 * m + 1) * 2 ^ k < U64) :
    cend ((2 * m + 1) * 2 ^ k) = (m + 1) * 2 ^ k := by
  show ((2 * m + 1) * 2 ^ k - lsb _) / 2 + lsb _ = (m + 1) * 2 ^ k
  rw [lsb_form h]
  have h1 : (2 * m + 1) * 2 ^ k = 2 * (m * 2 ^ k) + 2 ^ k := by ring
  have h2 : (m + 1) * 2 ^ k = m * 2 ^ k + 2 ^ k := by ring
  rw [h1, h2]
  generalize m * 2 ^ k = B
  generalize (2 : Nat) ^ k = C
  omega

/-- Every positive number is a cell in normal form. -/
theorem form_exists {c : Nat} (h0 : 0 < c) : ∃ m k, c = (2 * m + 1) * 2 ^ k := by
  obtain ⟨k, m', hodd, hc⟩ := Nat.exists_eq_two_pow_mul_odd (Nat.pos_iff_ne_zero.mp h0)
  obtain ⟨r, hr⟩ := hodd
  exact ⟨r, k, by rw [hc, hr]; ring⟩

/-- A cell is valid when it is a nonzero 64-bit word. -/
def cvalid (c : Nat) : Prop := 0 < c ∧ c < U64

theorem cvalid_begin_lt_end {c : Nat} (hc : cvalid c) : cbegin c < cend c := by
  obtain ⟨m, k, rfl⟩ := form_exists hc.1
  rw [cbegin_form hc.2, cend_form hc.2]
  have : 0 < 2 ^ k := Nat.pos_pow_of_pos k (by norm_num)
  nlinarith

theorem cvalid_end_le {c : Nat} (hc : cvalid c) : cend c ≤ 2 ^ 63 := by
  obtain ⟨m, k, rfl⟩ := form_exists hc.1
  rw [cend_form hc.2]
  have hk : k < 64 := form_k_lt hc.2
  have hm := form_m_lt hc.2
  rcases Nat.eq_or_lt_of_le (Nat.le_of_lt_succ hk) with hk63 | hk63
  · subst hk63
    have hm0 : m = 0 := by
      have : (2 : Nat) ^ (64 - 63) = 2 := by norm_num
      omega
    subst hm0
    norm_num
  · have h5 : m + 1 ≤ 2 ^ (63 - k) := by
      have hs : (2 : Nat) ^ (64 - k) = 2 * 2 ^ (63 - k) := by
        rw [← pow_succ']
        congr 1
        omega
      omega
    calc (m + 1) * 2 ^ k ≤ 2 ^ (63 - k) * 2 ^ k := Nat.mul_le_mul_right _ h5
    _ = 2 ^ 63 := by rw [← pow_add]; congr 1; omega

/-- A valid cell is the sum of its begin and its end. -/
theorem cvalid_val_eq {c : Nat} (hc : cvalid c) : c = cbegin c + cend c := by
  obtain ⟨m, k, rfl⟩ := form_exists hc.1
  rw [cbegin_form hc.2, cend_form hc.2]
  ring

theorem cend_eq_begin_add_lsb {c : Nat} (hc : cvalid c) : cend c = cbegin c + lsb c := by
  obtain ⟨m, k, rfl⟩ := form_exists hc.1
  rw [cbegin_form hc.2, cend_form hc.2, lsb_form hc.2]
  ring

theorem lt_div_succ_mul {a b : Nat} (h : 0 < b) : a < (a / b + 1) * b := by
  have h1 := Nat.div_add_mod a b
  have h2 := Nat.mod_lt a h
  have h3 : (a / b + 1) * b = b * (a / b) + b := by ring
  omega

/-- `not64` of a low mask is the corresponding high mask. -/
theorem not64_two_pow_sub_one {j : Nat} (hj : j ≤ 64) :
    not64 (2 ^ j - 1) = U64 - 2 ^ j := by
  have hlt : 2 ^ j - 1 < U64 := by
    rw [U64_eq]
    have h2 : (2 : Nat) ^ j ≤ 2 ^ 64 := Nat.pow_le_pow_right (by norm_num) hj
    omega
  show (2 ^ j - 1) % U64 ^^^ (U64 - 1) = U64 - 2 ^ j
  rw [Nat.mod_eq_of_lt hlt]
  apply Nat.eq_of_testBit_eq
  intro i
  rw [Nat.testBit_xor, testBit_U64_sub_two_pow hj, U64_eq, Nat.testBit_two_pow_sub_one,
    Nat.testBit_two_pow_sub_one]
  by_cases h1 : i < j <;> by_cases h2 : i < 64 <;> simp [h1, h2] <;> omega

/-- The `contains` test on a valid cell is the two-scaled range test:
`contains c d` holds iff the packed value `d` lies in
`[2*begin(c), 2*end(c))`.  (For `d` of a level at most that of `c` this
is range inclusion; for larger `d` it is a one-sided prefix test.) -/
theorem contains_iff {c d : Nat} (hc : cvalid c) (hd : d < U64) :
    contains c d = true ↔ 2 * cbegin c ≤ d ∧ d < 2 * cend c := by
  obtain ⟨m, k, rfl⟩ := form_exists hc.1
  have hk := form_k_lt hc.2
  rw [cbegin_form hc.2, cend_form hc.2]
  show (((2 * m + 1) * 2 ^ k ^^^ d) &&& not64 (sub64 (lsb _ * 2) 1) == 0) = true ↔ _
  rw [lsb_form hc.2]
  rcases Nat.eq_or_lt_of_le (Nat.le_of_lt_succ hk) with hk63 | hk63
  · -- k = 63: the universe cell; the mask is zero and everything fits
    subst hk63
    have hm0 : m = 0 := by
      have hm := form_m_lt hc.2
      have : (2 : Nat) ^ (64 - 63) = 2 := by norm_num
      omega
    subst hm0
    have hsub : sub64 (2 ^ 63 * 2) 1 = U64 - 1 := by
      show (2 ^ 63 * 2 % U64 + (U64 - 1 % U64)) % U64 = U64 - 1
      rw [U64_eq]
      norm_num
    rw [hsub]
    have hnot : not64 (U64 - 1) = 0 := by
      show (U64 - 1) % U64 ^^^ (U64 - 1) = 0
      rw [Nat.mod_eq_of_lt (by rw [U64_eq]; norm_num), Nat.xor_self]
    rw [hnot, Nat.and_zero]
    constructor
    · intro _
      rw [U64_eq] at hd
      have h0 : 2 * (0 * 2 ^ 63) = 0 := by norm_num
      have h1 : 2 * ((0 + 1) * 2 ^ 63) = 2 ^ 64 := by norm_num
      omega
    · intro _
      rfl
  · -- k ≤ 62: the mask keeps the bits from k+1 up
    have hk62 : k ≤ 62 := by omega
    have hp1 : (2 : Nat) ^ (k + 1) < U64 := by
      rw [U64_eq]
      exact Nat.pow_lt_pow_right (by norm_num) (by omega)
    have hsub : sub64 (2 ^ k * 2) 1 = 2 ^ (k + 1) - 1 := by
      show (2 ^ k * 2 % U64 + (U64 - 1 % U64)) % U64 = 2 ^ (k + 1) - 1
      have he : (2 : Nat) ^ k * 2 = 2 ^ (k + 1) := by ring
      rw [he, U64_eq] at *
      have h1 : (0 : Nat) < 2 ^ (k + 1) := by positivity
      generalize hg : (2 : Nat) ^ (k + 1) = A at *
      omega
    rw [hsub, not64_two_pow_sub_one (by omega)]
    have hxor_lt : (2 * m + 1) * 2 ^ k ^^^ d < U64 := by
      rw [U64_eq] at *
      exact Nat.xor_lt_two_pow hc.2 hd
    rw [beq_iff_eq, land_high_mask_eq_zero hxor_lt (by omega), xor_lt_iff_div_eq]
    have hcd : (2 * m + 1) * 2 ^ k / 2 ^ (k + 1) = m := by
      have he : (2 * m + 1) * 2 ^ k = 2 ^ k + 2 ^ (k + 1) * m := by ring
      rw [he, Nat.add_mul_div_left _ _ (by positivity : (0:Nat) < 2 ^ (k + 1)),
        Nat.div_eq_of_lt (Nat.pow_lt_pow_right (by norm_num) (by omega))]
      omega
    rw [hcd]
    constructor
    · intro hdm
      constructor
      · have h1 : d / 2 ^ (k + 1) * 2 ^ (k + 1) ≤ d := Nat.div_mul_le_self _ _
        have he2 : 2 * (m * 2 ^ k) = m * 2 ^ (k + 1) := by ring
        rw [he2, hdm]
        exact h1
      · have h2 : d < (d / 2 ^ (k + 1) + 1) * 2 ^ (k + 1) := lt_div_succ_mul (by positivity)
        have he2 : 2 * ((m + 1) * 2 ^ k) = (m + 1) * 2 ^ (k + 1) := by ring
        rw [he2, hdm]
        exact h2
    · rintro ⟨h1, h2⟩
      refine (Nat.div_eq_of_lt_le ?_ ?_).symm
      · calc m * 2 ^ (k + 1) = 2 * (m * 2 ^ k) := by ring
        _ ≤ d := h1
      · calc d < 2 * ((m + 1) * 2 ^ k) := h2
        _ = (m + 1) * 2 ^ (k + 1) := by ring

/-- Separated valid cells are ordered as packed values. -/
theorem val_lt_of_sep {a b : Nat} (ha : cvalid a) (hb : cvalid b)
    (h : cend a ≤ cbegin b) : a < b := by
  have h1 := cvalid_val_eq ha
  have h2 := cvalid_val_eq hb
  have h3 := cvalid_begin_lt_end ha
  have h4 := cvalid_begin_lt_end hb
  omega

/-- Separated valid cells do not `contains` each other, in either
direction. -/
theorem contains_eq_false_of_sep {a b : Nat} (ha : cvalid a) (hb : cvalid b)
    (h : cend a ≤ cbegin b) : contains a b = false ∧ contains b a = false := by
  have h1 := cvalid_val_eq ha
  have h2 := cvalid_val_eq hb
  have h3 := cvalid_begin_lt_end ha
  have h4 := cvalid_begin_lt_end hb
  constructor
  · rw [← Bool.not_eq_true, contains_iff ha hb.2]
    omega
  · rw [← Bool.not_eq_true, contains_iff hb ha.2]
    omega

theorem form_trichotomy_aux (m k n j : Nat) (hkj : k ≤ j) :
    (n * 2 ^ j ≤ m * 2 ^ k ∧ (m + 1) * 2 ^ k ≤ (n + 1) * 2 ^ j) ∨
    (m + 1) * 2 ^ k ≤ n * 2 ^ j ∨ (n + 1) * 2 ^ j ≤ m * 2 ^ k := by
  set D := j - k with hD
  have h2j : (2 : Nat) ^ j = 2 ^ D * 2 ^ k := by
    rw [← pow_add]
    congr 1
    omega
  have hD0 : 0 < (2 : Nat) ^ D := by positivity
  set q := m / 2 ^ D with hq
  have hlo : q * 2 ^ D ≤ m := by
    rw [hq]
    exact Nat.div_mul_le_self _ _
  have hhi : m < (q + 1) * 2 ^ D := lt_div_succ_mul hD0
  rcases Nat.lt_trichotomy q n with hlt | heq | hgt
  · right; left
    have : m + 1 ≤ (q + 1) * 2 ^ D := hhi
    calc (m + 1) * 2 ^ k ≤ (q + 1) * 2 ^ D * 2 ^ k := Nat.mul_le_mul_right _ this
    _ = (q + 1) * 2 ^ j := by rw [h2j]; ring
    _ ≤ n * 2 ^ j := Nat.mul_le_mul_right _ (by omega)
  · left
    subst heq
    constructor
    · calc q * 2 ^ j = q * 2 ^ D * 2 ^ k := by rw [h2j]; ring
      _ ≤ m * 2 ^ k := Nat.mul_le_mul_right _ hlo
    · calc (m + 1) * 2 ^ k ≤ (q + 1) * 2 ^ D * 2 ^ k := Nat.mul_le_mul_right _ hhi
      _ = (q + 1) * 2 ^ j := by rw [h2j]; ring
  · right; right
    calc (n + 1) * 2 ^ j ≤ q * 2 ^ j := Nat.mul_le_mul_right _ (by omega)
    _ = q * 2 ^ D * 2 ^ k := by rw [h2j]; ring
    _ ≤ m * 2 ^ k := Nat.mul_le_mul_right _ hlo

theorem testBit_one_succ (d : Nat) : (1 : Nat).testBit (d + 1) = false := by
  apply Nat.testBit_lt_two_pow
  have h : (2 : Nat) ≤ 2 ^ (d + 1) := by
    calc (2 : Nat) = 2 ^ 1 := by norm_num
    _ ≤ 2 ^ (d + 1) := Nat.pow_le_pow_right (by norm_num) (by omega)
  omega

theorem two_mul_xor_one (r : Nat) : 2 * r ^^^ 1 = 2 * r + 1 := by
  apply Nat.eq_of_testBit_eq
  intro i
  cases i with
  | zero =>
    rw [Nat.testBit_xor, testBit_two_mul_zero, testBit_two_mul_add_one_zero]
    rfl
  | succ d =>
    rw [Nat.testBit_xor, testBit_two_mul_succ, testBit_two_mul_add_one_succ,
      testBit_one_succ, Bool.xor_false]

theorem two_mul_add_one_xor_one (r : Nat) : (2 * r + 1) ^^^ 1 = 2 * r := by
  apply Nat.eq_of_testBit_eq
  intro i
  cases i with
  | zero =>
    rw [Nat.testBit_xor, testBit_two_mul_zero, testBit_two_mul_add_one_zero]
    rfl
  | succ d =>
    rw [Nat.testBit_xor, testBit_two_mul_succ, testBit_two_mul_add_one_succ,
      testBit_one_succ, Bool.xor_false]

/-- The normal form of a cell is unique. -/
theorem form_inj {m k n j : Nat} (h : (2 * m + 1) * 2 ^ k = (2 * n + 1) * 2 ^ j)
    (hU : (2 * m + 1) * 2 ^ k < U64) : m = n ∧ k = j := by
  have h1 := lsb_form hU
  have h2 := lsb_form (h ▸ hU)
  rw [h] at h1
  have hpow : (2 : Nat) ^ j = 2 ^ k := h2.symm.trans h1
  have hkj : k = j := (Nat.pow_right_injective (by norm_num : 2 ≤ 2) hpow).symm
  subst hkj
  have hmn : 2 * m + 1 = 2 * n + 1 :=
    Nat.eq_of_mul_eq_mul_right (by positivity) h
  omega

theorem two_pow_mul_two_mod {k : Nat} (hk : k ≤ 62) : 2 ^ k * 2 % U64 = 2 ^ (k + 1) := by
  have he : (2 : Nat) ^ k * 2 = 2 ^ (k + 1) := by ring
  rw [he, U64_eq]
  exact Nat.mod_eq_of_lt (Nat.pow_lt_pow_right (by norm_num) (by omega))

/-- `sibling` on the normal form flips the low bit of the peer index. -/
theorem sibling_form {m k : Nat} (hk : k ≤ 62) (h : (2 * m + 1) * 2 ^ k < U64) :
    sibling ((2 * m + 1) * 2 ^ k) = (2 * (m ^^^ 1) + 1) * 2 ^ k := by
  show (2 * m + 1) * 2 ^ k ^^^ (lsb _ * 2 % U64) = _
  rw [lsb_form h, two_pow_mul_two_mod hk]
  apply Nat.eq_of_testBit_eq
  intro i
  rw [Nat.testBit_xor, testBit_form, testBit_form, Nat.testBit_two_pow]
  rcases Nat.lt_trichotomy i k with hik | hik | hik
  · have h1 : ¬(k ≤ i) := by omega
    have h2 : ¬(k + 1 = i) := by omega
    simp [h1, h2]
  · subst hik
    have h2 : ¬(i + 1 = i) := by omega
    simp only [Nat.sub_self, le_refl, decide_eq_true, Bool.true_and,
      testBit_two_mul_add_one_zero, h2, decide_eq_false h2, Bool.xor_false]
    simp
  · have h1 : k ≤ i := by omega
    obtain ⟨d, hd⟩ : ∃ d, i - k = d + 1 := ⟨i - k - 1, by omega⟩
    rw [hd, decide_eq_true h1, Bool.true_and, Bool.true_and,
      testBit_two_mul_add_one_succ, testBit_two_mul_add_one_succ, Nat.testBit_xor]
    rcases Nat.eq_or_lt_of_le (show k + 1 ≤ i by omega) with hik1 | hik1
    · have hd0 : d = 0 := by omega
      subst hd0
      rw [decide_eq_true hik1]
      cases hmb : m.testBit 0 <;> simp [hmb, Nat.testBit_zero]
    · have h2 : ¬(k + 1 = i) := by omega
      have hd1 : 1 ≤ d := by omega
      obtain ⟨d', hd'⟩ : ∃ d', d = d' + 1 := ⟨d - 1, by omega⟩
      rw [decide_eq_false h2, hd', testBit_one_succ, Bool.xor_false]

/-- `parent` on the normal form halves the peer index and doubles the
size. -/
theorem parent_form {m k : Nat} (hk : k ≤ 62) (h : (2 * m + 1) * 2 ^ k < U64) :
    parent ((2 * m + 1) * 2 ^ k) = (2 * (m / 2) + 1) * 2 ^ (k + 1) := by
  show ((2 * m + 1) * 2 ^ k ^^^ lsb _) ||| (lsb _ * 2 % U64) = _
  rw [lsb_form h, two_pow_mul_two_mod hk]
  apply Nat.eq_of_testBit_eq
  intro i
  rw [Nat.testBit_lor, Nat.testBit_xor, testBit_form, Nat.testBit_two_pow,
    Nat.testBit_two_pow, testBit_form]
  rcases Nat.lt_trichotomy i k with hik | hik | hik
  · have h1 : ¬(k ≤ i) := by omega
    have h2 : ¬(k = i) := by omega
    have h3 : ¬(k + 1 = i) := by omega
    have h4 : ¬(k + 1 ≤ i) := by omega
    simp [h1, h2, h3, h4]
  · subst hik
    have h3 : ¬(i + 1 = i) := by omega
    have h4 : ¬(i + 1 ≤ i) := by omega
    simp only [Nat.sub_self, le_refl, decide_eq_true, Bool.true_and,
      testBit_two_mul_add_one_zero, decide_eq_true rfl, Bool.xor_true,
      decide_eq_false h3, decide_eq_false h4, Bool.false_and, Bool.or_false,
      Bool.not_true, Bool.false_and]
  · have h1 : k ≤ i := by omega
    have h2 : ¬(k = i) := by omega
    obtain ⟨d, hd⟩ : ∃ d, i - k = d + 1 := ⟨i - k - 1, by omega⟩
    rw [hd, decide_eq_true h1, Bool.true_and, decide_eq_false h2, Bool.xor_false,
      testBit_two_mul_add_one_succ]
    rcases Nat.eq_or_lt_of_le (show k + 1 ≤ i by omega) with hik1 | hik1
    · have hd0 : d = 0 := by omega
      subst hd0
      rw [decide_eq_true hik1, Bool.or_true, decide_eq_true (le_of_eq hik1),
        Bool.true_and]
      have h5 : i - (k + 1) = 0 := by omega
      rw [h5, testBit_two_mul_add_one_zero]
    · have h3 : ¬(k + 1 = i) := by omega
      have h4 : k + 1 ≤ i := by omega
      obtain ⟨d', hd'⟩ : ∃ d', i - (k + 1) = d' + 1 := ⟨i - k - 2, by omega⟩
      rw [decide_eq_false h3, Bool.or_false, decide_eq_true h4, Bool.true_and, hd',
        testBit_two_mul_add_one_succ, Nat.testBit_div_two]
      have h5 : d' + 1 = d := by omega
      rw [h5]

theorem parent_unity : parent unity63 = 0 := by decide

theorem sibling_unity : sibling unity63 = unity63 := by decide

/-- Dyadic trichotomy: two valid cells are nested one way, nested the
other way, or disjoint. -/
theorem range_trichotomy {a b : Nat} (ha : cvalid a) (hb : cvalid b) :
    (cbegin a ≤ cbegin b ∧ cend b ≤ cend a) ∨ (cbegin b ≤ cbegin a ∧ cend a ≤ cend b) ∨
    cend a ≤ cbegin b ∨ cend b ≤ cbegin a := by
  obtain ⟨m, k, rfl⟩ := form_exists ha.1
  obtain ⟨n, j, rfl⟩ := form_exists hb.1
  rw [cbegin_form ha.2, cend_form ha.2, cbegin_form hb.2, cend_form hb.2]
  rcases Nat.le_total k j with hkj | hjk
  · rcases form_trichotomy_aux m k n j hkj with h | h | h
    · exact Or.inr (Or.inl ⟨h.1, h.2⟩)
    · exact Or.inr (Or.inr (Or.inl h))
    · exact Or.inr (Or.inr (Or.inr h))
  · rcases form_trichotomy_aux n j m k hjk with h | h | h
    · exact Or.inl ⟨h.1, h.2⟩
    · exact Or.inr (Or.inr (Or.inr h))
    · exact Or.inr (Or.inr (Or.inl h))

/-! ### Canonical form -/

/-- The abstract canonical-pair condition: separated ranges and not an
exact-sibling pair. -/
def canonPair (a b : Nat) : Prop := cend a ≤ cbegin b ∧ sibling b ≠ a

/-- The canonical-form invariant of a `Set63`: every cell is a nonzero
64-bit word (true of every value the package constructs) and the
`unnormalized` diagnostic finds nothing. -/
def Canonical (s : List Nat) : Prop :=
  (∀ c ∈ s, cvalid c) ∧ unnormalized s = []

theorem unnormAux_eq_nil_iff (p : Nat) (l : List Nat) :
    unnormAux p l = [] ↔
      List.Chain (fun a b =>
        ¬(a ≥ b ∨ contains b a = true ∨ contains a b = true ∨ sibling b = a)) p l := by
  induction l generalizing p with
  | nil => simp [unnormAux, List.Chain.nil]
  | cons x xs ih =>
    show (if p ≥ x ∨ contains x p ∨ contains p x ∨ sibling x == p then
        x :: unnormAux x xs else unnormAux x xs) = [] ↔ _
    by_cases hb : p ≥ x ∨ contains x p = true ∨ contains p x = true ∨ sibling x = p
    · have hb' : p ≥ x ∨ (contains x p : Prop) ∨ (contains p x : Prop) ∨ sibling x == p := by
        rcases hb with h | h | h | h
        · exact Or.inl h
        · exact Or.inr (Or.inl h)
        · exact Or.inr (Or.inr (Or.inl h))
        · exact Or.inr (Or.inr (Or.inr (beq_iff_eq.mpr h)))
      rw [if_pos hb']
      constructor
      · intro h
        exact absurd h (List.cons_ne_nil _ _)
      · intro h
        rcases h with _ | ⟨hph, _⟩
        exact absurd hb hph
    · have hb' : ¬(p ≥ x ∨ (contains x p : Prop) ∨ (contains p x : Prop) ∨ sibling x == p) := by
        intro h
        apply hb
        rcases h with h | h | h | h
        · exact Or.inl h
        · exact Or.inr (Or.inl h)
        · exact Or.inr (Or.inr (Or.inl h))
        · exact Or.inr (Or.inr (Or.inr (beq_iff_eq.mp h)))
      rw [if_neg hb', ih]
      constructor
      · intro h
        exact List.Chain.cons hb h
      · intro h
        rcases h with _ | ⟨_, ht⟩
        exact ht

/-- On valid cells, the pairwise anomaly test of `unnormalized` is
exactly the failure of `canonPair`. -/
theorem anomaly_iff_not_canonPair {a b : Nat} (ha : cvalid a) (hb : cvalid b) :
    ¬(a ≥ b ∨ contains b a = true ∨ contains a b = true ∨ sibling b = a) ↔
      canonPair a b := by
  constructor
  · intro h
    push_neg at h
    obtain ⟨hlt, hnc1, hnc2, hns⟩ := h
    have hab : a < b := by omega
    refine ⟨?_, hns⟩
    have hval_a := cvalid_val_eq ha
    have hval_b := cvalid_val_eq hb
    have hbe_a := cvalid_begin_lt_end ha
    have hbe_b := cvalid_begin_lt_end hb
    rcases range_trichotomy ha hb with ⟨h1, h2⟩ | ⟨h1, h2⟩ | h | h
    · -- b nested in a: contains a b would hold
      exfalso
      apply hnc2
      rw [contains_iff ha hb.2]
      omega
    · -- a nested in b: contains b a would hold
      exfalso
      apply hnc1
      rw [contains_iff hb ha.2]
      omega
    · exact h
    · exfalso
      have := val_lt_of_sep hb ha h
      omega
  · rintro ⟨hsep, hns⟩
    have h1 := val_lt_of_sep ha hb hsep
    have h2 := contains_eq_false_of_sep ha hb hsep
    push_neg
    refine ⟨by omega, ?_, ?_, hns⟩
    · rw [h2.2]
      exact Bool.false_ne_true
    · rw [h2.1]
      exact Bool.false_ne_true

/-- Pointwise transfer between the concrete anomaly chain and the
abstract `canonPair` chain, on valid cells. -/
theorem chain_anomaly_iff {x : Nat} {xs : List Nat} (hvx : cvalid x)
    (hvxs : ∀ c ∈ xs, cvalid c) :
    List.Chain (fun a b =>
      ¬(a ≥ b ∨ contains b a = true ∨ contains a b = true ∨ sibling b = a)) x xs ↔
    List.Chain canonPair x xs := by
  induction xs generalizing x with
  | nil =>
    constructor <;> intro _ <;> exact List.Chain.nil
  | cons y ys ih =>
    have hvy : cvalid y := hvxs y (by simp)
    have hvys : ∀ c ∈ ys, cvalid c := fun c hc => hvxs c (by simp [hc])
    constructor
    · intro h
      rcases h with _ | ⟨hxy, hrest⟩
      exact List.Chain.cons ((anomaly_iff_not_canonPair hvx hvy).mp hxy)
        ((ih hvy hvys).mp hrest)
    · intro h
      rcases h with _ | ⟨hxy, hrest⟩
      exact List.Chain.cons ((anomaly_iff_not_canonPair hvx hvy).mpr hxy)
        ((ih hvy hvys).mpr hrest)

/-- The canonical invariant, in terms of the abstract chain. -/
theorem canonical_iff {s : List Nat} :
    Canonical s ↔ (∀ c ∈ s, cvalid c) ∧ List.Chain' canonPair s := by
  cases s with
  | nil =>
    constructor
    · rintro ⟨hv, _⟩
      exact ⟨hv, List.chain'_nil⟩
    · rintro ⟨hv, _⟩
      exact ⟨hv, rfl⟩
  | cons x xs =>
    constructor
    · rintro ⟨hv, hu⟩
      refine ⟨hv, ?_⟩
      show List.Chain canonPair x xs
      exact (chain_anomaly_iff (hv x (by simp)) (fun c hc => hv c (by simp [hc]))).mp
        ((unnormAux_eq_nil_iff x xs).mp hu)
    · rintro ⟨hv, hc⟩
      refine ⟨hv, ?_⟩
      show unnormAux x xs = []
      rw [unnormAux_eq_nil_iff]
      exact (chain_anomaly_iff (hv x (by simp)) (fun c hc => hv c (by simp [hc]))).mpr hc

/-! ### Tilings and membership -/

/-- Membership in the set denoted by a cell list: some cell's range
holds `x`. -/
def memS (s : List Nat) (x : Nat) : Prop := ∃ c ∈ s, cbegin c ≤ x ∧ x < cend c

theorem memS_nil (x : Nat) : ¬ memS [] x := by simp [memS]

theorem memS_append {s t : List Nat} (x : Nat) :
    memS (s ++ t) x ↔ memS s x ∨ memS t x := by
  simp [memS, List.mem_append, or_and_right, exists_or]

theorem memS_cons {c : Nat} {s : List Nat} (x : Nat) :
    memS (c :: s) x ↔ (cbegin c ≤ x ∧ x < cend c) ∨ memS s x := by
  simp [memS, List.mem_cons, or_and_right, exists_or]

/-- `Tiles l b e`: the cells of `l` cover `[b, e)` contiguously in
order, each beginning exactly where the previous one ended. -/
def Tiles : List Nat → Nat → Nat → Prop
  | [], b, e => b = e
  | c :: cs, b, e => cbegin c = b ∧ Tiles cs (cend c) e

theorem Tiles.le {l : List Nat} {b e : Nat} (h : Tiles l b e)
    (hv : ∀ c ∈ l, cvalid c) : b ≤ e := by
  induction l generalizing b with
  | nil => exact le_of_eq h
  | cons c cs ih =>
    obtain ⟨hb, ht⟩ := h
    have h1 := cvalid_begin_lt_end (hv c (by simp))
    have h2 := ih ht (fun d hd => hv d (by simp [hd]))
    omega

theorem Tiles.append {l1 l2 : List Nat} {b m e : Nat}
    (h1 : Tiles l1 b m) (h2 : Tiles l2 m e) : Tiles (l1 ++ l2) b e := by
  induction l1 generalizing b with
  | nil => rw [show b = m from h1]; exact h2
  | cons c cs ih =>
    obtain ⟨hb, ht⟩ := h1
    exact ⟨hb, ih ht⟩

theorem Tiles.mem_iff {l : List Nat} {b e : Nat} (h : Tiles l b e)
    (hv : ∀ c ∈ l, cvalid c) (x : Nat) :
    memS l x ↔ b ≤ x ∧ x < e := by
  induction l generalizing b with
  | nil =>
    rw [show b = e from h]
    simp [memS_nil, memS]
  | cons c cs ih =>
    obtain ⟨hb, ht⟩ := h
    have h1 := cvalid_begin_lt_end (hv c (by simp))
    have h2 := Tiles.le ht (fun d hd => hv d (by simp [hd]))
    rw [memS_cons, ih ht (fun d hd => hv d (by simp [hd]))]
    omega

theorem Tiles.cells_within {l : List Nat} {b e : Nat} (h : Tiles l b e)
    (hv : ∀ c ∈ l, cvalid c) :
    ∀ c ∈ l, b ≤ cbegin c ∧ cend c ≤ e := by
  induction l generalizing b with
  | nil => simp
  | cons c cs ih =>
    obtain ⟨hb, ht⟩ := h
    intro d hd
    rcases List.mem_cons.mp hd with rfl | hd'
    · have h2 := Tiles.le ht (fun d hd => hv d (by simp [hd]))
      have h1 := cvalid_begin_lt_end (hv d (by simp))
      omega
    · have h1 := cvalid_begin_lt_end (hv c (by simp))
      have := ih ht (fun d hd => hv d (by simp [hd])) d hd'
      omega

/-! ### Cell-stepping facts used by the `interval` climb -/

theorem lsb_le {c : Nat} : lsb c ≤ c := Nat.and_le_left

theorem lor_lt_two_pow {x y n : Nat} (hx : x < 2 ^ n) (hy : y < 2 ^ n) :
    x ||| y < 2 ^ n := by
  rw [lt_two_pow_iff_high] at *
  intro i hi
  rw [Nat.testBit_lor, hx i hi, hy i hi]
  rfl

theorem parent_lt_U64 {c : Nat} (h : c < U64) : parent c < U64 := by
  show (c ^^^ lsb c) ||| (lsb c * 2 % U64) < U64
  rw [U64_eq] at *
  apply lor_lt_two_pow
  · exact Nat.xor_lt_two_pow h (lt_of_le_of_lt lsb_le h)
  · exact Nat.mod_lt _ (by positivity)

/-- For a valid cell, a zero parent means the universe cell. -/
theorem parent_eq_zero_iff {c : Nat} (hc : cvalid c) :
    parent c = 0 ↔ c = unity63 := by
  obtain ⟨m, k, rfl⟩ := form_exists hc.1
  have hk := form_k_lt hc.2
  constructor
  · intro h
    rcases Nat.eq_or_lt_of_le (Nat.le_of_lt_succ hk) with hk63 | hk63
    · subst hk63
      have hm := form_m_lt hc.2
      have h2 : (2 : Nat) ^ (64 - 63) = 2 := by norm_num
      have hm0 : m = 0 := by omega
      subst hm0
      show (2 * 0 + 1) * 2 ^ 63 = unity63
      show (2 * 0 + 1) * 2 ^ 63 = 2 ^ 63
      ring
    · exfalso
      rw [parent_form (by omega) hc.2] at h
      have : 0 < (2 * (m / 2) + 1) * 2 ^ (k + 1) := by positivity
      omega
  · intro h
    rw [h]
    exact parent_unity

/-- Stepping to the parent doubles the cell size (below the root). -/
theorem lsb_parent_double {m k : Nat} (hk : k ≤ 62) (h : (2 * m + 1) * 2 ^ k < U64) :
    lsb (parent ((2 * m + 1) * 2 ^ k)) = 2 * 2 ^ k := by
  rw [parent_form hk h]
  have hlt : (2 * (m / 2) + 1) * 2 ^ (k + 1) < U64 := by
    rw [← parent_form hk h]
    exact parent_lt_U64 h
  rw [lsb_form hlt]
  ring

/-- If a strictly larger valid cell begins at the same place and stays
within the bound, then the parent step keeps the begin and the bound. -/
theorem exists_parent_step {c d mn : Nat} (hc : cvalid c) (hd : cvalid d)
    (hcb : cbegin c = mn) (hdb : cbegin d = mn) (hlt : cend c < cend d) :
    parent c ≠ 0 ∧ cbegin (parent c) = mn ∧ cend (parent c) ≤ cend d := by
  obtain ⟨m, k, rfl⟩ := form_exists hc.1
  obtain ⟨n, j, rfl⟩ := form_exists hd.1
  rw [cbegin_form hc.2] at hcb
  rw [cbegin_form hd.2] at hdb
  rw [cend_form hc.2, cend_form hd.2] at hlt
  have hbeq : m * 2 ^ k = n * 2 ^ j := by rw [hcb, hdb]
  -- sizes: from equal begins and strictly larger end, k < j
  have hkj : k < j := by
    by_contra hkj
    push_neg at hkj
    have h1 : (2 : Nat) ^ j ≤ 2 ^ k := Nat.pow_le_pow_right (by norm_num) hkj
    have h2 : (m + 1) * 2 ^ k = m * 2 ^ k + 2 ^ k := by ring
    have h3 : (n + 1) * 2 ^ j = n * 2 ^ j + 2 ^ j := by ring
    omega
  have hk62 : k ≤ 62 := by
    have := form_k_lt hd.2
    omega
  -- m is n * 2^(j-k), hence even
  have hm2 : m = n * 2 ^ (j - k) := by
    have hsplit : (2 : Nat) ^ j = 2 ^ (j - k) * 2 ^ k := by
      rw [← pow_add]
      congr 1
      omega
    rw [hsplit] at hbeq
    have : m * 2 ^ k = n * 2 ^ (j - k) * 2 ^ k := by
      rw [hbeq]
      ring
    exact Nat.eq_of_mul_eq_mul_right (by positivity) this
  have hmeven : m % 2 = 0 := by
    obtain ⟨d', hd'⟩ : ∃ d', j - k = d' + 1 := ⟨j - k - 1, by omega⟩
    have he : m = 2 * (n * 2 ^ d') := by
      rw [hm2, hd', pow_succ]
      ring
    omega
  have hplt : (2 * (m / 2) + 1) * 2 ^ (k + 1) < U64 := by
    rw [← parent_form hk62 hc.2]
    exact parent_lt_U64 hc.2
  refine ⟨?_, ?_, ?_⟩
  · rw [parent_form hk62 hc.2]
    positivity
  · rw [parent_form hk62 hc.2, cbegin_form hplt, ← hcb]
    have : m / 2 * 2 = m := by omega
    calc m / 2 * 2 ^ (k + 1) = m / 2 * 2 * 2 ^ k := by ring
    _ = m * 2 ^ k := by rw [this]
  · have h1 : (m / 2 + 1) * 2 ^ (k + 1) = m * 2 ^ k + 2 * 2 ^ k := by
      have hme : m / 2 * 2 = m := by omega
      calc (m / 2 + 1) * 2 ^ (k + 1) = (m / 2 * 2 + 2) * 2 ^ k := by ring
      _ = (m + 2) * 2 ^ k := by rw [hme]
      _ = m * 2 ^ k + 2 * 2 ^ k := by ring
    have h2 : (n + 1) * 2 ^ j = n * 2 ^ j + 2 ^ j := by ring
    have h3 : 2 * 2 ^ k ≤ 2 ^ j := by
      calc 2 * 2 ^ k = 2 ^ (k + 1) := by ring
      _ ≤ 2 ^ j := Nat.pow_le_pow_right (by norm_num) (by omega)
    rw [parent_form hk62 hc.2, cend_form hplt, cend_form hd.2, h1, h2]
    omega

/-- A valid cell other than the universe cell sits at level at most 62. -/
theorem k_le_62_of_ne_unity {m k : Nat} (h : (2 * m + 1) * 2 ^ k < U64)
    (hne : (2 * m + 1) * 2 ^ k ≠ unity63) : k ≤ 62 := by
  have hk := form_k_lt h
  rcases Nat.lt_or_ge k 63 with h63 | h63
  · omega
  · exfalso
    have hk63 : k = 63 := by omega
    subst hk63
    have hm := form_m_lt h
    have h2 : (2 : Nat) ^ (64 - 63) = 2 := by norm_num
    have hm0 : m = 0 := by omega
    subst hm0
    apply hne
    show (2 * 0 + 1) * 2 ^ 63 = 2 ^ 63
    ring

/-- Below the root, the parent step doubles the cell size. -/
theorem lsb_parent_of_ne_unity {c : Nat} (hc : cvalid c) (hne : c ≠ unity63) :
    lsb (parent c) = 2 * lsb c := by
  obtain ⟨m, k, rfl⟩ := form_exists hc.1
  have hk62 : k ≤ 62 := k_le_62_of_ne_unity hc.2 hne
  rw [lsb_parent_double hk62 hc.2, lsb_form hc.2]

/-- Specification of the `interval` climb loop: starting from a valid
cell that begins at `mn` and ends within `mx`, it returns the largest
valid cell with that property, as long as the fuel covers the remaining
levels. -/
theorem climb_spec (fuel : Nat) (c mn mx : Nat) (hc : cvalid c)
    (hcb : cbegin c = mn) (hce : cend c ≤ mx)
    (hfuel : 2 ^ 64 ≤ 2 ^ fuel * lsb c) :
    cvalid (climb fuel c mn mx) ∧ cbegin (climb fuel c mn mx) = mn ∧
      cend (climb fuel c mn mx) ≤ mx ∧
      ∀ d, cvalid d → cbegin d = mn → cend d ≤ mx →
        cend d ≤ cend (climb fuel c mn mx) := by
  induction fuel generalizing c with
  | zero =>
    exfalso
    have h1 : lsb c ≤ c := lsb_le
    have h2 := hc.2
    rw [U64_eq] at h2
    simp only [pow_zero, one_mul] at hfuel
    omega
  | succ fuel ih =>
    have hunf : climb (fuel + 1) c mn mx =
        if parent c ≠ 0 ∧ cbegin (parent c) = mn ∧ cend (parent c) ≤ mx then
          climb fuel (parent c) mn mx
        else c := rfl
    rw [hunf]
    by_cases hcond : parent c ≠ 0 ∧ cbegin (parent c) = mn ∧ cend (parent c) ≤ mx
    · rw [if_pos hcond]
      have hpv : cvalid (parent c) := ⟨Nat.pos_of_ne_zero hcond.1, parent_lt_U64 hc.2⟩
      have hne : c ≠ unity63 := by
        intro h
        apply hcond.1
        rw [h]
        exact parent_unity
      have hlsb : lsb (parent c) = 2 * lsb c := lsb_parent_of_ne_unity hc hne
      apply ih (parent c) hpv hcond.2.1 hcond.2.2
      rw [hlsb]
      calc (2 : Nat) ^ 64 ≤ 2 ^ (fuel + 1) * lsb c := hfuel
      _ = 2 ^ fuel * (2 * lsb c) := by ring
    · rw [if_neg hcond]
      refine ⟨hc, hcb, hce, ?_⟩
      intro d hd hdb hde
      by_contra hgt
      push_neg at hgt
      obtain ⟨h1, h2, h3⟩ := exists_parent_step hc hd hcb hdb hgt
      exact hcond ⟨h1, h2, le_trans h3 hde⟩

/-- The singleton cell of a value below `2^63`, in normal form. -/
theorem singleton_eq {e : Nat} (he : e < 2 ^ 63) :
    singleton e = (2 * e + 1) * 2 ^ 0 := by
  show (2 * e + 1) % U64 = (2 * e + 1) * 2 ^ 0
  rw [U64_eq, Nat.mod_eq_of_lt (by omega)]
  ring

theorem singleton_valid {e : Nat} (he : e < 2 ^ 63) : cvalid (singleton e) := by
  rw [singleton_eq he]
  refine ⟨by positivity, ?_⟩
  rw [U64_eq]
  norm_num
  omega

theorem singleton_begin {e : Nat} (he : e < 2 ^ 63) : cbegin (singleton e) = e := by
  rw [singleton_eq he, cbegin_form (singleton_eq he ▸ (singleton_valid he).2)]
  ring

theorem singleton_end {e : Nat} (he : e < 2 ^ 63) : cend (singleton e) = e + 1 := by
  rw [singleton_eq he, cend_form (singleton_eq he ▸ (singleton_valid he).2)]
  ring

theorem singleton_lsb {e : Nat} (he : e < 2 ^ 63) : lsb (singleton e) = 1 := by
  rw [singleton_eq he, lsb_form (singleton_eq he ▸ (singleton_valid he).2)]
  norm_num

/-- Specification of `intervalFuel`: given enough fuel it produces a
tiling of `[mn, mx)` by valid cells, each of which is the largest valid
cell with its begin that still ends within `mx`. -/
theorem intervalFuel_spec (fuel : Nat) : ∀ mn mx : Nat, mn ≤ mx → mx ≤ 2 ^ 63 →
    mx - mn ≤ fuel →
    Tiles (intervalFuel fuel mn mx) mn mx ∧
      (∀ c ∈ intervalFuel fuel mn mx, cvalid c) ∧
      (∀ c ∈ intervalFuel fuel mn mx,
        ∀ d, cvalid d → cbegin d = cbegin c → cend d ≤ mx → cend d ≤ cend c) := by
  induction fuel with
  | zero =>
    intro mn mx hmn hmx hfuel
    have h : mn = mx := by omega
    subst h
    exact ⟨rfl, by simp [intervalFuel], by simp [intervalFuel]⟩
  | succ fuel ih =>
    intro mn mx hmn hmx hfuel
    by_cases h : mn < mx
    · have hunf : intervalFuel (fuel + 1) mn mx =
          climb 64 (singleton mn) mn mx ::
            intervalFuel fuel (cend (climb 64 (singleton mn) mn mx)) mx := by
        show (if mn < mx then _ else []) = _
        rw [if_pos h]
      have hmn63 : mn < 2 ^ 63 := by omega
      have hcl := climb_spec 64 (singleton mn) mn mx (singleton_valid hmn63)
        (singleton_begin hmn63)
        (by rw [singleton_end hmn63]; omega)
        (by rw [singleton_lsb hmn63]; norm_num)
      obtain ⟨hv, hb, he, hmax⟩ := hcl
      have hgt : mn < cend (climb 64 (singleton mn) mn mx) := by
        have := cvalid_begin_lt_end hv
        omega
      have hrec := ih (cend (climb 64 (singleton mn) mn mx)) mx he hmx (by omega)
      obtain ⟨ht', hv', hmax'⟩ := hrec
      rw [hunf]
      refine ⟨⟨hb, ht'⟩, ?_, ?_⟩
      · intro c hc
        rcases List.mem_cons.mp hc with rfl | hc'
        · exact hv
        · exact hv' c hc'
      · intro c hc
        rcases List.mem_cons.mp hc with rfl | hc'
        · intro d hd hdb hde
          rw [hb] at hdb
          exact hmax d hd hdb hde
        · exact hmax' c hc'
    · have heq : mn = mx := by omega
      subst heq
      have hunf : intervalFuel (fuel + 1) mn mn = [] := by
        show (if mn < mn then _ else []) = []
        rw [if_neg h]
      rw [hunf]
      exact ⟨rfl, by simp, by simp⟩

/-- Specification of `interval`: a tiling of `[mn, mx)` by valid,
individually maximal cells. -/
theorem interval_spec {mn mx : Nat} (hmn : mn ≤ mx) (hmx : mx ≤ 2 ^ 63) :
    Tiles (interval mn mx) mn mx ∧
      (∀ c ∈ interval mn mx, cvalid c) ∧
      (∀ c ∈ interval mn mx,
        ∀ d, cvalid d → cbegin d = cbegin c → cend d ≤ mx → cend d ≤ cend c) :=
  intervalFuel_spec (mx - mn) mn mx hmn hmx le_rfl


/-- A tiling of an empty range is empty. -/
theorem tiles_empty {l : List Nat} {b : Nat} (ht : Tiles l b b)
    (hv : ∀ c ∈ l, cvalid c) : l = [] := by
  cases l with
  | nil => rfl
  | cons c cs =>
    exfalso
    obtain ⟨hb, htl⟩ := ht
    have h1 := cvalid_begin_lt_end (hv c (by simp))
    have h2 := Tiles.le htl (fun d hd => hv d (by simp [hd]))
    omega

/-- A tiling that contains a cell spanning the whole range consists of
that cell alone. -/
theorem tiles_full_cell {l : List Nat} {b e : Nat} (ht : Tiles l b e)
    (hv : ∀ c ∈ l, cvalid c) {d : Nat} (hd : d ∈ l) (hdb : cbegin d = b)
    (hde : cend d = e) : l = [d] := by
  cases l with
  | nil => simp at hd
  | cons c cs =>
    obtain ⟨hb, htl⟩ := ht
    rcases List.mem_cons.mp hd with rfl | hd'
    · have hcs : cs = [] := tiles_empty (hde ▸ htl) (fun x hx => hv x (by simp [hx]))
      rw [hcs]
    · exfalso
      have hw := Tiles.cells_within htl (fun x hx => hv x (by simp [hx])) d hd'
      have h1 := cvalid_begin_lt_end (hv c (by simp))
      omega

/-- An adjacent exact-sibling pair merges into the shared parent: the
parent is valid, begins at the left cell's begin and ends at the right
cell's end. -/
theorem sibling_merge {a b : Nat} (ha : cvalid a) (hb : cvalid b)
    (hadj : cbegin b = cend a) (hs : sibling b = a) :
    cvalid (parent a) ∧ cbegin (parent a) = cbegin a ∧ cend (parent a) = cend b := by
  obtain ⟨m, k, hfa⟩ := form_exists ha.1
  obtain ⟨n, j, hfb⟩ := form_exists hb.1
  subst hfa
  subst hfb
  have hj62 : j ≤ 62 := by
    apply k_le_62_of_ne_unity hb.2
    intro hu
    have h0 : cbegin ((2 * n + 1) * 2 ^ j) = 0 := by
      rw [hu]
      decide
    have h1 := cvalid_begin_lt_end ha
    omega
  rw [sibling_form hj62 hb.2] at hs
  obtain ⟨hmn, hjk⟩ := form_inj hs (by rw [hs]; exact ha.2)
  subst hjk
  rw [cbegin_form hb.2, cend_form ha.2] at hadj
  have hn : n = m + 1 :=
    Nat.eq_of_mul_eq_mul_right (Nat.pos_pow_of_pos _ (by norm_num)) hadj
  subst hn
  obtain ⟨t, ht⟩ : ∃ t, m = 2 * t := by
    rcases Nat.even_or_odd m with ⟨t, h⟩ | ⟨t, h⟩
    · exact ⟨t, by omega⟩
    · exfalso
      have he2 : m + 1 = 2 * (t + 1) := by omega
      rw [he2, two_mul_xor_one] at hmn
      omega
  subst ht
  have hplt : (2 * (2 * t / 2) + 1) * 2 ^ (j + 1) < U64 := by
    rw [← parent_form hj62 ha.2]
    exact parent_lt_U64 ha.2
  have ht2 : 2 * t / 2 = t := by omega
  refine ⟨⟨?_, parent_lt_U64 ha.2⟩, ?_, ?_⟩
  · rw [parent_form hj62 ha.2]
    positivity
  · rw [parent_form hj62 ha.2, cbegin_form hplt, cbegin_form ha.2, ht2]
    ring
  · rw [parent_form hj62 ha.2, cend_form hplt, cend_form hb.2, ht2]
    ring

/-- A tiling by individually maximal cells is canonically chained: two
adjacent cells are never exact siblings, because the merged parent
would beat the left cell's maximality. -/
theorem chain_of_maximal_tiles {e : Nat} : ∀ (l : List Nat) (b : Nat),
    Tiles l b e → (∀ c ∈ l, cvalid c) →
    (∀ c ∈ l, ∀ d, cvalid d → cbegin d = cbegin c → cend d ≤ e → cend d ≤ cend c) →
    List.Chain' canonPair l := by
  intro l
  induction l with
  | nil =>
    intro b _ _ _
    exact List.chain'_nil
  | cons c cs ih =>
    intro b ht hv hmax
    obtain ⟨hb, htl⟩ := ht
    have hvc := hv c (by simp)
    have hvcs : ∀ x ∈ cs, cvalid x := fun x hx => hv x (by simp [hx])
    have hchain := ih (cend c) htl hvcs (fun x hx => hmax x (by simp [hx]))
    cases cs with
    | nil => exact List.chain'_singleton c
    | cons c2 cs2 =>
      have hb2 : cbegin c2 = cend c := htl.1
      refine List.chain'_cons.mpr ⟨⟨le_of_eq hb2.symm, ?_⟩, hchain⟩
      intro hs
      obtain ⟨hpv, hpb, hpe⟩ := sibling_merge hvc (hvcs c2 (by simp)) hb2 hs
      have hwithin := Tiles.cells_within htl hvcs c2 (by simp)
      have hle := hmax c (by simp) (parent c) hpv hpb (by omega)
      have h1 := cvalid_begin_lt_end (hvcs c2 (by simp))
      omega

/-- The output of `interval` is canonical: all cells valid and
canonically chained. -/
theorem interval_canonical {mn mx : Nat} (hmn : mn ≤ mx) (hmx : mx ≤ 2 ^ 63) :
    (∀ c ∈ interval mn mx, cvalid c) ∧ List.Chain' canonPair (interval mn mx) := by
  obtain ⟨ht, hv, hmax⟩ := interval_spec hmn hmx
  exact ⟨hv, chain_of_maximal_tiles (interval mn mx) mn ht hv hmax⟩

/-- A tiling splits at any intermediate boundary not crossed by a
cell. -/
theorem tiles_split {mid e : Nat} : ∀ (l : List Nat) (b : Nat), Tiles l b e →
    (∀ c ∈ l, cbegin c < mid → cend c ≤ mid) → b ≤ mid → mid ≤ e →
    ∃ lL lR, l = lL ++ lR ∧ Tiles lL b mid ∧ Tiles lR mid e := by
  intro l
  induction l with
  | nil =>
    intro b ht _ hb hm
    have hbe : b = e := ht
    refine ⟨[], [], rfl, ?_, ?_⟩
    · show b = mid
      omega
    · show mid = e
      omega
  | cons c cs ih =>
    intro b ht hnc hb hm
    obtain ⟨hbc, htl⟩ := ht
    by_cases hcase : cend c ≤ mid
    · obtain ⟨lL, lR, hsp, htL, htR⟩ :=
        ih (cend c) htl (fun x hx => hnc x (by simp [hx])) hcase hm
      exact ⟨c :: lL, lR, by simp [hsp], ⟨hbc, htL⟩, htR⟩
    · have hge : ¬ cbegin c < mid := fun h => hcase (hnc c (by simp) h)
      have hbm : b = mid := by omega
      refine ⟨[], c :: cs, rfl, ?_, ?_⟩
      · show b = mid
        exact hbm
      · exact ⟨by omega, htl⟩

/-- In a multi-cell tiling of the dyadic range
`[m*2^(K+1), (m+1)*2^(K+1))`, no cell crosses the midpoint. -/
theorem tiles_no_cross {m K : Nat} {l : List Nat}
    (ht : Tiles l (m * 2 ^ (K + 1)) ((m + 1) * 2 ^ (K + 1)))
    (hv : ∀ c ∈ l, cvalid c) (hU : (m + 1) * 2 ^ (K + 1) ≤ 2 ^ 63)
    (hlen : 1 < l.length) :
    ∀ d ∈ l, cbegin d < (2 * m + 1) * 2 ^ K → cend d ≤ (2 * m + 1) * 2 ^ K := by
  intro d hd hlt
  by_contra hgt
  push_neg at hgt
  have hpow : (0 : Nat) < 2 ^ K := Nat.pos_pow_of_pos _ (by norm_num)
  have hvd := hv d hd
  have hwd := Tiles.cells_within ht hv d hd
  have hLval : (2 * (2 * m) + 1) * 2 ^ K < U64 := by
    rw [U64_eq]
    have h1 : (2 * (2 * m) + 1) * 2 ^ K < 2 * ((m + 1) * 2 ^ (K + 1)) := by
      have he : 2 * ((m + 1) * 2 ^ (K + 1)) = (4 * m + 4) * 2 ^ K := by ring
      have he2 : (2 * (2 * m) + 1) * 2 ^ K = (4 * m + 1) * 2 ^ K := by ring
      rw [he, he2]
      exact (Nat.mul_lt_mul_right hpow).mpr (by omega)
    have h3 : (2 : Nat) * 2 ^ 63 = 2 ^ 64 := by norm_num
    omega
  have hLv : cvalid ((2 * (2 * m) + 1) * 2 ^ K) := ⟨by positivity, hLval⟩
  have hLb : cbegin ((2 * (2 * m) + 1) * 2 ^ K) = 2 * m * 2 ^ K := cbegin_form hLval
  have hLe : cend ((2 * (2 * m) + 1) * 2 ^ K) = (2 * m + 1) * 2 ^ K := cend_form hLval
  rcases range_trichotomy hvd hLv with ⟨h1, h2⟩ | ⟨h1, h2⟩ | h | h
  · -- the left half is nested in d: then d is the whole range
    rw [hLb] at h1
    obtain ⟨a, j, hform⟩ := form_exists hvd.1
    have hdb : cbegin d = m * 2 ^ (K + 1) := by
      have h5 := hwd.1
      have he : m * 2 ^ (K + 1) = 2 * m * 2 ^ K := by ring
      omega
    have hlsb : cend d = cbegin d + lsb d := cend_eq_begin_add_lsb hvd
    have hlsbj : lsb d = 2 ^ j := by
      rw [hform]
      exact lsb_form (hform ▸ hvd.2)
    have hmid : (2 * m + 1) * 2 ^ K = m * 2 ^ (K + 1) + 2 ^ K := by ring
    have hKj : (2 : Nat) ^ K < 2 ^ j := by omega
    have hjge : (2 : Nat) ^ (K + 1) ≤ 2 ^ j := by
      have hKltj : K < j := (Nat.pow_lt_pow_iff_right (by norm_num)).mp hKj
      exact Nat.pow_le_pow_right (by norm_num) (by omega)
    have hde : cend d = (m + 1) * 2 ^ (K + 1) := by
      have h6 := hwd.2
      have he2 : (m + 1) * 2 ^ (K + 1) = m * 2 ^ (K + 1) + 2 ^ (K + 1) := by ring
      omega
    have hfull := tiles_full_cell ht hv hd hdb hde
    rw [hfull] at hlen
    simp at hlen
  · -- d nested in the left half: contradicts crossing
    rw [hLe] at h2
    omega
  · -- d entirely before the left half: impossible, d starts in the range
    rw [hLb] at h
    have h5 := hwd.1
    have he : m * 2 ^ (K + 1) = 2 * m * 2 ^ K := by ring
    have h4 := cvalid_begin_lt_end hvd
    omega
  · -- d entirely after the midpoint: contradicts crossing
    rw [hLe] at h
    omega

/-- A canonically chained tiling of the range of a single dyadic cell
has at most one element: any finer tiling contains an adjacent
exact-sibling pair. -/
theorem canonical_tiling_of_cell : ∀ K : Nat, ∀ m : Nat, ∀ l : List Nat,
    Tiles l (m * 2 ^ K) ((m + 1) * 2 ^ K) → (∀ c ∈ l, cvalid c) →
    List.Chain' canonPair l → (m + 1) * 2 ^ K ≤ 2 ^ 63 →
    l.length ≤ 1 := by
  intro K
  induction K with
  | zero =>
    intro m l ht hv _ _
    rcases l with _ | ⟨a, _ | ⟨b, rest⟩⟩
    · simp
    · simp
    · exfalso
      obtain ⟨hba, htl⟩ := ht
      obtain ⟨hbb, htl2⟩ := htl
      have h1 := cvalid_begin_lt_end (hv a (by simp))
      have h2 := cvalid_begin_lt_end (hv b (by simp))
      have h3 := Tiles.le htl2 (fun d hd => hv d (by simp [hd]))
      simp only [pow_zero, mul_one] at hba h3
      omega
  | succ K ih =>
    intro m l ht hv hc hU
    by_contra hlen
    push_neg at hlen
    have hnc := tiles_no_cross ht hv hU hlen
    have hpow : (0 : Nat) < 2 ^ K := Nat.pos_pow_of_pos _ (by norm_num)
    have hmidle : m * 2 ^ (K + 1) ≤ (2 * m + 1) * 2 ^ K := by
      have h1 : m * 2 ^ (K + 1) = 2 * m * 2 ^ K := by ring
      have h2 : (2 * m + 1) * 2 ^ K = 2 * m * 2 ^ K + 2 ^ K := by ring
      omega
    have hmidri : (2 * m + 1) * 2 ^ K ≤ (m + 1) * 2 ^ (K + 1) := by
      have h1 : (m + 1) * 2 ^ (K + 1) = 2 * m * 2 ^ K + 2 * 2 ^ K := by ring
      have h2 : (2 * m + 1) * 2 ^ K = 2 * m * 2 ^ K + 2 ^ K := by ring
      omega
    obtain ⟨lL, lR, hsplit, htL, htR⟩ := tiles_split l (m * 2 ^ (K + 1)) ht hnc hmidle hmidri
    have htL' : Tiles lL (2 * m * 2 ^ K) ((2 * m + 1) * 2 ^ K) := by
      have h1 : m * 2 ^ (K + 1) = 2 * m * 2 ^ K := by ring
      rw [← h1]
      exact htL
    have htR' : Tiles lR ((2 * m + 1) * 2 ^ K) ((2 * m + 1 + 1) * 2 ^ K) := by
      have h1 : (m + 1) * 2 ^ (K + 1) = (2 * m + 1 + 1) * 2 ^ K := by ring
      rw [← h1]
      exact htR
    have hvL : ∀ c ∈ lL, cvalid c := by
      intro c hcm
      apply hv
      rw [hsplit]
      exact List.mem_append.mpr (Or.inl hcm)
    have hvR : ∀ c ∈ lR, cvalid c := by
      intro c hcm
      apply hv
      rw [hsplit]
      exact List.mem_append.mpr (Or.inr hcm)
    rw [hsplit] at hc
    have hcL := (List.chain'_append.mp hc).1
    have hcR := (List.chain'_append.mp hc).2.1
    have hUL : (2 * m + 1) * 2 ^ K ≤ 2 ^ 63 := le_trans hmidri hU
    have hUR : (2 * m + 1 + 1) * 2 ^ K ≤ 2 ^ 63 := by
      have h1 : (2 * m + 1 + 1) * 2 ^ K = (m + 1) * 2 ^ (K + 1) := by ring
      omega
    have hlL := ih (2 * m) lL htL' hvL hcL hUL
    have hlR := ih (2 * m + 1) lR htR' hvR hcR hUR
    have hlensum : l.length = lL.length + lR.length := by
      rw [hsplit, List.length_append]
    have hlL1 : lL.length = 1 := by omega
    have hlR1 : lR.length = 1 := by omega
    obtain ⟨a, ha⟩ := List.length_eq_one.mp hlL1
    obtain ⟨bb, hbb⟩ := List.length_eq_one.mp hlR1
    rw [ha] at htL'
    rw [hbb] at htR'
    obtain ⟨hab, hae⟩ := htL'
    have hae' : cend a = (2 * m + 1) * 2 ^ K := hae
    obtain ⟨hbbb, hbbe⟩ := htR'
    have hbbe' : cend bb = (2 * m + 1 + 1) * 2 ^ K := hbbe
    have hav : cvalid a := hvL a (by simp [ha])
    have hbv : cvalid bb := hvR bb (by simp [hbb])
    have haeq : a = (2 * (2 * m) + 1) * 2 ^ K := by
      have h1 := cvalid_val_eq hav
      rw [h1, hab, hae']
      ring
    have hbbeq : bb = (2 * (2 * m + 1) + 1) * 2 ^ K := by
      have h1 := cvalid_val_eq hbv
      rw [h1, hbbb, hbbe']
      ring
    have hk62 : K ≤ 62 := by
      by_contra hc3
      push_neg at hc3
      have h1 : (2 : Nat) ^ (K + 1) ≤ (m + 1) * 2 ^ (K + 1) :=
        Nat.le_mul_of_pos_left _ (by omega)
      have h2 : (2 : Nat) ^ 64 ≤ 2 ^ (K + 1) :=
        Nat.pow_le_pow_right (by norm_num) (by omega)
      have h3 : (2 : Nat) ^ 63 < 2 ^ 64 := by norm_num
      omega
    have hbval : (2 * (2 * m + 1) + 1) * 2 ^ K < U64 := by
      rw [← hbbeq]
      exact hbv.2
    rw [ha, hbb] at hc
    have hbound := (List.chain'_append.mp hc).2.2 a (by simp) bb (by simp)
    apply hbound.2
    rw [hbbeq, haeq, sibling_form hk62 hbval, two_mul_add_one_xor_one]

/-- In two canonically chained tilings of the same range, the head cell
of one cannot end strictly before the head cell of the other. -/
theorem canonical_tiling_head_not_lt {b e : Nat} {c1 c2 : Nat} {r1 r2 : List Nat}
    (ht1 : Tiles (c1 :: r1) b e) (hv1 : ∀ c ∈ c1 :: r1, cvalid c)
    (hc1 : List.Chain' canonPair (c1 :: r1))
    (ht2 : Tiles (c2 :: r2) b e) (hv2 : ∀ c ∈ c2 :: r2, cvalid c)
    (hU : e ≤ 2 ^ 63) :
    ¬ cend c1 < cend c2 := by
  intro hlt
  have hvc2 : cvalid c2 := hv2 c2 (by simp)
  have hb2 : cbegin c2 = b := ht2.1
  have htl2 : Tiles r2 (cend c2) e := ht2.2
  have hb1 : cbegin c1 = b := ht1.1
  have htl1 : Tiles r1 (cend c1) e := ht1.2
  have hm : cend c2 ≤ e := Tiles.le htl2 (fun d hd => hv2 d (by simp [hd]))
  have hbc2 := cvalid_begin_lt_end hvc2
  have hnc : ∀ d ∈ c1 :: r1, cbegin d < cend c2 → cend d ≤ cend c2 := by
    intro d hd hlt'
    by_contra hgt
    push_neg at hgt
    have hvd := hv1 d hd
    have hwd := Tiles.cells_within ht1 hv1 d hd
    rcases range_trichotomy hvd hvc2 with ⟨h1, h2⟩ | ⟨h1, h2⟩ | h | h
    · -- c2 nested in d: d begins at b, so d = c1, contradicting hlt
      have hdb : cbegin d = b := by omega
      rcases List.mem_cons.mp hd with rfl | hd'
      · omega
      · have hw2 := Tiles.cells_within htl1 (fun x hx => hv1 x (by simp [hx])) d hd'
        have h4 := cvalid_begin_lt_end (hv1 c1 (by simp))
        omega
    · omega
    · have h4 := cvalid_begin_lt_end hvd
      omega
    · omega
  obtain ⟨lL, lR, hsplit, htL, htR⟩ :=
    tiles_split (c1 :: r1) b ht1 hnc (by omega) hm
  have hvL : ∀ c ∈ lL, cvalid c := by
    intro c hcm
    apply hv1
    rw [hsplit]
    exact List.mem_append.mpr (Or.inl hcm)
  cases lL with
  | nil =>
    have hbm : b = cend c2 := htL
    omega
  | cons x xs =>
    have hx : x = c1 := by
      have := hsplit
      simp only [List.cons_append] at this
      exact (List.cons.injEq _ _ _ _ ▸ this).1.symm
    subst hx
    have hlen2 : 1 < (x :: xs).length := by
      cases xs with
      | nil =>
        exfalso
        obtain ⟨hxb, hxe⟩ := htL
        have hxe' : cend x = cend c2 := hxe
        omega
      | cons y ys => simp
    obtain ⟨n, j, hform⟩ := form_exists hvc2.1
    have hbeq : cbegin c2 = n * 2 ^ j := by
      rw [hform]
      exact cbegin_form (hform ▸ hvc2.2)
    have heeq : cend c2 = (n + 1) * 2 ^ j := by
      rw [hform]
      exact cend_form (hform ▸ hvc2.2)
    have htL2 : Tiles (x :: xs) (n * 2 ^ j) ((n + 1) * 2 ^ j) := by
      rw [← hbeq, ← heeq, hb2]
      exact htL
    rw [hsplit] at hc1
    have hcL := (List.chain'_append.mp hc1).1
    have hUL : (n + 1) * 2 ^ j ≤ 2 ^ 63 := by
      rw [← heeq]
      omega
    have := canonical_tiling_of_cell j n (x :: xs) htL2 hvL hcL hUL
    omega

/-- Canonically chained tilings of a range are unique. -/
theorem canonical_tiling_unique {e : Nat} : ∀ (l1 : List Nat) (b : Nat) (l2 : List Nat),
    Tiles l1 b e → (∀ c ∈ l1, cvalid c) → List.Chain' canonPair l1 →
    Tiles l2 b e → (∀ c ∈ l2, cvalid c) → List.Chain' canonPair l2 →
    e ≤ 2 ^ 63 → l1 = l2 := by
  intro l1
  induction l1 with
  | nil =>
    intro b l2 ht1 _ _ ht2 hv2 _ _
    have hb : b = e := ht1
    subst hb
    exact (tiles_empty ht2 hv2).symm
  | cons c1 r1 ih =>
    intro b l2 ht1 hv1 hc1 ht2 hv2 hc2 hU
    cases l2 with
    | nil =>
      exfalso
      have hb : b = e := ht2
      subst hb
      exact absurd (tiles_empty ht1 hv1) (by simp)
    | cons c2 r2 =>
      have hee : cend c1 = cend c2 := by
        rcases lt_trichotomy (cend c1) (cend c2) with h | h | h
        · exact absurd h (canonical_tiling_head_not_lt ht1 hv1 hc1 ht2 hv2 hU)
        · exact h
        · exact absurd h (canonical_tiling_head_not_lt ht2 hv2 hc2 ht1 hv1 hU)
      obtain ⟨hb1, htl1⟩ := ht1
      obtain ⟨hb2, htl2⟩ := ht2
      have hcc : c1 = c2 := by
        have h1 := cvalid_val_eq (hv1 c1 (by simp))
        have h2 := cvalid_val_eq (hv2 c2 (by simp))
        omega
      subst hcc
      rw [ih (cend c1) r2 htl1 (fun d hd => hv1 d (by simp [hd])) hc1.tail htl2
        (fun d hd => hv2 d (by simp [hd])) hc2.tail hU]

/-- Cells later in a canonical chain begin at or after the end of the
head. -/
theorem chain_begin_le {l : List Nat} : ∀ {x : Nat}, List.Chain canonPair x l →
    (∀ c ∈ l, cvalid c) → ∀ y ∈ l, cend x ≤ cbegin y := by
  induction l with
  | nil =>
    intro x _ _ y hy
    simp at hy
  | cons z zs ih =>
    intro x h hv y hy
    rcases h with _ | ⟨hxz, hrest⟩
    rcases List.mem_cons.mp hy with rfl | hy'
    · exact hxz.1
    · have h1 := ih hrest (fun c hc => hv c (by simp [hc])) y hy'
      have h2 := cvalid_begin_lt_end (hv z (by simp))
      have h3 := hxz.1
      omega

/-- The least member of a nonempty canonical set is the head's begin. -/
theorem memS_lower {c : Nat} {r : List Nat} (hv : ∀ d ∈ c :: r, cvalid d)
    (hch : List.Chain' canonPair (c :: r)) :
    ∀ x, memS (c :: r) x → cbegin c ≤ x := by
  intro x hx
  obtain ⟨d, hd, h1, h2⟩ := hx
  rcases List.mem_cons.mp hd with rfl | hd'
  · exact h1
  · have h3 := chain_begin_le hch (fun e he => hv e (by simp [he])) d hd'
    have h4 := cvalid_begin_lt_end (hv c (by simp))
    omega

/-- A tiling by valid cells stays below `2^63`. -/
theorem tiles_end_le_63 : ∀ (l : List Nat) (b e : Nat), Tiles l b e →
    (∀ c ∈ l, cvalid c) → b ≤ 2 ^ 63 → e ≤ 2 ^ 63 := by
  intro l
  induction l with
  | nil =>
    intro b e ht _ hb
    rw [← ht]
    exact hb
  | cons c cs ih =>
    intro b e ht hv _
    obtain ⟨hbc, htl⟩ := ht
    exact ih (cend c) e htl (fun d hd => hv d (by simp [hd])) (cvalid_end_le (hv c (by simp)))

/-- Splitting off the first contiguous run: `runSplit` partitions the
list, the collected run tiles `[cend prev, e)` and continues the
canonical chain from `prev`, every remaining cell begins strictly after
`e`, and the remainder is still canonically chained. -/
theorem runSplit_spec : ∀ (l : List Nat) (prev : Nat), cvalid prev →
    (∀ c ∈ l, cvalid c) → List.Chain canonPair prev l →
    l = (runSplit prev l).1 ++ (runSplit prev l).2.1 ∧
    Tiles (runSplit prev l).1 (cend prev) (runSplit prev l).2.2 ∧
    List.Chain canonPair prev (runSplit prev l).1 ∧
    (∀ y ∈ (runSplit prev l).2.1, (runSplit prev l).2.2 < cbegin y) ∧
    List.Chain' canonPair (runSplit prev l).2.1 := by
  intro l
  induction l with
  | nil =>
    intro prev _ _ _
    refine ⟨rfl, rfl, List.Chain.nil, ?_, List.chain'_nil⟩
    intro y hy
    simp [runSplit] at hy
  | cons x xs ih =>
    intro prev hvp hv hch
    rcases hch with _ | ⟨hpx, hrest⟩
    by_cases hadjb : cend prev = cbegin x
    · have hunf : runSplit prev (x :: xs) =
          (x :: (runSplit x xs).1, (runSplit x xs).2.1, (runSplit x xs).2.2) := by
        simp [runSplit, hadjb]
      obtain ⟨hsp, ht, hchain, hgap, hc'⟩ :=
        ih x (hv x (by simp)) (fun c hc => hv c (by simp [hc])) hrest
      rw [hunf]
      refine ⟨?_, ⟨hadjb.symm, ht⟩, List.Chain.cons hpx hchain, hgap, hc'⟩
      show x :: xs = x :: ((runSplit x xs).1 ++ (runSplit x xs).2.1)
      rw [← hsp]
    · have hb : (cend prev == cbegin x) = false := beq_eq_false_iff_ne.mpr hadjb
      have hunf : runSplit prev (x :: xs) = ([], x :: xs, cend prev) := by
        simp [runSplit, hb]
      rw [hunf]
      refine ⟨rfl, rfl, List.Chain.nil, ?_, hrest⟩
      intro y hy
      show cend prev < cbegin y
      have hsep := hpx.1
      rcases List.mem_cons.mp hy with rfl | hy'
      · omega
      · have h1 := chain_begin_le hrest (fun c hc => hv c (by simp [hc])) y hy'
        have h2 := cvalid_begin_lt_end (hv x (by simp))
        omega

/-- Extensionality of canonical representations, with an explicit
length bound driving the induction over runs. -/
theorem canonical_ext_aux : ∀ (N : Nat) (s t : List Nat), s.length ≤ N →
    (∀ c ∈ s, cvalid c) → List.Chain' canonPair s →
    (∀ c ∈ t, cvalid c) → List.Chain' canonPair t →
    (∀ x, memS s x ↔ memS t x) → s = t := by
  intro N
  induction N with
  | zero =>
    intro s t hlen hvs hcs hvt hct hmem
    have hs : s = [] := by
      cases s with
      | nil => rfl
      | cons a r => simp at hlen
    subst hs
    cases t with
    | nil => rfl
    | cons c2 r2 =>
      exfalso
      have h2 := cvalid_begin_lt_end (hvt c2 (by simp))
      have hm : memS (c2 :: r2) (cbegin c2) := ⟨c2, by simp, le_refl _, h2⟩
      exact memS_nil _ ((hmem _).mpr hm)
  | succ N ih =>
    intro s t hlen hvs hcs hvt hct hmem
    cases s with
    | nil =>
      cases t with
      | nil => rfl
      | cons c2 r2 =>
        exfalso
        have h2 := cvalid_begin_lt_end (hvt c2 (by simp))
        have hm : memS (c2 :: r2) (cbegin c2) := ⟨c2, by simp, le_refl _, h2⟩
        exact memS_nil _ ((hmem _).mpr hm)
    | cons c1 r1 =>
      cases t with
      | nil =>
        exfalso
        have h1 := cvalid_begin_lt_end (hvs c1 (by simp))
        have hm : memS (c1 :: r1) (cbegin c1) := ⟨c1, by simp, le_refl _, h1⟩
        exact memS_nil _ ((hmem _).mp hm)
      | cons c2 r2 =>
        obtain ⟨run1, st1, e1, hr1⟩ : ∃ a b c, runSplit c1 r1 = (a, b, c) := ⟨_, _, _, rfl⟩
        obtain ⟨run2, st2, e2, hr2⟩ : ∃ a b c, runSplit c2 r2 = (a, b, c) := ⟨_, _, _, rfl⟩
        obtain ⟨hsp1, ht1, hchain1, hgap1, hch1⟩ :=
          runSplit_spec r1 c1 (hvs c1 (by simp)) (fun c hc => hvs c (by simp [hc])) hcs
        obtain ⟨hsp2, ht2, hchain2, hgap2, hch2⟩ :=
          runSplit_spec r2 c2 (hvt c2 (by simp)) (fun c hc => hvt c (by simp [hc])) hct
        rw [hr1] at hsp1 ht1 hchain1 hgap1 hch1
        rw [hr2] at hsp2 ht2 hchain2 hgap2 hch2
        simp only at hsp1 ht1 hchain1 hgap1 hch1 hsp2 ht2 hchain2 hgap2 hch2
        have hvrun1 : ∀ c ∈ c1 :: run1, cvalid c := by
          intro c hc
          rcases List.mem_cons.mp hc with rfl | hc'
          · exact hvs c (by simp)
          · exact hvs c (by simp [hsp1, List.mem_append.mpr (Or.inl hc')])
        have hvst1 : ∀ c ∈ st1, cvalid c := by
          intro c hc
          exact hvs c (by simp [hsp1, List.mem_append.mpr (Or.inr hc)])
        have hvrun2 : ∀ c ∈ c2 :: run2, cvalid c := by
          intro c hc
          rcases List.mem_cons.mp hc with rfl | hc'
          · exact hvt c (by simp)
          · exact hvt c (by simp [hsp2, List.mem_append.mpr (Or.inl hc')])
        have hvst2 : ∀ c ∈ st2, cvalid c := by
          intro c hc
          exact hvt c (by simp [hsp2, List.mem_append.mpr (Or.inr hc)])
        have hTrun1 : Tiles (c1 :: run1) (cbegin c1) e1 := ⟨rfl, ht1⟩
        have hTrun2 : Tiles (c2 :: run2) (cbegin c2) e2 := ⟨rfl, ht2⟩
        have hbe1 : cbegin c1 < e1 := by
          have h1 := Tiles.le ht1 (fun d hd => hvrun1 d (by simp [hd]))
          have h2 := cvalid_begin_lt_end (hvs c1 (by simp))
          omega
        have hbe2 : cbegin c2 < e2 := by
          have h1 := Tiles.le ht2 (fun d hd => hvrun2 d (by simp [hd]))
          have h2 := cvalid_begin_lt_end (hvt c2 (by simp))
          omega
        have he163 : e1 ≤ 2 ^ 63 :=
          tiles_end_le_63 (c1 :: run1) (cbegin c1) e1 hTrun1 hvrun1
            (by have := cvalid_end_le (hvs c1 (by simp))
                have := cvalid_begin_lt_end (hvs c1 (by simp))
                omega)
        have hdecomp1 : ∀ x, memS (c1 :: r1) x ↔ (cbegin c1 ≤ x ∧ x < e1) ∨ memS st1 x := by
          intro x
          have hx1 : c1 :: r1 = (c1 :: run1) ++ st1 := by
            rw [List.cons_append, ← hsp1]
          rw [hx1, memS_append, Tiles.mem_iff hTrun1 hvrun1]
        have hdecomp2 : ∀ x, memS (c2 :: r2) x ↔ (cbegin c2 ≤ x ∧ x < e2) ∨ memS st2 x := by
          intro x
          have hx2 : c2 :: r2 = (c2 :: run2) ++ st2 := by
            rw [List.cons_append, ← hsp2]
          rw [hx2, memS_append, Tiles.mem_iff hTrun2 hvrun2]
        have hst1gt : ∀ x, memS st1 x → e1 < x := by
          rintro x ⟨d, hd, hxl, hxr⟩
          have := hgap1 d hd
          omega
        have hst2gt : ∀ x, memS st2 x → e2 < x := by
          rintro x ⟨d, hd, hxl, hxr⟩
          have := hgap2 d hd
          omega
        have hbb : cbegin c1 = cbegin c2 := by
          have hm1 : memS (c1 :: r1) (cbegin c1) :=
            ⟨c1, by simp, le_refl _, cvalid_begin_lt_end (hvs c1 (by simp))⟩
          have hm2 : memS (c2 :: r2) (cbegin c2) :=
            ⟨c2, by simp, le_refl _, cvalid_begin_lt_end (hvt c2 (by simp))⟩
          have h1 := memS_lower hvt hct (cbegin c1) ((hmem _).mp hm1)
          have h2 := memS_lower hvs hcs (cbegin c2) ((hmem _).mpr hm2)
          omega
        have hee : e1 = e2 := by
          rcases lt_trichotomy e1 e2 with h | h | h
          · exfalso
            have hm2 : memS (c2 :: r2) e1 := (hdecomp2 e1).mpr (Or.inl ⟨by omega, h⟩)
            have hm1 := (hmem e1).mpr hm2
            rcases (hdecomp1 e1).mp hm1 with ⟨_, h2⟩ | h2
            · omega
            · exact absurd (hst1gt e1 h2) (by omega)
          · exact h
          · exfalso
            have hm1 : memS (c1 :: r1) e2 := (hdecomp1 e2).mpr (Or.inl ⟨by omega, h⟩)
            have hm2 := (hmem e2).mp hm1
            rcases (hdecomp2 e2).mp hm2 with ⟨_, h2⟩ | h2
            · omega
            · exact absurd (hst2gt e2 h2) (by omega)
        have hrun_eq : c1 :: run1 = c2 :: run2 := by
          rw [← hbb, ← hee] at hTrun2
          exact canonical_tiling_unique (c1 :: run1) (cbegin c1) (c2 :: run2)
            hTrun1 hvrun1 hchain1 hTrun2 hvrun2 hchain2 he163
        have hstmem : ∀ x, memS st1 x ↔ memS st2 x := by
          intro x
          constructor
          · intro hx
            have hgt := hst1gt x hx
            have hm1 : memS (c1 :: r1) x := (hdecomp1 x).mpr (Or.inr hx)
            have hm2 := (hmem x).mp hm1
            rcases (hdecomp2 x).mp hm2 with ⟨_, h2⟩ | h2
            · omega
            · exact h2
          · intro hx
            have hgt := hst2gt x hx
            have hm2 : memS (c2 :: r2) x := (hdecomp2 x).mpr (Or.inr hx)
            have hm1 := (hmem x).mpr hm2
            rcases (hdecomp1 x).mp hm1 with ⟨_, h2⟩ | h2
            · omega
            · exact h2
        have hstlen : st1.length ≤ N := by
          have h1 : (c1 :: r1).length = (c1 :: run1).length + st1.length := by
            rw [show c1 :: r1 = (c1 :: run1) ++ st1 by rw [List.cons_append, ← hsp1]]
            exact List.length_append _ _
          simp only [List.length_cons] at h1 hlen
          omega
        have hst_eq : st1 = st2 := ih st1 st2 hstlen hvst1 hch1 hvst2 hch2 hstmem
        calc c1 :: r1 = (c1 :: run1) ++ st1 := by rw [List.cons_append, ← hsp1]
        _ = (c2 :: run2) ++ st2 := by rw [hrun_eq, hst_eq]
        _ = c2 :: r2 := by rw [List.cons_append, ← hsp2]

/-- Extensionality of canonical representations: two canonical lists
denoting the same set of integers are equal. -/
theorem canonical_ext {s t : List Nat}
    (hvs : ∀ c ∈ s, cvalid c) (hcs : List.Chain' canonPair s)
    (hvt : ∀ c ∈ t, cvalid c) (hct : List.Chain' canonPair t)
    (hmem : ∀ x, memS s x ↔ memS t x) : s = t :=
  canonical_ext_aux s.length s t le_rfl hvs hcs hvt hct hmem

/-! ### Claim-level helper lemmas -/

theorem cvalid_of_decide {c : Nat} (h : (decide (0 < c) && decide (c < U64)) = true) :
    cvalid c := by
  rw [Bool.and_eq_true, decide_eq_true_iff, decide_eq_true_iff] at h
  exact h

theorem Canonical_of_all {s : List Nat}
    (h1 : (s.all fun c => decide (0 < c) && decide (c < U64)) = true)
    (h2 : unnormalized s = []) : Canonical s := by
  refine ⟨?_, h2⟩
  intro c hc
  rw [List.all_eq_true] at h1
  exact cvalid_of_decide (h1 c hc)

/-- C9: for `0 ≤ min ≤ max < 2^63`, `Interval(min, max)` succeeds and
denotes exactly the integers `x` with `min ≤ x ≤ max`; for `0 ≤ min`
and `min > max` it returns the empty set without failing. -/
theorem C9_interval_members (mn mx : Int) (h0 : 0 ≤ mn) :
    (mn ≤ mx → mx < 2 ^ 63 →
      ∃ l, Interval mn mx = some l ∧
        ∀ x : Nat, (memS l x ↔ mn ≤ (x : Int) ∧ (x : Int) ≤ mx)) ∧
    (mx < mn → Interval mn mx = some []) := by
  constructor
  · intro hle hlt
    refine ⟨interval mn.toNat (mx.toNat + 1), ?_, ?_⟩
    · show (if mn < 0 then none else if mn > mx then some [] else _) = _
      rw [if_neg (by omega), if_neg (by omega)]
    · have hmn : mn.toNat ≤ mx.toNat + 1 := by omega
      have hmx : mx.toNat + 1 ≤ 2 ^ 63 := by omega
      obtain ⟨ht, hv, _⟩ := interval_spec hmn hmx
      intro x
      rw [Tiles.mem_iff ht hv]
      omega
  · intro hgt
    show (if mn < 0 then none else if mn > mx then some [] else _) = _
    rw [if_neg (by omega), if_pos (by omega)]

/-- C9 witness: the degenerate branch at concrete input. -/
theorem C9_interval_members_witness : Interval 3 1 = some [] :=
  (C9_interval_members 3 1 (by norm_num)).2 (by norm_num)

/-- C10: `NewSet63` panics exactly when some element is negative, and
`Interval` panics exactly when its lower bound is negative. -/
theorem C10_panic_iff (elem : List Int) (mn mx : Int) :
    (NewSet63 elem = none ↔ ∃ e ∈ elem, e < 0) ∧
    (Interval mn mx = none ↔ mn < 0) := by
  constructor
  · by_cases hemp : elem.isEmpty
    · have he : elem = [] := by
        cases elem
        · rfl
        · simp at hemp
      subst he
      rw [show NewSet63 ([] : List Int) = some [] from rfl]
      simp
    · have hperm := List.perm_insertionSort (· ≤ · : Int → Int → Prop) elem
      have hsort := List.sorted_insertionSort (· ≤ · : Int → Int → Prop) elem
      rcases hs : elem.insertionSort (· ≤ ·) with _ | ⟨x, rest⟩
      · exfalso
        rw [hs] at hperm
        have := hperm.symm.length_eq
        cases elem
        · simp at hemp
        · simp at this
      · have hnew : NewSet63 elem = if x < 0 then none
            else some (((x :: rest).foldl
              (fun rss ee => insert63 rss (singleton ee.toNat)) []).reverse) := by
          unfold NewSet63
          rw [if_neg (by simp [hemp]), hs]
        rw [hs] at hperm hsort
        rw [hnew]
        constructor
        · intro h
          by_cases hx : x < 0
          · exact ⟨x, hperm.mem_iff.mp (by simp), hx⟩
          · rw [if_neg hx] at h
            simp at h
        · rintro ⟨e, he, hneg⟩
          have hes : e ∈ x :: rest := hperm.mem_iff.mpr he
          have hx : x < 0 := by
            rcases List.mem_cons.mp hes with rfl | hes'
            · exact hneg
            · have hle := (List.sorted_cons.mp hsort).1 e hes'
              omega
          rw [if_pos hx]
  · constructor
    · intro h
      by_contra hneg
      push_neg at hneg
      have : Interval mn mx ≠ none := by
        show (if mn < 0 then none else if mn > mx then some [] else _) ≠ _
        rw [if_neg (by omega)]
        by_cases hgt : mn > mx
        · rw [if_pos hgt]
          simp
        · rw [if_neg hgt]
          simp
      exact this h
    · intro h
      show (if mn < 0 then none else _) = none
      rw [if_pos h]

/-- C5 (code bug): `Intersects` panics on canonical inputs.  For the
canonical singletons `New(5) = [11]` and `New(0) = [1]`, the inner loop
indexes `t[i]` with `i = len(t)` and the Go call panics; the embedding
returns `none`. -/
theorem C5_intersects_panics :
    NewSet63 [5] = some [11] ∧ NewSet63 [0] = some [1] ∧
    Canonical [11] ∧ Canonical [1] ∧
    Intersects [11] [1] = none :=
  ⟨by decide, by decide, Canonical_of_all (by decide) (by decide),
    Canonical_of_all (by decide) (by decide), by decide⟩

/-- C2 (code bug): `Cover` can return a non-canonical result.  For the
canonical input `New(0, 2^62) = [1, 2^63+1]` with `maxSize = 2` and
`minGrain = 2^63`, the computation `minGrain*2` overflows `uint64` to
`0`, the grain test never fires, and the result repeats the universe
cell: `unnormalized` flags it. -/
theorem C2_cover_not_canonical :
    NewSet63 [0, 2 ^ 62] = some [1, 2 ^ 63 + 1] ∧
    Canonical [1, 2 ^ 63 + 1] ∧
    Cover [1, 2 ^ 63 + 1] 2 (2 ^ 63) = some [unity63, unity63] ∧
    unnormalized [unity63, unity63] ≠ [] :=
  ⟨by decide, Canonical_of_all (by decide) (by decide), by decide, by decide⟩

set_option maxRecDepth 20000 in
/-- C3 (code bug): the two formulations the claim asserts for every
`maxSize` and `minGrain` come apart.  For the canonical set
`New(1,4,6,22,23,24,25,127,128) = [3,9,13,46,50,255,257]` with
`maxSize = 2` and `minGrain = 2^63`, the `minGrain*2` overflow makes
`Cover` return the non-canonical `[128, 2^63]` (the universe cell
contains the other); `Intersection(C,S)` still equals `S`, but
`Union(C,S)` normalizes to `[2^63]`, so `Union(C,S) == C` is false. -/
theorem C3_cover_union_ne :
    NewSet63 [1, 4, 6, 22, 23, 24, 25, 127, 128] = some [3, 9, 13, 46, 50, 255, 257] ∧
    Canonical [3, 9, 13, 46, 50, 255, 257] ∧
    Cover [3, 9, 13, 46, 50, 255, 257] 2 (2 ^ 63) = some [128, 2 ^ 63] ∧
    Equal (Intersection [128, 2 ^ 63] [3, 9, 13, 46, 50, 255, 257])
      [3, 9, 13, 46, 50, 255, 257] = true ∧
    Equal (Union [128, 2 ^ 63] [3, 9, 13, 46, 50, 255, 257]) [128, 2 ^ 63] = false :=
  ⟨by decide, Canonical_of_all (by decide) (by decide), by decide, by decide, by decide⟩

/-- C6 counterexample: at `minGrain = 2^62` exactly (the claim's lower
boundary), the cover of the canonical set `New(0) = [1]` is the
half-universe cell `[0, 2^62)`, not the universe. -/
theorem C6_counterexample :
    NewSet63 [0] = some [1] ∧ Canonical [1] ∧
    Cover [1] 1 (2 ^ 62) = some [2 ^ 62] ∧ (2 ^ 62 : Nat) ≠ unity63 :=
  ⟨by decide, Canonical_of_all (by decide) (by decide), by decide, by decide⟩

theorem heapPush_nil (sh : List cand) (x : Nat) : heapPush sh [] x = [x] := by
  show heapUpF sh (0 + 1) ([] ++ [x]) 0 = [x]
  simp [heapUpF]

theorem shave_single (sh : List cand) (x m fuel : Nat) :
    shave (fuel + 1) sh [x] m = some (Sum.inl sh) := by
  simp only [shave]
  rw [if_neg (by simp)]

theorem getLeaves_singleton_leaf (nn : cand) (h : nn.c ≠ 0) (hl : isLeaf nn = true) :
    getLeaves [nn] 2 0 [] = [nn.c] := by
  have h1 : getLeaves [nn] (1 + 1) 0 [] =
      if ([nn].getD 0 cdefault).c ≠ 0 ∧ isLeaf ([nn].getD 0 cdefault) then
        [] ++ [([nn].getD 0 cdefault).c]
      else getLeaves [nn] 1 ([nn].getD 0 cdefault).ir.toNat
        (getLeaves [nn] 1 ([nn].getD 0 cdefault).il.toNat []) := rfl
  rw [show (2 : Nat) = 1 + 1 from rfl, h1, if_pos ⟨by simpa using h, by simpa using hl⟩]
  simp

/-- `Cover` assembly after a single-node shape arena: the heap
initialisation, shave loop and leaf collection of `Cover` on a
one-element arena whose node is a live leaf. -/
theorem cover_assemble (s : List Nat) (maxSize : Int) (minGrain : Nat)
    (hempty : s.isEmpty = false) (nn : cand) (w : Nat)
    (hshape : shape s 64 0 s.length unity63 minGrain [] = ([nn], w))
    (hc : nn.c ≠ 0) (hl : isLeaf nn = true) :
    Cover s maxSize minGrain = some [nn.c] := by
  have hlv : (List.range ([nn] : List cand).length).foldl
      (fun lv i => if isLeaf (([nn] : List cand).getD i cdefault) then heapPush [nn] lv i
        else lv) [] = [0] := by
    have hr : List.range ([nn] : List cand).length = [0] := by
      show List.range 1 = [0]
      decide
    rw [hr, List.foldl_cons, List.foldl_nil, if_pos (by simpa using hl)]
    exact heapPush_nil [nn] 0
  have hsh : shave ((([nn] : List cand).length + ([0] : List Nat).length + 1) * 4) [nn] [0]
      maxSize.toNat = some (Sum.inl [nn]) := by
    have h12 : ((([nn] : List cand).length + ([0] : List Nat).length + 1) * 4) = 11 + 1 := by
      simp
    rw [h12]
    exact shave_single [nn] 0 maxSize.toNat 11
  unfold Cover
  rw [hempty]
  simp only [Bool.false_eq_true, if_false, hshape]
  simp only [hlv]
  have h12 : ((([nn] : List cand).length + ([0] : List Nat).length + 1) * 4) = 11 + 1 := by
    simp
  rw [h12, shave_single]
  simp only [List.length_cons, List.length_nil, Nat.zero_add, Nat.add_sub_cancel]
  rw [show (1 + 1 : Nat) = 2 from rfl, show (1 - 1 : Nat) = 0 from rfl,
    getLeaves_singleton_leaf nn hc hl]

/-- C6 (amended): for a non-empty set and `2^62 < minGrain < 2^63`, the
root cell already fails the grain test, so `Cover` returns the single
universe cell for every `maxSize`. -/
theorem C6_amended (s : List Nat) (maxSize : Int) (minGrain : Nat)
    (hne : s ≠ []) (hlo : 2 ^ 62 < minGrain) (hhi : minGrain < 2 ^ 63) :
    Cover s maxSize minGrain = some [unity63] := by
  have hslen : s.length ≠ 0 := fun h => hne (List.length_eq_zero.mp h)
  have hlsbu : lsb unity63 = 2 ^ 63 := by decide
  have hmod : minGrain * 2 % U64 = minGrain * 2 :=
    Nat.mod_eq_of_lt (by rw [U64_eq]; omega)
  have hcond : lsb unity63 < minGrain * 2 % U64 := by
    rw [hlsbu, hmod]
    omega
  have hif : ¬ ((0 == s.length) = true) := fun h => hslen (beq_iff_eq.mp h).symm
  have hshape : shape s 64 0 s.length unity63 minGrain [] =
      ([⟨unity63, Count ((s.drop 0).take (s.length - 0)), -1, -1, -1, 0⟩],
        Count ((s.drop 0).take (s.length - 0))) := by
    show shape s (63 + 1) 0 s.length unity63 minGrain [] = _
    rw [shape]
    rw [if_neg hif, if_pos hcond]
    simp
  have hempty : s.isEmpty = false := by
    cases s with
    | nil => exact absurd rfl hne
    | cons a r => rfl
  exact cover_assemble s maxSize minGrain hempty
    ⟨unity63, Count ((s.drop 0).take (s.length - 0)), -1, -1, -1, 0⟩
    (Count ((s.drop 0).take (s.length - 0))) hshape (by show unity63 ≠ 0; decide) rfl

/-- C6 amended witness at a concrete input. -/
theorem C6_amended_witness : Cover [1] 5 (2 ^ 62 + 1) = some [unity63] :=
  C6_amended [1] 5 (2 ^ 62 + 1) (by decide) (by decide) (by decide)

/-! ### Counting -/

theorem countExact_eq : ∀ (l : List Nat) (a : Nat),
    l.foldl (fun n v => n + lsb v) a = a + CountExact l := by
  intro l
  induction l with
  | nil =>
    intro a
    show a = a + 0
    omega
  | cons c cs ih =>
    intro a
    show cs.foldl _ (a + lsb c) = _
    rw [ih (a + lsb c)]
    have h1 : CountExact (c :: cs) = lsb c + CountExact cs := by
      show (c :: cs).foldl (fun n v => n + lsb v) 0 = _
      rw [List.foldl_cons, ih]
      omega
    omega

theorem countExact_cons (c : Nat) (cs : List Nat) :
    CountExact (c :: cs) = lsb c + CountExact cs := by
  show (c :: cs).foldl (fun n v => n + lsb v) 0 = _
  rw [List.foldl_cons, countExact_eq]
  omega

theorem countExact_append (l1 l2 : List Nat) :
    CountExact (l1 ++ l2) = CountExact l1 + CountExact l2 := by
  show (l1 ++ l2).foldl (fun n v => n + lsb v) 0 = _
  rw [List.foldl_append, countExact_eq]
  have h : l1.foldl (fun n v => n + lsb v) 0 = CountExact l1 := rfl
  rw [h]

/-- The sizes of a tiling telescope. -/
theorem tiles_countExact : ∀ (l : List Nat) (b e : Nat), Tiles l b e →
    (∀ c ∈ l, cvalid c) → b + CountExact l = e := by
  intro l
  induction l with
  | nil =>
    intro b e ht _
    have hbe : b = e := ht
    show b + 0 = e
    omega
  | cons c cs ih =>
    intro b e ht hv
    obtain ⟨hb, htl⟩ := ht
    have h1 := ih (cend c) e htl (fun d hd => hv d (by simp [hd]))
    have h2 := cend_eq_begin_add_lsb (hv c (by simp))
    have h3 := countExact_cons c cs
    omega

/-- Wrapping `Count` agrees with the exact sum while no intermediate
sum overflows. -/
theorem count_foldl_eq : ∀ (l : List Nat) (a : Nat), a + CountExact l < U64 →
    l.foldl (fun n v => (n + lsb v) % U64) a = a + CountExact l := by
  intro l
  induction l with
  | nil =>
    intro a _
    show a = a + 0
    omega
  | cons c cs ih =>
    intro a h
    have h3 := countExact_cons c cs
    show cs.foldl _ ((a + lsb c) % U64) = _
    have hlt : a + lsb c < U64 := by omega
    rw [Nat.mod_eq_of_lt hlt, ih (a + lsb c) (by omega)]
    omega

theorem Count_eq_CountExact {l : List Nat} (h : CountExact l < U64) :
    Count l = CountExact l := by
  show l.foldl _ 0 = _
  rw [count_foldl_eq l 0 (by omega)]
  omega

/-! ### `Complement` -/

/-- Two cells separated by a nonempty gap are never exact siblings. -/
theorem sibling_ne_of_gap {a b : Nat} (ha : cvalid a) (hb : cvalid b)
    (h : cend a < cbegin b) : sibling b ≠ a := by
  intro hs
  obtain ⟨n, j, hfb⟩ := form_exists hb.1
  subst hfb
  by_cases hj : j ≤ 62
  · rw [sibling_form hj hb.2] at hs
    subst hs
    have hA : cend ((2 * (n ^^^ 1) + 1) * 2 ^ j) = ((n ^^^ 1) + 1) * 2 ^ j := cend_form ha.2
    have hB : cbegin ((2 * n + 1) * 2 ^ j) = n * 2 ^ j := cbegin_form hb.2
    have hpow : (0 : Nat) < 2 ^ j := Nat.pos_pow_of_pos _ (by norm_num)
    rcases Nat.even_or_odd n with ⟨t, hn⟩ | ⟨t, hn⟩
    · have hn2 : n = 2 * t := by omega
      have hx : n ^^^ 1 = n + 1 := by
        rw [hn2]
        exact two_mul_xor_one t
      have q1 : ((n ^^^ 1) + 1) * 2 ^ j = n * 2 ^ j + 2 ^ j + 2 ^ j := by
        rw [hx]
        ring
      omega
    · have hx : n ^^^ 1 = 2 * t := by
        rw [hn]
        exact two_mul_add_one_xor_one t
      have q1 : ((n ^^^ 1) + 1) * 2 ^ j = n * 2 ^ j := by
        rw [hx, hn]
      omega
  · have hj63 : j = 63 := by
      have := form_k_lt hb.2
      omega
    subst hj63
    have hm := form_m_lt hb.2
    have h2 : (2 : Nat) ^ (64 - 63) = 2 := by norm_num
    have hn0 : n = 0 := by omega
    subst hn0
    have hbu : (2 * 0 + 1) * 2 ^ 63 = unity63 := by
      show _ = 2 ^ 63
      ring
    rw [hbu, sibling_unity] at hs
    have h0 : cbegin ((2 * 0 + 1) * 2 ^ 63) = 0 := by
      rw [hbu]
      decide
    omega

/-- The accumulator of `complLoop` is only appended to. -/
theorem complLoop_append : ∀ (fuel b sb se : Nat) (s r : List Nat),
    complLoop fuel b sb se s r = r ++ complLoop fuel b sb se s [] := by
  intro fuel
  induction fuel with
  | zero =>
    intro b sb se s r
    simp [complLoop]
  | succ fuel ih =>
    intro b sb se s r
    rw [complLoop]
    conv_rhs => rw [complLoop]
    by_cases h1 : sb ≠ se ∧ b < 2 ^ 63
    · rw [if_pos h1, if_pos h1, ih _ _ _ _ (r ++ interval b sb),
        ih _ _ _ _ ([] ++ interval b sb)]
      simp
    · rw [if_neg h1, if_neg h1]
      by_cases h2 : b < 2 ^ 63
      · rw [if_pos h2, if_pos h2]
        simp
      · rw [if_neg h2, if_neg h2]
        simp

/-- Full specification of the `Complement` loop on a canonical suffix:
given that every cell of `u` lies at or after `b`, the loop emits a
canonical list of cells covering exactly `[b, 2^63) \ u`, whose sizes
complete the telescoping count. -/
theorem complLoop_nil_spec : ∀ (fuel : Nat) (u : List Nat) (b : Nat),
    u.length + 1 ≤ fuel → (∀ c ∈ u, cvalid c) → List.Chain' canonPair u →
    b ≤ 2 ^ 63 → (∀ c ∈ u, b ≤ cbegin c) →
    (∀ c ∈ complLoop fuel b (headx u).2.2.1 (headx u).2.2.2 (headx u).2.1 [], cvalid c) ∧
    List.Chain' canonPair (complLoop fuel b (headx u).2.2.1 (headx u).2.2.2 (headx u).2.1 []) ∧
    (∀ c ∈ complLoop fuel b (headx u).2.2.1 (headx u).2.2.2 (headx u).2.1 [], b ≤ cbegin c) ∧
    (∀ x, memS (complLoop fuel b (headx u).2.2.1 (headx u).2.2.2 (headx u).2.1 []) x ↔
      (b ≤ x ∧ x < 2 ^ 63 ∧ ¬ memS u x)) ∧
    b + CountExact u +
      CountExact (complLoop fuel b (headx u).2.2.1 (headx u).2.2.2 (headx u).2.1 []) = 2 ^ 63 := by
  intro fuel
  induction fuel with
  | zero =>
    intro u b hfuel
    omega
  | succ fuel ih =>
    intro u b hfuel hv hc hb hfst
    cases u with
    | nil =>
      have e1 : (headx ([] : List Nat)).2.2.1 = 0 := rfl
      have e2 : (headx ([] : List Nat)).2.2.2 = 0 := rfl
      have e3 : (headx ([] : List Nat)).2.1 = ([] : List Nat) := rfl
      rw [e1, e2, e3, complLoop, if_neg (by simp)]
      by_cases hb63 : b < 2 ^ 63
      · rw [if_pos hb63, List.nil_append]
        obtain ⟨ht, hvI, hmax⟩ := interval_spec (le_of_lt hb63) le_rfl
        have hch := chain_of_maximal_tiles (interval b (2 ^ 63)) b ht hvI hmax
        refine ⟨hvI, hch, ?_, ?_, ?_⟩
        · intro c hcm
          exact (Tiles.cells_within ht hvI c hcm).1
        · intro x
          rw [Tiles.mem_iff ht hvI]
          simp [memS_nil]
        · have := tiles_countExact _ _ _ ht hvI
          show b + CountExact [] + _ = _
          have hce : CountExact ([] : List Nat) = 0 := rfl
          omega
      · rw [if_neg hb63]
        refine ⟨by simp, List.chain'_nil, by simp, ?_, ?_⟩
        · intro x
          simp [memS_nil]
          omega
        · show b + CountExact [] + CountExact [] = 2 ^ 63
          have hce : CountExact ([] : List Nat) = 0 := rfl
          omega
    | cons c rest =>
      obtain ⟨run, st, e, hr⟩ : ∃ w1 w2 w3, runSplit c rest = (w1, w2, w3) :=
        ⟨_, _, _, rfl⟩
      obtain ⟨hsp, htr, hchain, hgap, hch'⟩ :=
        runSplit_spec rest c (hv c (by simp)) (fun d hd => hv d (by simp [hd])) hc
      rw [hr] at hsp htr hchain hgap hch'
      simp only at hsp htr hchain hgap hch'
      have hh1 : (headx (c :: rest)).2.2.1 = cbegin c := by rw [headx, hr]
      have hh2 : (headx (c :: rest)).2.2.2 = e := by rw [headx, hr]
      have hh3 : (headx (c :: rest)).2.1 = st := by rw [headx, hr]
      rw [hh1, hh2, hh3]
      have hvrun : ∀ d ∈ c :: run, cvalid d := by
        intro d hd
        rcases List.mem_cons.mp hd with rfl | hd'
        · exact hv d (by simp)
        · exact hv d (by simp [hsp, List.mem_append.mpr (Or.inl hd')])
      have hvst : ∀ d ∈ st, cvalid d := by
        intro d hd
        exact hv d (by simp [hsp, List.mem_append.mpr (Or.inr hd)])
      have hTrun : Tiles (c :: run) (cbegin c) e := ⟨rfl, htr⟩
      have hbce : cbegin c < e := by
        have h1 := Tiles.le htr (fun d hd => hvrun d (by simp [hd]))
        have h2 := cvalid_begin_lt_end (hv c (by simp))
        omega
      have he63 : e ≤ 2 ^ 63 :=
        tiles_end_le_63 (c :: run) (cbegin c) e hTrun hvrun
          (by have := cvalid_end_le (hv c (by simp))
              have := cvalid_begin_lt_end (hv c (by simp))
              omega)
      have hbc : b ≤ cbegin c := hfst c (by simp)
      have hcond : cbegin c ≠ e ∧ b < 2 ^ 63 := ⟨by omega, by omega⟩
      have hunf : complLoop (fuel + 1) b (cbegin c) e st [] =
          if cbegin c ≠ e ∧ b < 2 ^ 63 then
            complLoop fuel e (headx st).2.2.1 (headx st).2.2.2 (headx st).2.1
              ([] ++ interval b (cbegin c))
          else if b < 2 ^ 63 then [] ++ interval b (2 ^ 63) else [] := by
        rw [complLoop]
      rw [hunf, if_pos hcond, List.nil_append,
        complLoop_append fuel e (headx st).2.2.1 (headx st).2.2.2 (headx st).2.1
          (interval b (cbegin c))]
      have hstlen : st.length + 1 ≤ fuel := by
        have h1 : rest.length = run.length + st.length := by
          rw [hsp]
          exact List.length_append _ _
        simp only [List.length_cons] at hfuel
        omega
      have hstfst : ∀ d ∈ st, e ≤ cbegin d := by
        intro d hd
        exact le_of_lt (hgap d hd)
      obtain ⟨ihv, ihch, ihfst, ihmem, ihcount⟩ :=
        ih st e hstlen hvst hch' he63 hstfst
      obtain ⟨htI, hvI, hmaxI⟩ := interval_spec hbc (by omega)
      have hchI := chain_of_maximal_tiles (interval b (cbegin c)) b htI hvI hmaxI
      have hwithinI := Tiles.cells_within htI hvI
      have hdecomp : ∀ x, memS (c :: rest) x ↔ (cbegin c ≤ x ∧ x < e) ∨ memS st x := by
        intro x
        have hx1 : c :: rest = (c :: run) ++ st := by
          rw [List.cons_append, ← hsp]
        rw [hx1, memS_append, Tiles.mem_iff hTrun hvrun]
      refine ⟨?_, ?_, ?_, ?_, ?_⟩
      · intro d hd
        rcases List.mem_append.mp hd with hd' | hd'
        · exact hvI d hd'
        · exact ihv d hd'
      · refine List.chain'_append.mpr ⟨hchI, ihch, ?_⟩
        intro x hx y hy
        have hxm : x ∈ interval b (cbegin c) := List.mem_of_mem_getLast? hx
        have hym := List.mem_of_mem_head? hy
        have hxw := hwithinI x hxm
        have hyb := ihfst y hym
        have hgap2 : cend x < cbegin y := by omega
        exact ⟨le_of_lt hgap2, sibling_ne_of_gap (hvI x hxm) (ihv y hym) hgap2⟩
      · intro d hd
        rcases List.mem_append.mp hd with hd' | hd'
        · exact (hwithinI d hd').1
        · have := ihfst d hd'
          omega
      · intro x
        rw [memS_append, Tiles.mem_iff htI hvI, ihmem x, hdecomp x]
        constructor
        · rintro (⟨h1, h2⟩ | ⟨h1, h2, h3⟩)
          · refine ⟨h1, by omega, ?_⟩
            rintro (⟨h4, _⟩ | h4)
            · omega
            · obtain ⟨d, hd, hdl, _⟩ := h4
              have := hgap d hd
              omega
          · refine ⟨by omega, h2, ?_⟩
            rintro (⟨_, h4⟩ | h4)
            · omega
            · exact h3 h4
        · rintro ⟨h1, h2, h3⟩
          by_cases h4 : x < cbegin c
          · exact Or.inl ⟨h1, h4⟩
          · push_neg at h4
            right
            refine ⟨?_, h2, fun h5 => h3 (Or.inr h5)⟩
            by_contra h6
            push_neg at h6
            exact h3 (Or.inl ⟨h4, h6⟩)
      · have q1 := tiles_countExact _ _ _ hTrun hvrun
        have q2 := tiles_countExact _ _ _ htI hvI
        have q3 : CountExact (c :: rest) = CountExact (c :: run) + CountExact st := by
          rw [show c :: rest = (c :: run) ++ st by rw [List.cons_append, ← hsp],
            countExact_append]
        rw [countExact_append]
        omega

/-- Specification of `Complement` on canonical input: canonical output
denoting exactly `[0, 2^63) \ s`, with the exact complement count. -/
theorem Complement_spec {s : List Nat} (hv : ∀ c ∈ s, cvalid c)
    (hc : List.Chain' canonPair s) :
    (∀ c ∈ Complement s, cvalid c) ∧ List.Chain' canonPair (Complement s) ∧
    (∀ x, memS (Complement s) x ↔ (x < 2 ^ 63 ∧ ¬ memS s x)) ∧
    CountExact s + CountExact (Complement s) = 2 ^ 63 := by
  have hC : Complement s =
      complLoop (s.length + 1) 0 (headx s).2.2.1 (headx s).2.2.2 (headx s).2.1 [] := rfl
  obtain ⟨h1, h2, _, h4, h5⟩ :=
    complLoop_nil_spec (s.length + 1) s 0 le_rfl hv hc (by norm_num) (fun c _ => Nat.zero_le _)
  rw [← hC] at h1 h2 h4 h5
  refine ⟨h1, h2, ?_, by omega⟩
  intro x
  rw [h4 x]
  constructor
  · rintro ⟨_, h6, h7⟩
    exact ⟨h6, h7⟩
  · rintro ⟨h6, h7⟩
    exact ⟨Nat.zero_le _, h6, h7⟩

/-- C8: on canonical input, `Count(A) + Count(Complement(A)) = 2^63`
with no intermediate 64-bit overflow (both sums equal their exact
values); the full set counts exactly `2^63` and the empty set `0`. -/
theorem C8_count_complement (A : List Nat) (hA : Canonical A) :
    Count A + Count (Complement A) = 2 ^ 63 ∧
    Count A = CountExact A ∧ Count (Complement A) = CountExact (Complement A) ∧
    Count [unity63] = 2 ^ 63 ∧ Count ([] : List Nat) = 0 := by
  obtain ⟨hv, hc⟩ := canonical_iff.mp hA
  obtain ⟨_, _, _, hcount⟩ := Complement_spec hv hc
  have hU : (2 : Nat) ^ 63 < U64 := by
    rw [U64_eq]
    norm_num
  have h1 : Count A = CountExact A := Count_eq_CountExact (by omega)
  have h2 : Count (Complement A) = CountExact (Complement A) := Count_eq_CountExact (by omega)
  exact ⟨by omega, h1, h2, by decide, rfl⟩

/-- C8 witness at a concrete canonical input. -/
theorem C8_count_complement_witness : Count [1] + Count (Complement [1]) = 2 ^ 63 :=
  (C8_count_complement [1] (Canonical_of_all (by decide) (by decide))).1

/-! ### The merge-walk loops: common infrastructure -/

/-- Invariant of one side of a merge walk: either the side is
exhausted, or the candidate run `[sb, se)` is live, the remaining cells
are canonical and start strictly after it, and a verbatim slice, when
present, is a canonical tiling of the candidate. -/
def SideOK (ss : Option (List Nat)) (s : List Nat) (sb se : Nat) : Prop :=
  (sb = se ∧ s = [] ∧ ss = none) ∨
  (sb < se ∧ se ≤ 2 ^ 63 ∧ (∀ c ∈ s, cvalid c) ∧ List.Chain' canonPair s ∧
    (∀ c ∈ s, se < cbegin c) ∧
    (ss = none ∨ ∃ run, ss = some run ∧ Tiles run sb se ∧ (∀ c ∈ run, cvalid c) ∧
      List.Chain' canonPair run))

theorem memS_gt {s : List Nat} {se : Nat} (h : ∀ c ∈ s, se < cbegin c) :
    ∀ x, memS s x → se < x := by
  rintro x ⟨d, hd, h1, h2⟩
  have := h d hd
  omega

/-- `headx` of a canonical list establishes the side invariant. -/
theorem headx_sideOK {s : List Nat} (hv : ∀ c ∈ s, cvalid c)
    (hc : List.Chain' canonPair s) :
    SideOK (headx s).1 (headx s).2.1 (headx s).2.2.1 (headx s).2.2.2 := by
  cases s with
  | nil => exact Or.inl ⟨rfl, rfl, rfl⟩
  | cons c rest =>
    obtain ⟨run, st, e, hr⟩ : ∃ w1 w2 w3, runSplit c rest = (w1, w2, w3) := ⟨_, _, _, rfl⟩
    obtain ⟨hsp, htr, hchain, hgap, hch'⟩ :=
      runSplit_spec rest c (hv c (by simp)) (fun d hd => hv d (by simp [hd])) hc
    rw [hr] at hsp htr hchain hgap hch'
    simp only at hsp htr hchain hgap hch'
    have hh1 : (headx (c :: rest)).1 = some (c :: run) := by rw [headx, hr]
    have hh2 : (headx (c :: rest)).2.1 = st := by rw [headx, hr]
    have hh3 : (headx (c :: rest)).2.2.1 = cbegin c := by rw [headx, hr]
    have hh4 : (headx (c :: rest)).2.2.2 = e := by rw [headx, hr]
    rw [hh1, hh2, hh3, hh4]
    right
    have hvrun : ∀ d ∈ c :: run, cvalid d := by
      intro d hd
      rcases List.mem_cons.mp hd with rfl | hd'
      · exact hv d (by simp)
      · exact hv d (by simp [hsp, List.mem_append.mpr (Or.inl hd')])
    have hvst : ∀ d ∈ st, cvalid d := by
      intro d hd
      exact hv d (by simp [hsp, List.mem_append.mpr (Or.inr hd)])
    have hTrun : Tiles (c :: run) (cbegin c) e := ⟨rfl, htr⟩
    have hbce : cbegin c < e := by
      have h1 := Tiles.le htr (fun d hd => hvrun d (by simp [hd]))
      have h2 := cvalid_begin_lt_end (hv c (by simp))
      omega
    have he63 : e ≤ 2 ^ 63 :=
      tiles_end_le_63 (c :: run) (cbegin c) e hTrun hvrun
        (by have := cvalid_end_le (hv c (by simp))
            have := cvalid_begin_lt_end (hv c (by simp))
            omega)
    exact ⟨hbce, he63, hvst, hch', hgap, Or.inr ⟨c :: run, rfl, hTrun, hvrun, hchain⟩⟩

/-- `headx` decomposes the denoted set of a canonical list into the
first run and the remainder. -/
theorem memS_headx {s : List Nat} (hv : ∀ c ∈ s, cvalid c)
    (hc : List.Chain' canonPair s) :
    ∀ x, memS s x ↔
      ((headx s).2.2.1 ≤ x ∧ x < (headx s).2.2.2) ∨ memS (headx s).2.1 x := by
  cases s with
  | nil =>
    intro x
    have hh2 : (headx ([] : List Nat)).2.1 = ([] : List Nat) := rfl
    have hh3 : (headx ([] : List Nat)).2.2.1 = 0 := rfl
    have hh4 : (headx ([] : List Nat)).2.2.2 = 0 := rfl
    rw [hh2, hh3, hh4]
    simp [memS_nil]
  | cons c rest =>
    obtain ⟨run, st, e, hr⟩ : ∃ w1 w2 w3, runSplit c rest = (w1, w2, w3) := ⟨_, _, _, rfl⟩
    obtain ⟨hsp, htr, hchain, hgap, hch'⟩ :=
      runSplit_spec rest c (hv c (by simp)) (fun d hd => hv d (by simp [hd])) hc
    rw [hr] at hsp htr hchain hgap hch'
    simp only at hsp htr hchain hgap hch'
    have hh2 : (headx (c :: rest)).2.1 = st := by rw [headx, hr]
    have hh3 : (headx (c :: rest)).2.2.1 = cbegin c := by rw [headx, hr]
    have hh4 : (headx (c :: rest)).2.2.2 = e := by rw [headx, hr]
    rw [hh2, hh3, hh4]
    have hvrun : ∀ d ∈ c :: run, cvalid d := by
      intro d hd
      rcases List.mem_cons.mp hd with rfl | hd'
      · exact hv d (by simp)
      · exact hv d (by simp [hsp, List.mem_append.mpr (Or.inl hd')])
    have hTrun : Tiles (c :: run) (cbegin c) e := ⟨rfl, htr⟩
    intro x
    have hx1 : c :: rest = (c :: run) ++ st := by
      rw [List.cons_append, ← hsp]
    rw [hx1, memS_append, Tiles.mem_iff hTrun hvrun]

/-- A list whose `headx` remainder is nonempty, or whose run is live,
is itself nonempty (in the form used for the fuel bound). -/
theorem headx_rest_length {s : List Nat} (h : s ≠ []) :
    (headx s).2.1.length + 1 ≤ s.length := by
  cases s with
  | nil => exact absurd rfl h
  | cons c rest =>
    have h1 := runSplit_length c rest
    have hh2 : (headx (c :: rest)).2.1 = (runSplit c rest).2.1 := by rw [headx]
    rw [hh2]
    simp only [List.length_cons]
    omega

/-- A live verbatim run equals the canonical interval decomposition of
its span. -/
theorem emitRun_eq_interval {ss : Option (List Nat)} {sb se : Nat}
    (hlt : sb ≤ se) (hse : se ≤ 2 ^ 63)
    (hrun : ss = none ∨ ∃ run, ss = some run ∧ Tiles run sb se ∧
      (∀ c ∈ run, cvalid c) ∧ List.Chain' canonPair run) :
    emitRun ss sb se = interval sb se := by
  rcases hrun with rfl | ⟨run, rfl, ht, hv, hc⟩
  · rfl
  · show run = interval sb se
    obtain ⟨htI, hvI, hmaxI⟩ := interval_spec hlt hse
    exact canonical_tiling_unique run sb (interval sb se) ht hv hc htI hvI
      (chain_of_maximal_tiles _ _ htI hvI hmaxI) hse

/-- Prepending a canonical interval block to a canonical list that
lives strictly beyond it preserves canonicity and unions the
denotations. -/
theorem canonical_append_interval {b0 e0 : Nat} {out : List Nat}
    (hb : b0 ≤ e0) (he : e0 ≤ 2 ^ 63)
    (hvo : ∀ c ∈ out, cvalid c) (hco : List.Chain' canonPair out)
    (hgt : ∀ x, memS out x → e0 < x) :
    (∀ c ∈ interval b0 e0 ++ out, cvalid c) ∧
    List.Chain' canonPair (interval b0 e0 ++ out) ∧
    (∀ x, memS (interval b0 e0 ++ out) x ↔ (b0 ≤ x ∧ x < e0) ∨ memS out x) := by
  obtain ⟨htI, hvI, hmaxI⟩ := interval_spec hb he
  have hchI := chain_of_maximal_tiles _ _ htI hvI hmaxI
  refine ⟨?_, ?_, ?_⟩
  · intro c hc
    rcases List.mem_append.mp hc with h | h
    · exact hvI c h
    · exact hvo c h
  · refine List.chain'_append.mpr ⟨hchI, hco, ?_⟩
    intro x hx y hy
    have hxm := List.mem_of_mem_getLast? hx
    have hym := List.mem_of_mem_head? hy
    have hxw := (Tiles.cells_within htI hvI x hxm).2
    have hyb : e0 < cbegin y :=
      hgt (cbegin y) ⟨y, hym, le_refl _, cvalid_begin_lt_end (hvo y hym)⟩
    exact ⟨by omega, sibling_ne_of_gap (hvI x hxm) (hvo y hym) (by omega)⟩
  · intro x
    rw [memS_append, Tiles.mem_iff htI hvI]

/-- The accumulator of `unionLoop` is only appended to. -/
theorem unionLoop_append : ∀ (fuel : Nat) (ss : Option (List Nat)) (s : List Nat)
    (sb se : Nat) (tt : Option (List Nat)) (t : List Nat) (tb te : Nat) (r : List Nat),
    unionLoop fuel ss s sb se tt t tb te r =
      r ++ unionLoop fuel ss s sb se tt t tb te [] := by
  intro fuel
  induction fuel with
  | zero =>
    intro ss s sb se tt t tb te r
    simp [unionLoop]
  | succ fuel ih =>
    intro ss s sb se tt t tb te r
    rw [unionLoop]
    conv_rhs => rw [unionLoop]
    by_cases h1 : sb ≠ se ∧ tb ≠ te
    · rw [if_pos h1, if_pos h1]
      by_cases h2 : tb ≤ sb ∧ se ≤ te
      · rw [if_pos h2, if_pos h2]
        exact ih _ _ _ _ _ _ _ _ _
      · rw [if_neg h2, if_neg h2]
        by_cases h3 : sb ≤ tb ∧ te ≤ se
        · rw [if_pos h3, if_pos h3]
          exact ih _ _ _ _ _ _ _ _ _
        · rw [if_neg h3, if_neg h3]
          by_cases h4 : se < tb
          · rw [if_pos h4, if_pos h4,
              ih _ _ _ _ _ _ _ _ (r ++ emitRun ss sb se),
              ih _ _ _ _ _ _ _ _ ([] ++ emitRun ss sb se)]
            simp
          · rw [if_neg h4, if_neg h4]
            by_cases h5 : te < sb
            · rw [if_pos h5, if_pos h5,
                ih _ _ _ _ _ _ _ _ (r ++ emitRun tt tb te),
                ih _ _ _ _ _ _ _ _ ([] ++ emitRun tt tb te)]
              simp
            · rw [if_neg h5, if_neg h5]
              by_cases h6 : sb ≤ tb ∧ se ≤ te
              · rw [if_pos h6, if_pos h6]
                exact ih _ _ _ _ _ _ _ _ _
              · rw [if_neg h6, if_neg h6]
                exact ih _ _ _ _ _ _ _ _ _
    · rw [if_neg h1, if_neg h1]
      by_cases h2 : sb ≠ se <;> by_cases h3 : tb ≠ te <;>
        simp [h2, h3, List.append_assoc]

/-- Full specification of the `Union` merge walk: on side invariants
and sufficient fuel, the loop result (with empty accumulator) is a
canonical list denoting the union of the two sides. -/
theorem unionLoop_spec : ∀ (fuel : Nat) (ss : Option (List Nat)) (s : List Nat) (sb se : Nat)
    (tt : Option (List Nat)) (t : List Nat) (tb te : Nat),
    SideOK ss s sb se → SideOK tt t tb te →
    s.length + t.length + (if sb ≠ se then 1 else 0) + (if tb ≠ te then 1 else 0) ≤ fuel →
    (∀ c ∈ unionLoop fuel ss s sb se tt t tb te [], cvalid c) ∧
    List.Chain' canonPair (unionLoop fuel ss s sb se tt t tb te []) ∧
    (∀ x, memS (unionLoop fuel ss s sb se tt t tb te []) x ↔
      ((sb ≤ x ∧ x < se) ∨ memS s x ∨ (tb ≤ x ∧ x < te) ∨ memS t x)) := by
  intro fuel
  induction fuel with
  | zero =>
    intro ss s sb se tt t tb te hS hT hfuel
    have hsb : sb = se := by
      by_contra h
      rw [if_pos h] at hfuel
      omega
    have htb : tb = te := by
      by_contra h
      rw [if_pos h] at hfuel
      omega
    have hs : s = [] := List.length_eq_zero.mp (by omega)
    have ht : t = [] := List.length_eq_zero.mp (by omega)
    subst hs
    subst ht
    subst hsb
    subst htb
    have h0 : unionLoop 0 ss [] sb sb tt [] tb tb [] = [] := rfl
    rw [h0]
    refine ⟨by simp, List.chain'_nil, ?_⟩
    intro x
    simp [memS_nil]
  | succ fuel ih =>
    intro ss s sb se tt t tb te hS hT hfuel
    by_cases h1 : sb ≠ se ∧ tb ≠ te
    · rw [unionLoop, if_pos h1]
      obtain ⟨hsne, htne⟩ := h1
      rcases hS with ⟨h, _, _⟩ | ⟨hsblt, hse63, hvs, hcs, hgs, hruns⟩
      · exact absurd h hsne
      rcases hT with ⟨h, _, _⟩ | ⟨htblt, hte63, hvt, hct, hgt2, hrunt⟩
      · exact absurd h htne
      have hS' : SideOK ss s sb se := Or.inr ⟨hsblt, hse63, hvs, hcs, hgs, hruns⟩
      have hT' : SideOK tt t tb te := Or.inr ⟨htblt, hte63, hvt, hct, hgt2, hrunt⟩
      have hSs := headx_sideOK hvs hcs
      have hTt := headx_sideOK hvt hct
      have hmemS := memS_headx hvs hcs
      have hmemT := memS_headx hvt hct
      have hmeas_s := headx_measure s
      have hmeas_t := headx_measure t
      rw [if_pos hsne, if_pos htne] at hfuel
      by_cases h2 : tb ≤ sb ∧ se ≤ te
      · rw [if_pos h2]
        have hfuel' : (headx s).2.1.length + t.length +
            (if (headx s).2.2.1 ≠ (headx s).2.2.2 then 1 else 0) +
            (if tb ≠ te then 1 else 0) ≤ fuel := by
          rw [if_pos htne]
          omega
        obtain ⟨ihv, ihc, ihm⟩ := ih (headx s).1 (headx s).2.1 (headx s).2.2.1
          (headx s).2.2.2 tt t tb te hSs hT' hfuel'
        refine ⟨ihv, ihc, ?_⟩
        intro x
        rw [ihm x]
        constructor
        · rintro (h | h | h | h)
          · exact Or.inr (Or.inl ((hmemS x).mpr (Or.inl h)))
          · exact Or.inr (Or.inl ((hmemS x).mpr (Or.inr h)))
          · exact Or.inr (Or.inr (Or.inl h))
          · exact Or.inr (Or.inr (Or.inr h))
        · rintro (h | h | h | h)
          · exact Or.inr (Or.inr (Or.inl (by omega)))
          · rcases (hmemS x).mp h with h' | h'
            · exact Or.inl h'
            · exact Or.inr (Or.inl h')
          · exact Or.inr (Or.inr (Or.inl h))
          · exact Or.inr (Or.inr (Or.inr h))
      · rw [if_neg h2]
        by_cases h3 : sb ≤ tb ∧ te ≤ se
        · rw [if_pos h3]
          have hfuel' : s.length + (headx t).2.1.length +
              (if sb ≠ se then 1 else 0) +
              (if (headx t).2.2.1 ≠ (headx t).2.2.2 then 1 else 0) ≤ fuel := by
            rw [if_pos hsne]
            omega
          obtain ⟨ihv, ihc, ihm⟩ := ih ss s sb se (headx t).1 (headx t).2.1
            (headx t).2.2.1 (headx t).2.2.2 hS' hTt hfuel'
          refine ⟨ihv, ihc, ?_⟩
          intro x
          rw [ihm x]
          constructor
          · rintro (h | h | h | h)
            · exact Or.inl h
            · exact Or.inr (Or.inl h)
            · exact Or.inr (Or.inr (Or.inr ((hmemT x).mpr (Or.inl h))))
            · exact Or.inr (Or.inr (Or.inr ((hmemT x).mpr (Or.inr h))))
          · rintro (h | h | h | h)
            · exact Or.inl h
            · exact Or.inr (Or.inl h)
            · exact Or.inl (by omega)
            · rcases (hmemT x).mp h with h' | h'
              · exact Or.inr (Or.inr (Or.inl h'))
              · exact Or.inr (Or.inr (Or.inr h'))
        · rw [if_neg h3]
          by_cases h4 : se < tb
          · rw [if_pos h4, unionLoop_append, List.nil_append,
              emitRun_eq_interval (le_of_lt hsblt) hse63 hruns]
            have hfuel' : (headx s).2.1.length + t.length +
                (if (headx s).2.2.1 ≠ (headx s).2.2.2 then 1 else 0) +
                (if tb ≠ te then 1 else 0) ≤ fuel := by
              rw [if_pos htne]
              omega
            obtain ⟨ihv, ihc, ihm⟩ := ih (headx s).1 (headx s).2.1 (headx s).2.2.1
              (headx s).2.2.2 tt t tb te hSs hT' hfuel'
            have hgt' : ∀ x, memS (unionLoop fuel (headx s).1 (headx s).2.1 (headx s).2.2.1
                (headx s).2.2.2 tt t tb te []) x → se < x := by
              intro x hx
              rcases (ihm x).mp hx with h | h | h | h
              · exact memS_gt hgs x ((hmemS x).mpr (Or.inl h))
              · exact memS_gt hgs x ((hmemS x).mpr (Or.inr h))
              · omega
              · have := memS_gt hgt2 x h
                omega
            obtain ⟨hv', hc', hm'⟩ := canonical_append_interval (le_of_lt hsblt) hse63
              ihv ihc hgt'
            refine ⟨hv', hc', ?_⟩
            intro x
            rw [hm' x, ihm x]
            constructor
            · rintro (h | h | h | h | h)
              · exact Or.inl h
              · exact Or.inr (Or.inl ((hmemS x).mpr (Or.inl h)))
              · exact Or.inr (Or.inl ((hmemS x).mpr (Or.inr h)))
              · exact Or.inr (Or.inr (Or.inl h))
              · exact Or.inr (Or.inr (Or.inr h))
            · rintro (h | h | h | h)
              · exact Or.inl h
              · rcases (hmemS x).mp h with h' | h'
                · exact Or.inr (Or.inl h')
                · exact Or.inr (Or.inr (Or.inl h'))
              · exact Or.inr (Or.inr (Or.inr (Or.inl h)))
              · exact Or.inr (Or.inr (Or.inr (Or.inr h)))
          · rw [if_neg h4]
            by_cases h5 : te < sb
            · rw [if_pos h5, unionLoop_append, List.nil_append,
                emitRun_eq_interval (le_of_lt htblt) hte63 hrunt]
              have hfuel' : s.length + (headx t).2.1.length +
                  (if sb ≠ se then 1 else 0) +
                  (if (headx t).2.2.1 ≠ (headx t).2.2.2 then 1 else 0) ≤ fuel := by
                rw [if_pos hsne]
                omega
              obtain ⟨ihv, ihc, ihm⟩ := ih ss s sb se (headx t).1 (headx t).2.1
                (headx t).2.2.1 (headx t).2.2.2 hS' hTt hfuel'
              have hgt' : ∀ x, memS (unionLoop fuel ss s sb se (headx t).1 (headx t).2.1
                  (headx t).2.2.1 (headx t).2.2.2 []) x → te < x := by
                intro x hx
                rcases (ihm x).mp hx with h | h | h | h
                · omega
                · have := memS_gt hgs x h
                  omega
                · exact memS_gt hgt2 x ((hmemT x).mpr (Or.inl h))
                · exact memS_gt hgt2 x ((hmemT x).mpr (Or.inr h))
              obtain ⟨hv', hc', hm'⟩ := canonical_append_interval (le_of_lt htblt) hte63
                ihv ihc hgt'
              refine ⟨hv', hc', ?_⟩
              intro x
              rw [hm' x, ihm x]
              constructor
              · rintro (h | h | h | h | h)
                · exact Or.inr (Or.inr (Or.inl h))
                · exact Or.inl h
                · exact Or.inr (Or.inl h)
                · exact Or.inr (Or.inr (Or.inr ((hmemT x).mpr (Or.inl h))))
                · exact Or.inr (Or.inr (Or.inr ((hmemT x).mpr (Or.inr h))))
              · rintro (h | h | h | h)
                · exact Or.inr (Or.inl h)
                · exact Or.inr (Or.inr (Or.inl h))
                · exact Or.inl h
                · rcases (hmemT x).mp h with h' | h'
                  · exact Or.inr (Or.inr (Or.inr (Or.inl h')))
                  · exact Or.inr (Or.inr (Or.inr (Or.inr h')))
            · rw [if_neg h5]
              by_cases h6 : sb ≤ tb ∧ se ≤ te
              · rw [if_pos h6]
                have hTn : SideOK none t sb te :=
                  Or.inr ⟨by omega, hte63, hvt, hct, hgt2, Or.inl rfl⟩
                have hfuel' : (headx s).2.1.length + t.length +
                    (if (headx s).2.2.1 ≠ (headx s).2.2.2 then 1 else 0) +
                    (if sb ≠ te then 1 else 0) ≤ fuel := by
                  rw [if_pos (show sb ≠ te by omega)]
                  omega
                obtain ⟨ihv, ihc, ihm⟩ := ih (headx s).1 (headx s).2.1 (headx s).2.2.1
                  (headx s).2.2.2 none t sb te hSs hTn hfuel'
                refine ⟨ihv, ihc, ?_⟩
                intro x
                rw [ihm x]
                constructor
                · rintro (h | h | h | h)
                  · exact Or.inr (Or.inl ((hmemS x).mpr (Or.inl h)))
                  · exact Or.inr (Or.inl ((hmemS x).mpr (Or.inr h)))
                  · by_cases hx : x < se
                    · exact Or.inl (by omega)
                    · exact Or.inr (Or.inr (Or.inl (by omega)))
                  · exact Or.inr (Or.inr (Or.inr h))
                · rintro (h | h | h | h)
                  · exact Or.inr (Or.inr (Or.inl (by omega)))
                  · rcases (hmemS x).mp h with h' | h'
                    · exact Or.inl h'
                    · exact Or.inr (Or.inl h')
                  · exact Or.inr (Or.inr (Or.inl (by omega)))
                  · exact Or.inr (Or.inr (Or.inr h))
              · rw [if_neg h6]
                have ho : tb < sb ∧ sb ≤ te ∧ te < se := by
                  by_cases hstb : sb ≤ tb
                  · exfalso
                    have hte : te < se := by
                      by_contra hc6
                      push_neg at hc6
                      exact h6 ⟨hstb, hc6⟩
                    exact h3 ⟨hstb, by omega⟩
                  · push_neg at hstb
                    refine ⟨hstb, by omega, ?_⟩
                    by_contra hc2
                    push_neg at hc2
                    exact h2 ⟨by omega, hc2⟩
                have hSn : SideOK none s tb se :=
                  Or.inr ⟨by omega, hse63, hvs, hcs, hgs, Or.inl rfl⟩
                have hfuel' : s.length + (headx t).2.1.length +
                    (if tb ≠ se then 1 else 0) +
                    (if (headx t).2.2.1 ≠ (headx t).2.2.2 then 1 else 0) ≤ fuel := by
                  rw [if_pos (show tb ≠ se by omega)]
                  omega
                obtain ⟨ihv, ihc, ihm⟩ := ih none s tb se (headx t).1 (headx t).2.1
                  (headx t).2.2.1 (headx t).2.2.2 hSn hTt hfuel'
                refine ⟨ihv, ihc, ?_⟩
                intro x
                rw [ihm x]
                constructor
                · rintro (h | h | h | h)
                  · by_cases hx : x < te
                    · exact Or.inr (Or.inr (Or.inl (by omega)))
                    · exact Or.inl (by omega)
                  · exact Or.inr (Or.inl h)
                  · exact Or.inr (Or.inr (Or.inr ((hmemT x).mpr (Or.inl h))))
                  · exact Or.inr (Or.inr (Or.inr ((hmemT x).mpr (Or.inr h))))
                · rintro (h | h | h | h)
                  · exact Or.inl (by omega)
                  · exact Or.inr (Or.inl h)
                  · exact Or.inl (by omega)
                  · rcases (hmemT x).mp h with h' | h'
                    · exact Or.inr (Or.inr (Or.inl h'))
                    · exact Or.inr (Or.inr (Or.inr h'))
    · have hexit : unionLoop (fuel + 1) ss s sb se tt t tb te [] =
          (if sb ≠ se then ([] ++ emitRun ss sb se) ++ s else []) ++
            (if tb ≠ te then emitRun tt tb te ++ t else []) := by
        rw [unionLoop, if_neg h1]
        by_cases h2 : sb ≠ se <;> by_cases h3 : tb ≠ te <;> simp [h2, h3]
      rw [hexit]
      by_cases h2 : sb ≠ se
      · have hte : tb = te := by
          by_contra h3
          exact h1 ⟨h2, h3⟩
        rcases hS with ⟨h, _, _⟩ | ⟨hsblt, hse63, hvs, hcs, hgs, hruns⟩
        · exact absurd h h2
        rcases hT with ⟨_, htnil, _⟩ | ⟨hlt, _⟩
        · rw [if_pos h2, if_neg (by omega), List.append_nil, List.nil_append,
            emitRun_eq_interval (le_of_lt hsblt) hse63 hruns]
          obtain ⟨hv', hc', hm'⟩ := canonical_append_interval (le_of_lt hsblt) hse63
            hvs hcs (memS_gt hgs)
          refine ⟨hv', hc', ?_⟩
          intro x
          rw [hm' x]
          subst htnil
          constructor
          · rintro (h | h)
            · exact Or.inl h
            · exact Or.inr (Or.inl h)
          · rintro (h | h | h | h)
            · exact Or.inl h
            · exact Or.inr h
            · omega
            · exact absurd h (memS_nil x)
        · exact absurd hlt (by omega)
      · push_neg at h2
        rcases hS with ⟨_, hsnil, _⟩ | ⟨hlt, _⟩
        · by_cases h3 : tb ≠ te
          · rcases hT with ⟨h, _, _⟩ | ⟨htblt, hte63, hvt, hct, hgt2, hrunt⟩
            · exact absurd h h3
            rw [if_neg (by omega), if_pos h3, List.nil_append,
              emitRun_eq_interval (le_of_lt htblt) hte63 hrunt]
            obtain ⟨hv', hc', hm'⟩ := canonical_append_interval (le_of_lt htblt) hte63
              hvt hct (memS_gt hgt2)
            refine ⟨hv', hc', ?_⟩
            intro x
            rw [hm' x]
            subst hsnil
            constructor
            · rintro (h | h)
              · exact Or.inr (Or.inr (Or.inl h))
              · exact Or.inr (Or.inr (Or.inr h))
            · rintro (h | h | h | h)
              · omega
              · exact absurd h (memS_nil x)
              · exact Or.inl h
              · exact Or.inr h
          · push_neg at h3
            rw [if_neg (by omega), if_neg (by omega), List.nil_append]
            rcases hT with ⟨_, htnil, _⟩ | ⟨hlt, _⟩
            · subst hsnil
              subst htnil
              refine ⟨by simp, List.chain'_nil, ?_⟩
              intro x
              simp [memS_nil]
              omega
            · exact absurd hlt (by omega)
        · exact absurd hlt (by omega)

/-- Specification of `Union` on canonical inputs: canonical output
denoting the union. -/
theorem Union_spec {s t : List Nat} (hvs : ∀ c ∈ s, cvalid c)
    (hcs : List.Chain' canonPair s) (hvt : ∀ c ∈ t, cvalid c)
    (hct : List.Chain' canonPair t) :
    (∀ c ∈ Union s t, cvalid c) ∧ List.Chain' canonPair (Union s t) ∧
    (∀ x, memS (Union s t) x ↔ memS s x ∨ memS t x) := by
  unfold Union
  by_cases h1 : t.isEmpty
  · rw [if_pos h1]
    have ht : t = [] := by
      cases t
      · rfl
      · simp at h1
    subst ht
    refine ⟨hvs, hcs, ?_⟩
    intro x
    simp [memS_nil]
  · rw [if_neg h1]
    by_cases h2 : s.isEmpty
    · rw [if_pos h2]
      have hs : s = [] := by
        cases s
        · rfl
        · simp at h2
      subst hs
      refine ⟨hvt, hct, ?_⟩
      intro x
      simp [memS_nil]
    · rw [if_neg h2]
      have hsne : s ≠ [] := by
        cases s
        · simp at h2
        · simp
      have htne : t ≠ [] := by
        cases t
        · simp at h1
        · simp
      have hfuel : (headx s).2.1.length + (headx t).2.1.length +
          (if (headx s).2.2.1 ≠ (headx s).2.2.2 then 1 else 0) +
          (if (headx t).2.2.1 ≠ (headx t).2.2.2 then 1 else 0) ≤
            s.length + t.length + 2 := by
        have h3 := headx_measure s
        have h4 := headx_measure t
        omega
      obtain ⟨hv', hc', hm'⟩ := unionLoop_spec (s.length + t.length + 2)
        (headx s).1 (headx s).2.1 (headx s).2.2.1 (headx s).2.2.2
        (headx t).1 (headx t).2.1 (headx t).2.2.1 (headx t).2.2.2
        (headx_sideOK hvs hcs) (headx_sideOK hvt hct) hfuel
      refine ⟨hv', hc', ?_⟩
      intro x
      rw [hm' x, memS_headx hvs hcs x, memS_headx hvt hct x]
      constructor
      · rintro (h | h | h | h)
        · exact Or.inl (Or.inl h)
        · exact Or.inl (Or.inr h)
        · exact Or.inr (Or.inl h)
        · exact Or.inr (Or.inr h)
      · rintro ((h | h) | (h | h))
        · exact Or.inl h
        · exact Or.inr (Or.inl h)
        · exact Or.inr (Or.inr (Or.inl h))
        · exact Or.inr (Or.inr (Or.inr h))

/-- The accumulator of `interLoop` is only appended to. -/
theorem interLoop_append : ∀ (fuel : Nat) (ss : Option (List Nat)) (s : List Nat)
    (sb se : Nat) (tt : Option (List Nat)) (t : List Nat) (tb te : Nat) (r : List Nat),
    interLoop fuel ss s sb se tt t tb te r =
      r ++ interLoop fuel ss s sb se tt t tb te [] := by
  intro fuel
  induction fuel with
  | zero =>
    intro ss s sb se tt t tb te r
    simp [interLoop]
  | succ fuel ih =>
    intro ss s sb se tt t tb te r
    rw [interLoop]
    conv_rhs => rw [interLoop]
    by_cases h1 : sb ≠ se ∧ tb ≠ te
    · rw [if_pos h1, if_pos h1]
      by_cases h2 : tb ≤ sb ∧ se ≤ te
      · rw [if_pos h2, if_pos h2,
          ih _ _ _ _ _ _ _ _ (r ++ emitRun ss sb se),
          ih _ _ _ _ _ _ _ _ ([] ++ emitRun ss sb se)]
        simp
      · rw [if_neg h2, if_neg h2]
        by_cases h3 : sb ≤ tb ∧ te ≤ se
        · rw [if_pos h3, if_pos h3,
            ih _ _ _ _ _ _ _ _ (r ++ emitRun tt tb te),
            ih _ _ _ _ _ _ _ _ ([] ++ emitRun tt tb te)]
          simp
        · rw [if_neg h3, if_neg h3]
          by_cases h4 : se ≤ tb
          · rw [if_pos h4, if_pos h4]
            exact ih _ _ _ _ _ _ _ _ _
          · rw [if_neg h4, if_neg h4]
            by_cases h5 : te ≤ sb
            · rw [if_pos h5, if_pos h5]
              exact ih _ _ _ _ _ _ _ _ _
            · rw [if_neg h5, if_neg h5]
              by_cases h6 : sb ≤ tb ∧ se ≤ te
              · rw [if_pos h6, if_pos h6,
                  ih _ _ _ _ _ _ _ _ (r ++ interval tb se),
                  ih _ _ _ _ _ _ _ _ ([] ++ interval tb se)]
                simp
              · rw [if_neg h6, if_neg h6,
                  ih _ _ _ _ _ _ _ _ (r ++ interval sb te),
                  ih _ _ _ _ _ _ _ _ ([] ++ interval sb te)]
                simp
    · rw [if_neg h1, if_neg h1]
      simp

/-- Full specification of the `Intersection` merge walk. -/
theorem interLoop_spec : ∀ (fuel : Nat) (ss : Option (List Nat)) (s : List Nat) (sb se : Nat)
    (tt : Option (List Nat)) (t : List Nat) (tb te : Nat),
    SideOK ss s sb se → SideOK tt t tb te →
    s.length + t.length + (if sb ≠ se then 1 else 0) + (if tb ≠ te then 1 else 0) ≤ fuel →
    (∀ c ∈ interLoop fuel ss s sb se tt t tb te [], cvalid c) ∧
    List.Chain' canonPair (interLoop fuel ss s sb se tt t tb te []) ∧
    (∀ x, memS (interLoop fuel ss s sb se tt t tb te []) x ↔
      (((sb ≤ x ∧ x < se) ∨ memS s x) ∧ ((tb ≤ x ∧ x < te) ∨ memS t x))) := by
  intro fuel
  induction fuel with
  | zero =>
    intro ss s sb se tt t tb te hS hT hfuel
    have hsb : sb = se := by
      by_contra h
      rw [if_pos h] at hfuel
      omega
    have hs : s = [] := List.length_eq_zero.mp (by omega)
    subst hs
    subst hsb
    have h0 : interLoop 0 ss [] sb sb tt t tb te [] = [] := rfl
    rw [h0]
    refine ⟨by simp, List.chain'_nil, ?_⟩
    intro x
    simp [memS_nil]
  | succ fuel ih =>
    intro ss s sb se tt t tb te hS hT hfuel
    by_cases h1 : sb ≠ se ∧ tb ≠ te
    · rw [interLoop, if_pos h1]
      obtain ⟨hsne, htne⟩ := h1
      rcases hS with ⟨h, _, _⟩ | ⟨hsblt, hse63, hvs, hcs, hgs, hruns⟩
      · exact absurd h hsne
      rcases hT with ⟨h, _, _⟩ | ⟨htblt, hte63, hvt, hct, hgt2, hrunt⟩
      · exact absurd h htne
      have hS' : SideOK ss s sb se := Or.inr ⟨hsblt, hse63, hvs, hcs, hgs, hruns⟩
      have hT' : SideOK tt t tb te := Or.inr ⟨htblt, hte63, hvt, hct, hgt2, hrunt⟩
      have hSs := headx_sideOK hvs hcs
      have hTt := headx_sideOK hvt hct
      have hmemS := memS_headx hvs hcs
      have hmemT := memS_headx hvt hct
      have hmeas_s := headx_measure s
      have hmeas_t := headx_measure t
      rw [if_pos hsne, if_pos htne] at hfuel
      by_cases h2 : tb ≤ sb ∧ se ≤ te
      · rw [if_pos h2, interLoop_append, List.nil_append,
          emitRun_eq_interval (le_of_lt hsblt) hse63 hruns]
        have hfuel' : (headx s).2.1.length + t.length +
            (if (headx s).2.2.1 ≠ (headx s).2.2.2 then 1 else 0) +
            (if tb ≠ te then 1 else 0) ≤ fuel := by
          rw [if_pos htne]
          omega
        obtain ⟨ihv, ihc, ihm⟩ := ih (headx s).1 (headx s).2.1 (headx s).2.2.1
          (headx s).2.2.2 tt t tb te hSs hT' hfuel'
        have hgt' : ∀ x, memS (interLoop fuel (headx s).1 (headx s).2.1 (headx s).2.2.1
            (headx s).2.2.2 tt t tb te []) x → se < x := by
          intro x hx
          rcases ((ihm x).mp hx).1 with h | h
          · exact memS_gt hgs x ((hmemS x).mpr (Or.inl h))
          · exact memS_gt hgs x ((hmemS x).mpr (Or.inr h))
        obtain ⟨hv', hc', hm'⟩ := canonical_append_interval (le_of_lt hsblt) hse63
          ihv ihc hgt'
        refine ⟨hv', hc', ?_⟩
        intro x
        rw [hm' x, ihm x]
        constructor
        · rintro (h | ⟨hA, hB⟩)
          · exact ⟨Or.inl h, Or.inl (by omega)⟩
          · refine ⟨?_, hB⟩
            rcases hA with h' | h'
            · exact Or.inr ((hmemS x).mpr (Or.inl h'))
            · exact Or.inr ((hmemS x).mpr (Or.inr h'))
        · rintro ⟨hA, hB⟩
          rcases hA with h' | h'
          · exact Or.inl h'
          · rcases (hmemS x).mp h' with h'' | h''
            · exact Or.inr ⟨Or.inl h'', hB⟩
            · exact Or.inr ⟨Or.inr h'', hB⟩
      · rw [if_neg h2]
        by_cases h3 : sb ≤ tb ∧ te ≤ se
        · rw [if_pos h3, interLoop_append, List.nil_append,
            emitRun_eq_interval (le_of_lt htblt) hte63 hrunt]
          have hfuel' : s.length + (headx t).2.1.length +
              (if sb ≠ se then 1 else 0) +
              (if (headx t).2.2.1 ≠ (headx t).2.2.2 then 1 else 0) ≤ fuel := by
            rw [if_pos hsne]
            omega
          obtain ⟨ihv, ihc, ihm⟩ := ih ss s sb se (headx t).1 (headx t).2.1
            (headx t).2.2.1 (headx t).2.2.2 hS' hTt hfuel'
          have hgt' : ∀ x, memS (interLoop fuel ss s sb se (headx t).1 (headx t).2.1
              (headx t).2.2.1 (headx t).2.2.2 []) x → te < x := by
            intro x hx
            rcases ((ihm x).mp hx).2 with h | h
            · exact memS_gt hgt2 x ((hmemT x).mpr (Or.inl h))
            · exact memS_gt hgt2 x ((hmemT x).mpr (Or.inr h))
          obtain ⟨hv', hc', hm'⟩ := canonical_append_interval (le_of_lt htblt) hte63
            ihv ihc hgt'
          refine ⟨hv', hc', ?_⟩
          intro x
          rw [hm' x, ihm x]
          constructor
          · rintro (h | ⟨hA, hB⟩)
            · exact ⟨Or.inl (by omega), Or.inl h⟩
            · refine ⟨hA, ?_⟩
              rcases hB with h' | h'
              · exact Or.inr ((hmemT x).mpr (Or.inl h'))
              · exact Or.inr ((hmemT x).mpr (Or.inr h'))
          · rintro ⟨hA, hB⟩
            rcases hB with h' | h'
            · exact Or.inl h'
            · rcases (hmemT x).mp h' with h'' | h''
              · exact Or.inr ⟨hA, Or.inl h''⟩
              · exact Or.inr ⟨hA, Or.inr h''⟩
        · rw [if_neg h3]
          by_cases h4 : se ≤ tb
          · rw [if_pos h4]
            have hfuel' : (headx s).2.1.length + t.length +
                (if (headx s).2.2.1 ≠ (headx s).2.2.2 then 1 else 0) +
                (if tb ≠ te then 1 else 0) ≤ fuel := by
              rw [if_pos htne]
              omega
            obtain ⟨ihv, ihc, ihm⟩ := ih (headx s).1 (headx s).2.1 (headx s).2.2.1
              (headx s).2.2.2 tt t tb te hSs hT' hfuel'
            refine ⟨ihv, ihc, ?_⟩
            intro x
            rw [ihm x]
            constructor
            · rintro ⟨hA, hB⟩
              refine ⟨?_, hB⟩
              rcases hA with h' | h'
              · exact Or.inr ((hmemS x).mpr (Or.inl h'))
              · exact Or.inr ((hmemS x).mpr (Or.inr h'))
            · rintro ⟨hA, hB⟩
              rcases hA with h' | h'
              · exfalso
                rcases hB with h'' | h''
                · omega
                · have := memS_gt hgt2 x h''
                  omega
              · rcases (hmemS x).mp h' with h'' | h''
                · exact ⟨Or.inl h'', hB⟩
                · exact ⟨Or.inr h'', hB⟩
          · rw [if_neg h4]
            by_cases h5 : te ≤ sb
            · rw [if_pos h5]
              have hfuel' : s.length + (headx t).2.1.length +
                  (if sb ≠ se then 1 else 0) +
                  (if (headx t).2.2.1 ≠ (headx t).2.2.2 then 1 else 0) ≤ fuel := by
                rw [if_pos hsne]
                omega
              obtain ⟨ihv, ihc, ihm⟩ := ih ss s sb se (headx t).1 (headx t).2.1
                (headx t).2.2.1 (headx t).2.2.2 hS' hTt hfuel'
              refine ⟨ihv, ihc, ?_⟩
              intro x
              rw [ihm x]
              constructor
              · rintro ⟨hA, hB⟩
                refine ⟨hA, ?_⟩
                rcases hB with h' | h'
                · exact Or.inr ((hmemT x).mpr (Or.inl h'))
                · exact Or.inr ((hmemT x).mpr (Or.inr h'))
              · rintro ⟨hA, hB⟩
                rcases hB with h' | h'
                · exfalso
                  rcases hA with h'' | h''
                  · omega
                  · have := memS_gt hgs x h''
                    omega
                · rcases (hmemT x).mp h' with h'' | h''
                  · exact ⟨hA, Or.inl h''⟩
                  · exact ⟨hA, Or.inr h''⟩
            · rw [if_neg h5]
              by_cases h6 : sb ≤ tb ∧ se ≤ te
              · rw [if_pos h6, interLoop_append, List.nil_append]
                push_neg at h4
                have hsete : se < te := by
                  by_contra hc6
                  push_neg at hc6
                  exact h3 ⟨h6.1, hc6⟩
                have hTn : SideOK none t se te :=
                  Or.inr ⟨hsete, hte63, hvt, hct, hgt2, Or.inl rfl⟩
                have hfuel' : (headx s).2.1.length + t.length +
                    (if (headx s).2.2.1 ≠ (headx s).2.2.2 then 1 else 0) +
                    (if se ≠ te then 1 else 0) ≤ fuel := by
                  rw [if_pos (show se ≠ te by omega)]
                  omega
                obtain ⟨ihv, ihc, ihm⟩ := ih (headx s).1 (headx s).2.1 (headx s).2.2.1
                  (headx s).2.2.2 none t se te hSs hTn hfuel'
                have hgt' : ∀ x, memS (interLoop fuel (headx s).1 (headx s).2.1
                    (headx s).2.2.1 (headx s).2.2.2 none t se te []) x → se < x := by
                  intro x hx
                  rcases ((ihm x).mp hx).1 with h | h
                  · exact memS_gt hgs x ((hmemS x).mpr (Or.inl h))
                  · exact memS_gt hgs x ((hmemS x).mpr (Or.inr h))
                obtain ⟨hv', hc', hm'⟩ := canonical_append_interval
                  (show tb ≤ se by omega) hse63 ihv ihc hgt'
                refine ⟨hv', hc', ?_⟩
                intro x
                rw [hm' x, ihm x]
                constructor
                · rintro (h | ⟨hA, hB⟩)
                  · exact ⟨Or.inl (by omega), Or.inl (by omega)⟩
                  · have hxgt : se < x := by
                      rcases hA with h' | h'
                      · exact memS_gt hgs x ((hmemS x).mpr (Or.inl h'))
                      · exact memS_gt hgs x ((hmemS x).mpr (Or.inr h'))
                    refine ⟨?_, ?_⟩
                    · rcases hA with h' | h'
                      · exact Or.inr ((hmemS x).mpr (Or.inl h'))
                      · exact Or.inr ((hmemS x).mpr (Or.inr h'))
                    · rcases hB with h' | h'
                      · exact Or.inl (by omega)
                      · exact Or.inr h'
                · rintro ⟨hA, hB⟩
                  rcases hA with h' | h'
                  · left
                    rcases hB with h'' | h''
                    · omega
                    · have := memS_gt hgt2 x h''
                      omega
                  · right
                    have hxgt : se < x := memS_gt hgs x h'
                    refine ⟨?_, ?_⟩
                    · rcases (hmemS x).mp h' with h'' | h''
                      · exact Or.inl h''
                      · exact Or.inr h''
                    · rcases hB with h'' | h''
                      · exact Or.inl (by omega)
                      · exact Or.inr h''
              · rw [if_neg h6, interLoop_append, List.nil_append]
                push_neg at h4 h5
                have ho : tb < sb ∧ sb < te ∧ te < se := by
                  by_cases hstb : sb ≤ tb
                  · exfalso
                    have hte : te < se := by
                      by_contra hc6
                      push_neg at hc6
                      exact h6 ⟨hstb, hc6⟩
                    exact h3 ⟨hstb, by omega⟩
                  · push_neg at hstb
                    refine ⟨hstb, by omega, ?_⟩
                    by_contra hc2
                    push_neg at hc2
                    exact h2 ⟨by omega, hc2⟩
                have hSn : SideOK none s te se :=
                  Or.inr ⟨by omega, hse63, hvs, hcs, hgs, Or.inl rfl⟩
                have hfuel' : s.length + (headx t).2.1.length +
                    (if te ≠ se then 1 else 0) +
                    (if (headx t).2.2.1 ≠ (headx t).2.2.2 then 1 else 0) ≤ fuel := by
                  rw [if_pos (show te ≠ se by omega)]
                  omega
                obtain ⟨ihv, ihc, ihm⟩ := ih none s te se (headx t).1 (headx t).2.1
                  (headx t).2.2.1 (headx t).2.2.2 hSn hTt hfuel'
                have hgt' : ∀ x, memS (interLoop fuel none s te se (headx t).1 (headx t).2.1
                    (headx t).2.2.1 (headx t).2.2.2 []) x → te < x := by
                  intro x hx
                  rcases ((ihm x).mp hx).2 with h | h
                  · exact memS_gt hgt2 x ((hmemT x).mpr (Or.inl h))
                  · exact memS_gt hgt2 x ((hmemT x).mpr (Or.inr h))
                obtain ⟨hv', hc', hm'⟩ := canonical_append_interval
                  (show sb ≤ te by omega) hte63 ihv ihc hgt'
                refine ⟨hv', hc', ?_⟩
                intro x
                rw [hm' x, ihm x]
                constructor
                · rintro (h | ⟨hA, hB⟩)
                  · exact ⟨Or.inl (by omega), Or.inl (by omega)⟩
                  · have hxgt : te < x := by
                      rcases hB with h' | h'
                      · exact memS_gt hgt2 x ((hmemT x).mpr (Or.inl h'))
                      · exact memS_gt hgt2 x ((hmemT x).mpr (Or.inr h'))
                    refine ⟨?_, ?_⟩
                    · rcases hA with h' | h'
                      · exact Or.inl (by omega)
                      · exact Or.inr h'
                    · rcases hB with h' | h'
                      · exact Or.inr ((hmemT x).mpr (Or.inl h'))
                      · exact Or.inr ((hmemT x).mpr (Or.inr h'))
                · rintro ⟨hA, hB⟩
                  rcases hB with h' | h'
                  · left
                    rcases hA with h'' | h''
                    · omega
                    · have := memS_gt hgs x h''
                      omega
                  · right
                    have hxgt : te < x := memS_gt hgt2 x h'
                    refine ⟨?_, ?_⟩
                    · rcases hA with h'' | h''
                      · exact Or.inl (by omega)
                      · exact Or.inr h''
                    · rcases (hmemT x).mp h' with h'' | h''
                      · exact Or.inl h''
                      · exact Or.inr h''
    · have hexit : interLoop (fuel + 1) ss s sb se tt t tb te [] = [] := by
        rw [interLoop, if_neg h1]
      rw [hexit]
      refine ⟨by simp, List.chain'_nil, ?_⟩
      intro x
      simp only [memS_nil, false_iff]
      rintro ⟨hA, hB⟩
      by_cases h2 : sb ≠ se
      · have hte : tb = te := by
          by_contra h3
          exact h1 ⟨h2, h3⟩
        rcases hT with ⟨_, htnil, _⟩ | ⟨hlt, _⟩
        · subst htnil
          rcases hB with h' | h'
          · omega
          · exact memS_nil x h'
        · omega
      · push_neg at h2
        rcases hS with ⟨_, hsnil, _⟩ | ⟨hlt, _⟩
        · subst hsnil
          rcases hA with h' | h'
          · omega
          · exact memS_nil x h'
        · omega

/-- Specification of `Intersection` on canonical inputs: canonical
output denoting the intersection. -/
theorem Intersection_spec {s t : List Nat} (hvs : ∀ c ∈ s, cvalid c)
    (hcs : List.Chain' canonPair s) (hvt : ∀ c ∈ t, cvalid c)
    (hct : List.Chain' canonPair t) :
    (∀ c ∈ Intersection s t, cvalid c) ∧ List.Chain' canonPair (Intersection s t) ∧
    (∀ x, memS (Intersection s t) x ↔ memS s x ∧ memS t x) := by
  unfold Intersection
  by_cases h1 : t.isEmpty
  · rw [if_pos h1]
    have ht : t = [] := by
      cases t
      · rfl
      · simp at h1
    subst ht
    refine ⟨by simp, List.chain'_nil, ?_⟩
    intro x
    simp [memS_nil]
  · rw [if_neg h1]
    by_cases h2 : s.isEmpty
    · rw [if_pos h2]
      have hs : s = [] := by
        cases s
        · rfl
        · simp at h2
      subst hs
      refine ⟨by simp, List.chain'_nil, ?_⟩
      intro x
      simp [memS_nil]
    · rw [if_neg h2]
      have hfuel : (headx s).2.1.length + (headx t).2.1.length +
          (if (headx s).2.2.1 ≠ (headx s).2.2.2 then 1 else 0) +
          (if (headx t).2.2.1 ≠ (headx t).2.2.2 then 1 else 0) ≤
            s.length + t.length + 2 := by
        have h3 := headx_measure s
        have h4 := headx_measure t
        omega
      obtain ⟨hv', hc', hm'⟩ := interLoop_spec (s.length + t.length + 2)
        (headx s).1 (headx s).2.1 (headx s).2.2.1 (headx s).2.2.2
        (headx t).1 (headx t).2.1 (headx t).2.2.1 (headx t).2.2.2
        (headx_sideOK hvs hcs) (headx_sideOK hvt hct) hfuel
      refine ⟨hv', hc', ?_⟩
      intro x
      rw [hm' x, memS_headx hvs hcs x, memS_headx hvt hct x]

/-- C7: De Morgan's law holds as equality of canonical representations
(`Equal`): complementing a union yields the intersection of the
complements. -/
theorem C7_de_morgan (A B : List Nat) (hA : Canonical A) (hB : Canonical B) :
    Equal (Complement (Union A B)) (Intersection (Complement A) (Complement B)) = true := by
  obtain ⟨hvA, hcA⟩ := canonical_iff.mp hA
  obtain ⟨hvB, hcB⟩ := canonical_iff.mp hB
  obtain ⟨hvU, hcU, hmU⟩ := Union_spec hvA hcA hvB hcB
  obtain ⟨hvCU, hcCU, hmCU, _⟩ := Complement_spec hvU hcU
  obtain ⟨hvCA, hcCA, hmCA, _⟩ := Complement_spec hvA hcA
  obtain ⟨hvCB, hcCB, hmCB, _⟩ := Complement_spec hvB hcB
  obtain ⟨hvI, hcI, hmI⟩ := Intersection_spec hvCA hcCA hvCB hcCB
  have heq : Complement (Union A B) = Intersection (Complement A) (Complement B) := by
    apply canonical_ext hvCU hcCU hvI hcI
    intro x
    rw [hmCU x, hmI x, hmCA x, hmCB x, hmU x]
    constructor
    · rintro ⟨h1, h2⟩
      exact ⟨⟨h1, fun h => h2 (Or.inl h)⟩, ⟨h1, fun h => h2 (Or.inr h)⟩⟩
    · rintro ⟨⟨h1, h2⟩, ⟨h3, h4⟩⟩
      exact ⟨h1, fun h => h.elim h2 h4⟩
  rw [heq]
  show (Intersection (Complement A) (Complement B) ==
    Intersection (Complement A) (Complement B)) = true
  exact beq_self_eq_true _

/-- C7 witness at concrete canonical inputs. -/
theorem C7_de_morgan_witness :
    Equal (Complement (Union [1] [5])) (Intersection (Complement [1]) (Complement [5])) =
      true :=
  C7_de_morgan [1] [5] (Canonical_of_all (by decide) (by decide))
    (Canonical_of_all (by decide) (by decide))

/-! ### `NewSet63` -/

/-- Mirror of `chain_begin_le` for the reversed accumulator: cells
deeper in the reversed chain end at or before the head's begin. -/
theorem chain_end_le {l : List Nat} : ∀ {x : Nat},
    List.Chain (fun a b => canonPair b a) x l → (∀ c ∈ l, cvalid c) →
    ∀ y ∈ l, cend y ≤ cbegin x := by
  induction l with
  | nil =>
    intro x _ _ y hy
    simp at hy
  | cons z zs ih =>
    intro x h hv y hy
    rcases h with _ | ⟨hxz, hrest⟩
    rcases List.mem_cons.mp hy with rfl | hy'
    · exact hxz.1
    · have h1 := ih hrest (fun c hc => hv c (by simp [hc])) y hy'
      have h2 := cvalid_begin_lt_end (hv z (by simp))
      have h3 := hxz.1
      omega

/-- Siblings share the parent. -/
theorem parent_sibling_eq {e x : Nat} (he : cvalid e) (hx : cvalid x)
    (hs : sibling e = x) : parent x = parent e := by
  obtain ⟨n, j, hf⟩ := form_exists he.1
  subst hf
  by_cases hj : j ≤ 62
  · rw [sibling_form hj he.2] at hs
    subst hs
    have hxb : (2 * (n ^^^ 1) + 1) * 2 ^ j < U64 := hx.2
    rw [parent_form hj hxb, parent_form hj he.2]
    have hhalf : (n ^^^ 1) / 2 = n / 2 := by
      rcases Nat.even_or_odd n with ⟨t, hn⟩ | ⟨t, hn⟩
      · have hn2 : n = 2 * t := by omega
        rw [hn2, two_mul_xor_one]
        omega
      · rw [hn, two_mul_add_one_xor_one]
        omega
    rw [hhalf]
  · have hj63 : j = 63 := by
      have := form_k_lt he.2
      omega
    subst hj63
    have hm := form_m_lt he.2
    have h2 : (2 : Nat) ^ (64 - 63) = 2 := by norm_num
    have hn0 : n = 0 := by omega
    subst hn0
    have hbu : (2 * 0 + 1) * 2 ^ 63 = unity63 := by
      show _ = 2 ^ 63
      ring
    rw [hbu] at hs ⊢
    rw [sibling_unity] at hs
    rw [← hs]

/-- Specification of the `NewSet63` sibling-merge loop: starting from
a fresh cell separated from all accepted cells, it returns a merged
cell with the same end, and the stack stays canonically chained in
reverse with an unchanged denotation. -/
theorem foldSib_spec : ∀ (rss : List Nat) (e : Nat), cvalid e →
    (∀ c ∈ rss, cvalid c) → List.Chain' (fun a b => canonPair b a) rss →
    (∀ c ∈ rss, cend c ≤ cbegin e) →
    cvalid (foldSib e rss).1 ∧ (∀ c ∈ (foldSib e rss).2, cvalid c) ∧
    List.Chain' (fun a b => canonPair b a) ((foldSib e rss).1 :: (foldSib e rss).2) ∧
    cend (foldSib e rss).1 = cend e ∧
    (∀ x, memS ((foldSib e rss).1 :: (foldSib e rss).2) x ↔ memS (e :: rss) x) := by
  intro rss
  induction rss with
  | nil =>
    intro e he _ _ _
    exact ⟨he, by intro c hc; simp [foldSib] at hc, List.chain'_singleton e, rfl,
      fun x => Iff.rfl⟩
  | cons x rest ih =>
    intro e he hv hch hsep
    by_cases hcond : (x ^^^ e ^^^ (lsb e * 2 % U64)) = 0
    · have hsib : sibling e = x := by
        have h1 : x ^^^ e = lsb e * 2 % U64 := by
          have := Nat.xor_eq_zero.mp hcond
          exact this
        have h2 : x = e ^^^ (lsb e * 2 % U64) := by
          have h3 : x ^^^ e ^^^ e = (lsb e * 2 % U64) ^^^ e := by rw [h1]
          rw [Nat.xor_assoc, Nat.xor_self, Nat.xor_zero] at h3
          rw [h3, Nat.xor_comm]
        exact h2.symm
      have hunf : foldSib e (x :: rest) = foldSib (parent e) rest := by
        show (if (x ^^^ e ^^^ (lsb e * 2 % U64)) == 0 then foldSib (parent e) rest
          else (e, x :: rest)) = _
        rw [if_pos (beq_iff_eq.mpr hcond)]
      have hvx : cvalid x := hv x (by simp)
      have hsepx : cend x ≤ cbegin e := hsep x (by simp)
      -- the sibling is the left neighbour: exact adjacency
      have hadj : cbegin e = cend x := by
        obtain ⟨n, j, hf⟩ := form_exists he.1
        by_cases hj : j ≤ 62
        · subst hf
          rw [sibling_form hj he.2] at hsib
          have hA : cbegin ((2 * n + 1) * 2 ^ j) = n * 2 ^ j := cbegin_form he.2
          have hB : cend ((2 * n + 1) * 2 ^ j) = (n + 1) * 2 ^ j := cend_form he.2
          have hpow : (0 : Nat) < 2 ^ j := Nat.pos_pow_of_pos _ (by norm_num)
          rcases Nat.even_or_odd n with ⟨t, hn⟩ | ⟨t, hn⟩
          · -- n even: the sibling lies to the right, impossible
            exfalso
            have hn2 : n = 2 * t := by omega
            have hx1 : n ^^^ 1 = n + 1 := by
              rw [hn2]
              exact two_mul_xor_one t
            have hxbound : (2 * (n + 1) + 1) * 2 ^ j < U64 := by
              rw [← hx1, hsib]
              exact hvx.2
            have hCb : cbegin x = (n + 1) * 2 ^ j := by
              rw [← hsib, hx1]
              exact cbegin_form hxbound
            have hCe := cvalid_begin_lt_end hvx
            have hq : (n + 1) * 2 ^ j = n * 2 ^ j + 2 ^ j := by ring
            omega
          · have hn1 : n = 2 * t + 1 := hn
            have hx1 : n ^^^ 1 = 2 * t := by
              rw [hn1]
              exact two_mul_add_one_xor_one t
            have hCe : cend x = (2 * t + 1) * 2 ^ j := by
              rw [← hsib, hx1]
              have hb : (2 * (2 * t) + 1) * 2 ^ j < U64 := by
                rw [← hx1, hsib]
                exact hvx.2
              rw [cend_form hb]
            rw [hA, hCe, hn1]
        · exfalso
          have hj63 : j = 63 := by
            have := form_k_lt (hf ▸ he.2)
            omega
          subst hj63
          have hm := form_m_lt (hf ▸ he.2)
          have h2 : (2 : Nat) ^ (64 - 63) = 2 := by norm_num
          have hn0 : n = 0 := by omega
          subst hn0
          have heu : e = unity63 := by
            rw [hf]
            show _ = 2 ^ 63
            ring
          rw [heu, sibling_unity] at hsib
          -- x = unity63, so cend x = 2^63 > cbegin e = 0
          have h0 : cbegin e = 0 := by
            rw [heu]
            decide
          have h1 := cvalid_begin_lt_end hvx
          rw [← hsib] at hsepx
          have h3 : cend unity63 = 2 ^ 63 := by decide
          omega
      obtain ⟨hpv, hpb, hpe⟩ := sibling_merge hvx he hadj hsib
      have hpeq : parent e = parent x := (parent_sibling_eq he hvx hsib).symm
      rw [hunf]
      have hrest_v : ∀ c ∈ rest, cvalid c := fun c hc => hv c (by simp [hc])
      have hrest_ch : List.Chain' (fun a b => canonPair b a) rest := hch.tail
      have hrest_sep : ∀ c ∈ rest, cend c ≤ cbegin (parent e) := by
        intro c hc
        rw [hpeq, hpb]
        have hch2 : List.Chain (fun a b => canonPair b a) x rest := hch
        exact chain_end_le hch2 hrest_v c hc
      have hpv' : cvalid (parent e) := by
        rw [hpeq]
        exact hpv
      obtain ⟨ih1, ih2, ih3, ih4, ih5⟩ := ih (parent e) hpv' hrest_v hrest_ch hrest_sep
      refine ⟨ih1, ih2, ih3, ?_, ?_⟩
      · rw [ih4, hpeq, hpe]
      · intro z
        rw [ih5 z]
        have hrange : ∀ y, (cbegin (parent e) ≤ y ∧ y < cend (parent e)) ↔
            ((cbegin e ≤ y ∧ y < cend e) ∨ (cbegin x ≤ y ∧ y < cend x)) := by
          intro y
          rw [hpeq, hpb, hpe]
          have := cvalid_begin_lt_end hvx
          have := cvalid_begin_lt_end he
          omega
        rw [memS_cons, memS_cons, memS_cons, hrange z]
        tauto
    · have hunf : foldSib e (x :: rest) = (e, x :: rest) := by
        show (if (x ^^^ e ^^^ (lsb e * 2 % U64)) == 0 then foldSib (parent e) rest
          else (e, x :: rest)) = _
        rw [if_neg (by simpa using hcond)]
      rw [hunf]
      have hsibne : sibling e ≠ x := by
        intro hs
        apply hcond
        rw [Nat.xor_eq_zero, ← hs]
        show (e ^^^ lsb e * 2 % U64) ^^^ e = lsb e * 2 % U64
        rw [Nat.xor_comm e (lsb e * 2 % U64), Nat.xor_assoc, Nat.xor_self, Nat.xor_zero]
      refine ⟨he, hv, ?_, rfl, fun z => Iff.rfl⟩
      exact List.chain'_cons.mpr ⟨⟨hsep x (by simp), hsibne⟩, hch⟩

/-- The `NewSet63` fold invariant: the reversed accumulator is valid
and reverse-canonically chained, denotes exactly the processed
elements, and its head ends right after the largest processed
element. -/
def NewInv (rss : List Nat) (E : List Int) : Prop :=
  (∀ c ∈ rss, cvalid c) ∧ List.Chain' (fun a b => canonPair b a) rss ∧
  (∀ x : Nat, memS rss x ↔ ∃ e ∈ E, e.toNat = x) ∧
  ((rss = [] ∧ E = []) ∨
    ∃ hd rest, rss = hd :: rest ∧ (∀ e ∈ E, e.toNat < cend hd) ∧
      (∃ e ∈ E, e.toNat = cend hd - 1) ∧ (∀ c ∈ rss, cend c ≤ cend hd))

/-- One fold step plus the tail of the fold preserve the invariant. -/
theorem newFold_spec : ∀ (l : List Int) (rss : List Nat) (E : List Int),
    (∀ e ∈ l, 0 ≤ e ∧ e < 2 ^ 63) → List.Sorted (· ≤ ·) l →
    (∀ e ∈ E, ∀ v ∈ l, e ≤ v) → NewInv rss E →
    NewInv (l.foldl (fun rss ee => insert63 rss (singleton ee.toNat)) rss) (E ++ l) := by
  intro l
  induction l with
  | nil =>
    intro rss E _ _ _ hInv
    simpa using hInv
  | cons v l' ih =>
    intro rss E hrange hsort hle hInv
    have hv0 : 0 ≤ v := (hrange v (by simp)).1
    have hv63 : v < 2 ^ 63 := (hrange v (by simp)).2
    have hvN : v.toNat < 2 ^ 63 := by omega
    have hsv := singleton_valid hvN
    have hsb := singleton_begin hvN
    have hse := singleton_end hvN
    show NewInv (l'.foldl _ (insert63 rss (singleton v.toNat))) (E ++ v :: l')
    have hstep : NewInv (insert63 rss (singleton v.toNat)) (E ++ [v]) := by
      obtain ⟨hIv, hIc, hIm, hIf⟩ := hInv
      rcases hIf with ⟨hrnil, hEnil⟩ | ⟨hd, rest, hreq, hEbound, hEfront, hcends⟩
      · subst hrnil
        subst hEnil
        have hunf : insert63 [] (singleton v.toNat) = [singleton v.toNat] := rfl
        rw [hunf]
        refine ⟨?_, List.chain'_singleton _,
          ?_, Or.inr ⟨singleton v.toNat, [], rfl, ?_, ?_, ?_⟩⟩
        · intro c hc
          simp at hc
          subst hc
          exact hsv
        · intro x
          rw [memS_cons]
          constructor
          · rintro (⟨h1, h2⟩ | h)
            · rw [hsb] at h1
              rw [hse] at h2
              exact ⟨v, by simp, by omega⟩
            · exact absurd h (memS_nil x)
          · rintro ⟨e, he2, hee⟩
            simp at he2
            subst he2
            left
            rw [hsb, hse]
            omega
        · intro e he
          simp at he
          subst he
          rw [hse]
          omega
        · exact ⟨v, by simp, by rw [hse]; omega⟩
        · intro c hc
          simp at hc
          subst hc
          exact le_refl _
      · subst hreq
        have hhdv : cvalid hd := hIv hd (by simp)
        have hd64 : singleton v.toNat < U64 := hsv.2
        have hcont : contains hd (singleton v.toNat) = true ↔
            cbegin hd ≤ v.toNat ∧ v.toNat < cend hd := by
          rw [contains_iff hhdv hd64, singleton_eq hvN, pow_zero, mul_one]
          omega
        by_cases hc1 : contains hd (singleton v.toNat) = true
        · have hunf : insert63 (hd :: rest) (singleton v.toNat) = hd :: rest := by
            show (if contains hd (singleton v.toNat) then _ else _) = _
            rw [if_pos hc1]
          rw [hunf]
          obtain ⟨hcb, hce⟩ := hcont.mp hc1
          have hvmem : ∃ e ∈ E, e.toNat = v.toNat :=
            (hIm v.toNat).mp ⟨hd, by simp, hcb, hce⟩
          refine ⟨hIv, hIc, ?_, Or.inr ⟨hd, rest, rfl, ?_, ?_, hcends⟩⟩
          · intro x
            rw [hIm x]
            constructor
            · rintro ⟨e, he, hee⟩
              exact ⟨e, List.mem_append.mpr (Or.inl he), hee⟩
            · rintro ⟨e, he, hee⟩
              rcases List.mem_append.mp he with he' | he'
              · exact ⟨e, he', hee⟩
              · simp at he'
                subst he'
                obtain ⟨e2, he2, hee2⟩ := hvmem
                exact ⟨e2, he2, by omega⟩
          · intro e he
            rcases List.mem_append.mp he with he' | he'
            · exact hEbound e he'
            · simp at he'
              subst he'
              exact hce
          · obtain ⟨e, he, hee⟩ := hEfront
            exact ⟨e, List.mem_append.mpr (Or.inl he), hee⟩
        · have hge : cend hd ≤ v.toNat := by
            obtain ⟨e0, he0, he0eq⟩ := hEfront
            have h1 := hle e0 he0 v (by simp)
            have h2 := cvalid_begin_lt_end hhdv
            have h3 : ¬(cbegin hd ≤ v.toNat ∧ v.toNat < cend hd) :=
              fun h => hc1 (hcont.mpr h)
            omega
          have hdropunf : dropContained (singleton v.toNat) (hd :: rest) = hd :: rest := by
            show (if contains (singleton v.toNat) hd then _ else _) = _
            rw [if_neg ?_]
            rw [contains_iff hsv hhdv.2, hsb, hse]
            have hhdval := cvalid_val_eq hhdv
            have hhdbe := cvalid_begin_lt_end hhdv
            omega
          have hsep : ∀ c ∈ hd :: rest, cend c ≤ cbegin (singleton v.toNat) := by
            intro c hc
            rw [hsb]
            have := hcends c hc
            omega
          obtain ⟨f1, f2, f3, f4, f5⟩ :=
            foldSib_spec (hd :: rest) (singleton v.toNat) hsv hIv hIc hsep
          have hunf : insert63 (hd :: rest) (singleton v.toNat) =
              (foldSib (singleton v.toNat) (hd :: rest)).1 ::
                (foldSib (singleton v.toNat) (hd :: rest)).2 := by
            show (if contains hd (singleton v.toNat) then _ else _) = _
            rw [if_neg hc1, hdropunf]
          rw [hunf]
          have hfe : cend (foldSib (singleton v.toNat) (hd :: rest)).1 = v.toNat + 1 := by
            rw [f4, hse]
          refine ⟨?_, f3, ?_, Or.inr ⟨_, _, rfl, ?_, ?_, ?_⟩⟩
          · intro c hc
            rcases List.mem_cons.mp hc with rfl | hc'
            · exact f1
            · exact f2 c hc'
          · intro x
            rw [f5 x, memS_cons, hIm x, hsb, hse]
            constructor
            · rintro (⟨h1, h2⟩ | ⟨e, he, hee⟩)
              · exact ⟨v, List.mem_append.mpr (Or.inr (by simp)), by omega⟩
              · exact ⟨e, List.mem_append.mpr (Or.inl he), hee⟩
            · rintro ⟨e, he, hee⟩
              rcases List.mem_append.mp he with he' | he'
              · exact Or.inr ⟨e, he', hee⟩
              · simp at he'
                subst he'
                exact Or.inl (by omega)
          · intro e he
            rw [hfe]
            rcases List.mem_append.mp he with he' | he'
            · have := hEbound e he'
              omega
            · simp at he'
              subst he'
              omega
          · exact ⟨v, List.mem_append.mpr (Or.inr (by simp)), by rw [hfe]; omega⟩
          · intro c hc
            rcases List.mem_cons.mp hc with rfl | hc'
            · exact le_refl _
            · have hch2 : List.Chain (fun a b => canonPair b a)
                  (foldSib (singleton v.toNat) (hd :: rest)).1
                  (foldSib (singleton v.toNat) (hd :: rest)).2 := f3
              have := chain_end_le hch2 f2 c hc'
              have := cvalid_begin_lt_end f1
              omega
    have hle' : ∀ e ∈ E ++ [v], ∀ w ∈ l', e ≤ w := by
      intro e he w hw
      rcases List.mem_append.mp he with he' | he'
      · exact hle e he' w (by simp [hw])
      · simp at he'
        subst he'
        exact (List.sorted_cons.mp hsort).1 w hw
    have hrange' : ∀ e ∈ l', 0 ≤ e ∧ e < 2 ^ 63 := fun e he => hrange e (by simp [he])
    have hsort' := (List.sorted_cons.mp hsort).2
    have hres := ih (insert63 rss (singleton v.toNat)) (E ++ [v]) hrange' hsort' hle' hstep
    simpa using hres

/-- Specification of `NewSet63` on in-range elements: it succeeds with
a canonical list denoting exactly the given elements. -/
theorem NewSet63_spec (elem : List Int) (hrange : ∀ e ∈ elem, 0 ≤ e ∧ e < 2 ^ 63) :
    ∃ l, NewSet63 elem = some l ∧ (∀ c ∈ l, cvalid c) ∧ List.Chain' canonPair l ∧
      (∀ x : Nat, memS l x ↔ ∃ e ∈ elem, e.toNat = x) := by
  by_cases hemp : elem.isEmpty
  · have he : elem = [] := by
      cases elem
      · rfl
      · simp at hemp
    subst he
    refine ⟨[], rfl, by simp, List.chain'_nil, ?_⟩
    intro x
    simp [memS_nil]
  · have hperm := List.perm_insertionSort (· ≤ · : Int → Int → Prop) elem
    have hsort := List.sorted_insertionSort (· ≤ · : Int → Int → Prop) elem
    rcases hs : elem.insertionSort (· ≤ ·) with _ | ⟨x, rest⟩
    · exfalso
      rw [hs] at hperm
      have := hperm.symm.length_eq
      cases elem
      · simp at hemp
      · simp at this
    · have hx0 : ¬ x < 0 := by
        have hxm : x ∈ elem := by
          rw [hs] at hperm
          exact hperm.mem_iff.mp (by simp)
        have := (hrange x hxm).1
        omega
      have hnew : NewSet63 elem = some (((x :: rest).foldl
          (fun rss ee => insert63 rss (singleton ee.toNat)) []).reverse) := by
        unfold NewSet63
        rw [if_neg (by simp [hemp]), hs]
        show (if x < 0 then none else some (((x :: rest).foldl
          (fun rss ee => insert63 rss (singleton ee.toNat)) []).reverse)) = _
        rw [if_neg hx0]
      have hrange' : ∀ e ∈ x :: rest, 0 ≤ e ∧ e < 2 ^ 63 := by
        intro e he
        rw [hs] at hperm
        exact hrange e (hperm.mem_iff.mp he)
      have hsort' : List.Sorted (· ≤ ·) (x :: rest) := hs ▸ hsort
      have hInv0 : NewInv [] [] :=
        ⟨by simp, List.chain'_nil, fun z => by simp [memS_nil], Or.inl ⟨rfl, rfl⟩⟩
      have hres := newFold_spec (x :: rest) [] [] hrange' hsort' (by simp) hInv0
      obtain ⟨hIv, hIc, hIm, _⟩ := hres
      refine ⟨_, hnew, ?_, ?_, ?_⟩
      · intro c hc
        rw [List.mem_reverse] at hc
        exact hIv c hc
      · exact List.chain'_reverse.mpr hIc
      · intro z
        have hmr : ∀ w, memS (((x :: rest).foldl
            (fun rss ee => insert63 rss (singleton ee.toNat)) []).reverse) w ↔
            memS ((x :: rest).foldl
              (fun rss ee => insert63 rss (singleton ee.toNat)) []) w := by
          intro w
          constructor
          · rintro ⟨d, hd, h1, h2⟩
            exact ⟨d, List.mem_reverse.mp hd, h1, h2⟩
          · rintro ⟨d, hd, h1, h2⟩
            exact ⟨d, List.mem_reverse.mpr hd, h1, h2⟩
        rw [hmr z, hIm z]
        simp only [List.nil_append]
        constructor
        · rintro ⟨e, he, hee⟩
          rw [hs] at hperm
          exact ⟨e, hperm.mem_iff.mp he, hee⟩
        · rintro ⟨e, he, hee⟩
          rw [hs] at hperm
          exact ⟨e, hperm.mem_iff.mpr he, hee⟩

/-! ### `search` and `Contains` -/

/-- Cells of a canonical list are pairwise separated. -/
theorem canonical_pairwise_sep : ∀ (s : List Nat), (∀ c ∈ s, cvalid c) →
    List.Chain' canonPair s → List.Pairwise (fun a b => cend a ≤ cbegin b) s := by
  intro s
  induction s with
  | nil =>
    intro _ _
    exact List.Pairwise.nil
  | cons c cs ih =>
    intro hv hc
    have hch : List.Chain canonPair c cs := hc
    exact List.Pairwise.cons
      (fun y hy => chain_begin_le hch (fun d hd => hv d (by simp [hd])) y hy)
      (ih (fun d hd => hv d (by simp [hd])) hc.tail)

/-- Specification of the binary-search loop: it returns the first
position in `[i, j)` whose value is at least `c`, for a strictly
increasing list. -/
theorem searchF_spec : ∀ (fuel : Nat) (s : List Nat) (c i j : Nat),
    j ≤ s.length → i ≤ j → j - i ≤ fuel →
    (∀ p q, p < q → q < s.length → s.getD p 0 < s.getD q 0) →
    i ≤ searchF fuel s i j c ∧ searchF fuel s i j c ≤ j ∧
    (∀ p, i ≤ p → p < searchF fuel s i j c → s.getD p 0 < c) ∧
    (∀ p, searchF fuel s i j c ≤ p → p < j → c ≤ s.getD p 0) := by
  intro fuel
  induction fuel with
  | zero =>
    intro s c i j hj hij hfuel hmono
    have hije : i = j := by omega
    subst hije
    have h0 : searchF 0 s i i c = i := rfl
    rw [h0]
    refine ⟨le_refl _, le_refl _, ?_, ?_⟩ <;> intro p h1 h2 <;> omega
  | succ fuel ih =>
    intro s c i j hj hij hfuel hmono
    have hunf : searchF (fuel + 1) s i j c =
        if i < j then
          (if s.getD (i + (j - i) / 2) 0 < c then searchF fuel s (i + (j - i) / 2 + 1) j c
            else searchF fuel s i (i + (j - i) / 2) c)
        else i := rfl
    rw [hunf]
    by_cases hlt : i < j
    · rw [if_pos hlt]
      have hh2 : i + (j - i) / 2 < j := by omega
      by_cases hcmp : s.getD (i + (j - i) / 2) 0 < c
      · rw [if_pos hcmp]
        obtain ⟨b1, b2, b3, b4⟩ := ih s c (i + (j - i) / 2 + 1) j hj (by omega) (by omega) hmono
        refine ⟨by omega, b2, ?_, b4⟩
        intro p hp1 hp2
        by_cases hph : p < i + (j - i) / 2
        · calc s.getD p 0 < s.getD (i + (j - i) / 2) 0 := hmono p _ hph (by omega)
          _ < c := hcmp
        · by_cases hpe : p = i + (j - i) / 2
          · rw [hpe]
            exact hcmp
          · exact b3 p (by omega) hp2
      · rw [if_neg hcmp]
        push_neg at hcmp
        obtain ⟨b1, b2, b3, b4⟩ := ih s c i (i + (j - i) / 2) (by omega) (by omega)
          (by omega) hmono
        refine ⟨b1, by omega, b3, ?_⟩
        intro p hp1 hp2
        by_cases hph : p < i + (j - i) / 2
        · exact b4 p hp1 hph
        · calc c ≤ s.getD (i + (j - i) / 2) 0 := hcmp
          _ ≤ s.getD p 0 := by
            rcases Nat.eq_or_lt_of_le (show i + (j - i) / 2 ≤ p by omega) with h | h
            · rw [h]
            · exact le_of_lt (hmono _ p h (by omega))
    · rw [if_neg hlt]
      refine ⟨le_refl _, by omega, ?_, ?_⟩ <;> intro p h1 h2 <;> omega

/-- Specification of `Contains` on canonical sets: it decides
membership of the denoted set for in-range queries. -/
theorem Contains_spec {s : List Nat} (hv : ∀ c ∈ s, cvalid c)
    (hc : List.Chain' canonPair s) (x : Int) (hx : x < 2 ^ 63) :
    Contains s x = true ↔ (0 ≤ x ∧ memS s x.toNat) := by
  by_cases h0 : 0 ≤ x
  · have hxN : x.toNat < 2 ^ 63 := by omega
    have hsing : singleton x.toNat = 2 * x.toNat + 1 := by
      rw [singleton_eq hxN]
      ring
    have hsepP := canonical_pairwise_sep s hv hc
    have hsep : ∀ p q, p < q → q < s.length →
        cend (s.getD p 0) ≤ cbegin (s.getD q 0) := by
      intro p q hpq hq
      have hp : p < s.length := by omega
      rw [List.getD_eq_getElem s 0 hp, List.getD_eq_getElem s 0 hq]
      exact List.pairwise_iff_getElem.mp hsepP p q hp hq hpq
    have hmemD : ∀ p, p < s.length → s.getD p 0 ∈ s := by
      intro p hp
      rw [List.getD_eq_getElem s 0 hp]
      exact List.getElem_mem hp
    have hmono : ∀ p q, p < q → q < s.length → s.getD p 0 < s.getD q 0 := by
      intro p q hpq hq
      exact val_lt_of_sep (hv _ (hmemD p (by omega))) (hv _ (hmemD q hq)) (hsep p q hpq hq)
    obtain ⟨b1, b2, b3, b4⟩ := searchF_spec (s.length - 0) s (singleton x.toNat) 0 s.length
      (le_refl _) (Nat.zero_le _) (le_refl _) hmono
    have hunf : Contains s x =
        if 0 < search s 0 s.length (singleton x.toNat) ∧
            x.toNat < cend (s.getD (search s 0 s.length (singleton x.toNat) - 1) 0) then true
        else if search s 0 s.length (singleton x.toNat) < s.length ∧
            cbegin (s.getD (search s 0 s.length (singleton x.toNat)) 0) ≤ x.toNat then true
        else false := by
      show (if 0 ≤ x then _ else false) = _
      rw [if_pos h0]
    rw [hunf]
    have hieq : search s 0 s.length (singleton x.toNat) =
        searchF (s.length - 0) s 0 s.length (singleton x.toNat) := rfl
    rw [← hieq] at b1 b2 b3 b4
    constructor
    · intro h
      refine ⟨h0, ?_⟩
      by_cases hA : 0 < search s 0 s.length (singleton x.toNat) ∧
          x.toNat < cend (s.getD (search s 0 s.length (singleton x.toNat) - 1) 0)
      · obtain ⟨hA1, hA2⟩ := hA
        have hplt : search s 0 s.length (singleton x.toNat) - 1 < s.length := by omega
        have hdval := cvalid_val_eq (hv _ (hmemD _ hplt))
        have hdlt := b3 (search s 0 s.length (singleton x.toNat) - 1) (by omega) (by omega)
        have hdbe := cvalid_begin_lt_end (hv _ (hmemD _ hplt))
        exact ⟨s.getD (search s 0 s.length (singleton x.toNat) - 1) 0, hmemD _ hplt,
          by omega, hA2⟩
      · rw [if_neg hA] at h
        by_cases hB : search s 0 s.length (singleton x.toNat) < s.length ∧
            cbegin (s.getD (search s 0 s.length (singleton x.toNat)) 0) ≤ x.toNat
        · obtain ⟨hB1, hB2⟩ := hB
          have hdval := cvalid_val_eq (hv _ (hmemD _ hB1))
          have hdge := b4 (search s 0 s.length (singleton x.toNat)) (le_refl _) hB1
          exact ⟨s.getD (search s 0 s.length (singleton x.toNat)) 0, hmemD _ hB1,
            hB2, by omega⟩
        · rw [if_neg hB] at h
          exact absurd h (by simp)
    · rintro ⟨_, d, hd, hd1, hd2⟩
      obtain ⟨p, hp, hpd⟩ := List.mem_iff_getElem.mp hd
      have hpd' : s.getD p 0 = d := by
        rw [List.getD_eq_getElem s 0 hp, hpd]
      have hdv := hv d hd
      have hdval := cvalid_val_eq hdv
      by_cases hdc : d < 2 * x.toNat + 1
      · -- d sits immediately before the search position
        have hplt : p < search s 0 s.length (singleton x.toNat) := by
          by_contra hge
          push_neg at hge
          have hcontr := b4 p hge hp
          rw [hpd'] at hcontr
          omega
        have hpe : p = search s 0 s.length (singleton x.toNat) - 1 := by
          by_contra hne
          have hplt2 : p < search s 0 s.length (singleton x.toNat) - 1 := by omega
          have hfl : search s 0 s.length (singleton x.toNat) - 1 < s.length := by omega
          have hflt := b3 (search s 0 s.length (singleton x.toNat) - 1) (by omega) (by omega)
          have hfsep := hsep p (search s 0 s.length (singleton x.toNat) - 1) hplt2 hfl
          rw [hpd'] at hfsep
          have hfval := cvalid_val_eq (hv _ (hmemD _ hfl))
          have hfbe := cvalid_begin_lt_end (hv _ (hmemD _ hfl))
          omega
        rw [if_pos ⟨by omega, by rw [← hpe, hpd']; exact hd2⟩]
      · -- d sits exactly at the search position
        push_neg at hdc
        have hpge : search s 0 s.length (singleton x.toNat) ≤ p := by
          by_contra hgt
          push_neg at hgt
          have hcontr := b3 p (Nat.zero_le _) hgt
          rw [hpd'] at hcontr
          omega
        have hpe : p = search s 0 s.length (singleton x.toNat) := by
          by_contra hne
          have hplt2 : search s 0 s.length (singleton x.toNat) < p := by omega
          have hfl : search s 0 s.length (singleton x.toNat) < s.length := by omega
          have hfge := b4 (search s 0 s.length (singleton x.toNat)) (le_refl _) hfl
          have hfsep := hsep (search s 0 s.length (singleton x.toNat)) p hplt2 hp
          rw [hpd'] at hfsep
          have hfval := cvalid_val_eq (hv _ (hmemD _ hfl))
          have hfbe := cvalid_begin_lt_end (hv _ (hmemD _ hfl))
          omega
        have hcond2 : search s 0 s.length (singleton x.toNat) < s.length ∧
            cbegin (s.getD (search s 0 s.length (singleton x.toNat)) 0) ≤ x.toNat := by
          rw [← hpe, hpd']
          exact ⟨hp, hd1⟩
        by_cases hA : 0 < search s 0 s.length (singleton x.toNat) ∧
            x.toNat < cend (s.getD (search s 0 s.length (singleton x.toNat) - 1) 0)
        · rw [if_pos hA]
        · rw [if_neg hA, if_pos hcond2]
  · have hunf : Contains s x = false := by
      show (if 0 ≤ x then _ else false) = _
      rw [if_neg h0]
    rw [hunf]
    simp
    omega

/-- C1: for a list of in-range non-negative elements, `New` succeeds
and `Contains` decides membership of the element list exactly; in
particular `Contains` is `false` on every negative query. -/
theorem C1_new_contains (E : List Int) (hrange : ∀ e ∈ E, 0 ≤ e ∧ e < 2 ^ 63) :
    ∃ l, NewSet63 E = some l ∧
      ∀ x : Int, x < 2 ^ 63 → (Contains l x = true ↔ x ∈ E) := by
  obtain ⟨l, hnew, hval, hch, hmem⟩ := NewSet63_spec E hrange
  refine ⟨l, hnew, ?_⟩
  intro x hhi
  rw [Contains_spec hval hch x hhi]
  constructor
  · rintro ⟨h0, hm⟩
    obtain ⟨e, he, hee⟩ := (hmem x.toNat).mp hm
    have he0 := (hrange e he).1
    have hex : e = x := by omega
    subst hex
    exact he
  · intro hxE
    have h0 := (hrange x hxE).1
    exact ⟨h0, (hmem x.toNat).mpr ⟨x, hxE, rfl⟩⟩

/-- C1 witness: a concrete construction and membership checks. -/
theorem C1_new_contains_witness :
    NewSet63 [3, 1] = some [3, 7] ∧ Contains [3, 7] 3 = true ∧
      Contains [3, 7] 2 = false ∧ Contains [3, 7] (-1) = false := by
  obtain ⟨l, h1, h2⟩ := C1_new_contains [3, 1] (by decide)
  have hd : NewSet63 [3, 1] = some [3, 7] := by decide
  rw [h1] at hd
  have hl : l = [3, 7] := Option.some.inj hd
  subst hl
  refine ⟨h1, ?_, ?_, ?_⟩
  · exact (h2 3 (by decide)).mpr (by decide)
  · exact Bool.eq_false_iff.mpr fun hh =>
      (by decide : ¬ ((2 : Int) ∈ ([3, 1] : List Int))) ((h2 2 (by decide)).mp hh)
  · exact Bool.eq_false_iff.mpr fun hh =>
      (by decide : ¬ ((-1 : Int) ∈ ([3, 1] : List Int))) ((h2 (-1) (by decide)).mp hh)

/-! ### C4 machinery: heap operations preserve length and membership -/

theorem getD_set_ne (l : List cand) {i j : Nat} (v : cand) (h : i ≠ j) :
    (l.set i v).getD j cdefault = l.getD j cdefault := by
  rw [List.getD_eq_getElem?_getD, List.getD_eq_getElem?_getD, List.getElem?_set_ne h]

theorem getD_set_self (l : List cand) {i : Nat} (v : cand) (h : i < l.length) :
    (l.set i v).getD i cdefault = v := by
  rw [List.getD_eq_getElem?_getD, List.getElem?_set_self h]
  rfl

theorem lswap_length (l : List Nat) (i j : Nat) : (lswap l i j).length = l.length := by
  simp [lswap]

theorem getD_nat_set_ne (l : List Nat) {i j : Nat} (v : Nat) (h : i ≠ j) :
    (l.set i v).getD j 0 = l.getD j 0 := by
  rw [List.getD_eq_getElem?_getD, List.getD_eq_getElem?_getD, List.getElem?_set_ne h]

theorem getD_nat_set_self (l : List Nat) {i : Nat} (v : Nat) (h : i < l.length) :
    (l.set i v).getD i 0 = v := by
  rw [List.getD_eq_getElem?_getD, List.getElem?_set_self h]
  rfl

theorem lswap_getD {l : List Nat} {i j : Nat} (hi : i < l.length)
    (hj : j < l.length) (n : Nat) :
    (lswap l i j).getD n 0 =
      if n = j then l.getD i 0 else if n = i then l.getD j 0 else l.getD n 0 := by
  show ((l.set i (l.getD j 0)).set j (l.getD i 0)).getD n 0 = _
  by_cases h1 : n = j
  · subst h1
    rw [if_pos rfl, getD_nat_set_self _ _ (by simp [hj])]
  · rw [if_neg h1, getD_nat_set_ne _ _ (fun hh => h1 hh.symm)]
    by_cases h2 : n = i
    · subst h2
      rw [if_pos rfl, getD_nat_set_self _ _ hi]
    · rw [if_neg h2, getD_nat_set_ne _ _ (fun hh => h2 hh.symm)]

theorem mem_getD_of_lt {l : List Nat} {n : Nat} (hn : n < l.length) : l.getD n 0 ∈ l := by
  rw [List.getD_eq_getElem l 0 hn]
  exact List.getElem_mem hn

theorem mem_iff_getD {x : Nat} {l : List Nat} :
    x ∈ l ↔ ∃ n, n < l.length ∧ l.getD n 0 = x := by
  constructor
  · intro hx
    obtain ⟨n, hn, he⟩ := List.mem_iff_getElem.mp hx
    exact ⟨n, hn, by rw [List.getD_eq_getElem l 0 hn]; exact he⟩
  · rintro ⟨n, hn, he⟩
    exact he ▸ mem_getD_of_lt hn

theorem mem_lswap {x : Nat} {l : List Nat} {i j : Nat} (hi : i < l.length)
    (hj : j < l.length) : x ∈ lswap l i j ↔ x ∈ l := by
  constructor
  · intro hx
    obtain ⟨n, hn, he⟩ := mem_iff_getD.mp hx
    rw [lswap_getD hi hj n] at he
    by_cases h1 : n = j
    · rw [if_pos h1] at he
      exact he ▸ mem_getD_of_lt hi
    · rw [if_neg h1] at he
      by_cases h2 : n = i
      · rw [if_pos h2] at he
        exact he ▸ mem_getD_of_lt hj
      · rw [if_neg h2] at he
        rw [lswap_length] at hn
        exact he ▸ mem_getD_of_lt hn
  · intro hx
    obtain ⟨n, hn, he⟩ := mem_iff_getD.mp hx
    have hlen : ∀ k, k < l.length → k < (lswap l i j).length := by
      intro k hk
      rw [lswap_length]
      exact hk
    by_cases h2 : n = i
    · rw [h2] at he
      refine mem_iff_getD.mpr ⟨j, hlen j hj, ?_⟩
      rw [lswap_getD hi hj j, if_pos rfl]
      exact he
    · by_cases h1 : n = j
      · rw [h1] at he
        refine mem_iff_getD.mpr ⟨i, hlen i hi, ?_⟩
        rw [lswap_getD hi hj i]
        by_cases hij : i = j
        · rw [if_pos hij, hij]
          exact he
        · rw [if_neg hij, if_pos rfl]
          exact he
      · refine mem_iff_getD.mpr ⟨n, hlen n hn, ?_⟩
        rw [lswap_getD hi hj n, if_neg h1, if_neg h2]
        exact he

theorem heapUpF_length (sh : List cand) : ∀ (f : Nat) (l : List Nat) (j : Nat),
    (heapUpF sh f l j).length = l.length := by
  intro f
  induction f with
  | zero => intro l j; rfl
  | succ f ih =>
    intro l j
    rw [heapUpF]
    by_cases h : (j - 1) / 2 = j ∨ ¬ pqLess sh l j ((j - 1) / 2)
    · rw [if_pos h]
    · rw [if_neg h, ih, lswap_length]

theorem heapUpF_mem (sh : List cand) : ∀ (f : Nat) (l : List Nat) (j : Nat) (x : Nat),
    j < l.length → (x ∈ heapUpF sh f l j ↔ x ∈ l) := by
  intro f
  induction f with
  | zero => intro l j x _; rfl
  | succ f ih =>
    intro l j x hj
    rw [heapUpF]
    by_cases h : (j - 1) / 2 = j ∨ ¬ pqLess sh l j ((j - 1) / 2)
    · rw [if_pos h]
    · rw [if_neg h]
      have hi : (j - 1) / 2 < l.length := lt_of_le_of_lt (by omega) hj
      rw [ih (lswap l ((j - 1) / 2) j) ((j - 1) / 2) x (by rw [lswap_length]; omega)]
      exact mem_lswap hi hj

theorem heapDownF_length (sh : List cand) : ∀ (f : Nat) (l : List Nat) (i n : Nat),
    (heapDownF sh f l i n).length = l.length := by
  intro f
  induction f with
  | zero => intro l i n; rfl
  | succ f ih =>
    intro l i n
    rw [heapDownF]
    by_cases h1 : 2 * i + 1 < n
    · rw [if_pos h1]
      by_cases h2 : pqLess sh l (if 2 * i + 1 + 1 < n ∧ pqLess sh l (2 * i + 1 + 1) (2 * i + 1)
          then 2 * i + 1 + 1 else 2 * i + 1) i
      · rw [if_pos h2, ih, lswap_length]
      · rw [if_neg h2]
    · rw [if_neg h1]

theorem heapDownF_mem (sh : List cand) : ∀ (f : Nat) (l : List Nat) (i n : Nat) (x : Nat),
    n ≤ l.length → (x ∈ heapDownF sh f l i n ↔ x ∈ l) := by
  intro f
  induction f with
  | zero => intro l i n x _; rfl
  | succ f ih =>
    intro l i n x hn
    rw [heapDownF]
    by_cases h1 : 2 * i + 1 < n
    · rw [if_pos h1]
      set j := if 2 * i + 1 + 1 < n ∧ pqLess sh l (2 * i + 1 + 1) (2 * i + 1)
          then 2 * i + 1 + 1 else 2 * i + 1 with hjdef
      have hjn : j < n := by
        rw [hjdef]
        by_cases hc : 2 * i + 1 + 1 < n ∧ pqLess sh l (2 * i + 1 + 1) (2 * i + 1)
        · rw [if_pos hc]; omega
        · rw [if_neg hc]; omega
      by_cases h2 : pqLess sh l j i
      · rw [if_pos h2]
        rw [ih (lswap l i j) j n x (by rw [lswap_length]; exact hn)]
        exact mem_lswap (by omega) (by omega)
      · rw [if_neg h2]
    · rw [if_neg h1]

theorem heapPush_length (sh : List cand) (l : List Nat) (x : Nat) :
    (heapPush sh l x).length = l.length + 1 := by
  unfold heapPush heapUp
  rw [heapUpF_length]
  simp

theorem heapPush_mem (sh : List cand) (l : List Nat) (x y : Nat) :
    y ∈ heapPush sh l x ↔ y ∈ l ∨ y = x := by
  unfold heapPush heapUp
  rw [heapUpF_mem sh _ _ _ _ (by simp)]
  simp

theorem take_getD_split {l2 : List Nat} {n : Nat} (h : l2.length = n + 1) :
    l2 = l2.take n ++ [l2.getD n 0] := by
  have hn2 : n < l2.length := by omega
  rw [List.getD_eq_getElem l2 0 hn2]
  have hc := List.take_concat_get l2 n hn2
  rw [List.concat_eq_append] at hc
  rw [hc]
  have hfin : n + 1 = l2.length := by omega
  rw [hfin, List.take_length]

theorem heapPop_facts (sh : List cand) (l : List Nat) (h : l ≠ []) :
    (heapPop sh l).2.length = l.length - 1 ∧
    (∀ x, x ∈ l ↔ (x ∈ (heapPop sh l).2 ∨ x = (heapPop sh l).1)) := by
  have hlen : 0 < l.length := List.length_pos.mpr h
  have hl1 : (lswap l 0 (l.length - 1)).length = l.length := lswap_length l 0 (l.length - 1)
  have hl2 : (heapDownF sh (l.length - 1) (lswap l 0 (l.length - 1)) 0
      (l.length - 1)).length = l.length := by
    rw [heapDownF_length, hl1]
  have hmem2 : ∀ x, x ∈ heapDownF sh (l.length - 1) (lswap l 0 (l.length - 1)) 0
      (l.length - 1) ↔ x ∈ l := by
    intro x
    rw [heapDownF_mem sh _ _ _ _ _ (by rw [hl1]; omega)]
    exact mem_lswap (by omega) (by omega)
  have he1 : (heapPop sh l).1 = (heapDownF sh (l.length - 1) (lswap l 0 (l.length - 1)) 0
      (l.length - 1)).getD (l.length - 1) 0 := rfl
  have he2 : (heapPop sh l).2 = (heapDownF sh (l.length - 1) (lswap l 0 (l.length - 1)) 0
      (l.length - 1)).take (l.length - 1) := rfl
  have hsplit := take_getD_split (show (heapDownF sh (l.length - 1)
      (lswap l 0 (l.length - 1)) 0 (l.length - 1)).length = (l.length - 1) + 1 by omega)
  constructor
  · rw [he2]
    simp [hl2]
  · intro x
    rw [he1, he2, ← hmem2 x]
    constructor
    · intro hx
      rw [hsplit] at hx
      rcases List.mem_append.mp hx with h1 | h1
      · exact Or.inl h1
      · exact Or.inr (by simpa using h1)
    · intro hx
      rw [hsplit]
      rcases hx with h1 | h1
      · exact List.mem_append.mpr (Or.inl h1)
      · exact List.mem_append.mpr (Or.inr (by simp [h1]))
/-! ### Arena invariants for the shave loop -/

/-- Node `k` of the arena is a live leaf (it would be emitted by
`getLeaves` if reached). -/
def liveLeaf (sh : List cand) (k : Nat) : Prop :=
  k < sh.length ∧ (sh.getD k cdefault).c ≠ 0 ∧ isLeaf (sh.getD k cdefault) = true

instance liveLeaf_dec (sh : List cand) (k : Nat) : Decidable (liveLeaf sh k) := by
  unfold liveLeaf
  infer_instance

/-- The number of live leaves with arena index in `[lo, hi]`. -/
def cntIn (sh : List cand) (lo hi : Nat) : Nat :=
  ((Finset.Icc lo hi).filter fun k => liveLeaf sh k).card

/-- Every internal node has two ordered child pointers below it with
correct back-pointers and live cells. -/
def arenaW1 (sh : List cand) : Prop :=
  ∀ p, p < sh.length → isLeaf (sh.getD p cdefault) = false →
    ∃ a b : Nat, (sh.getD p cdefault).il = (a : Int) ∧
      (sh.getD p cdefault).ir = (b : Int) ∧ a < b ∧ b < p ∧
      (sh.getD a cdefault).ip = (p : Int) ∧ (sh.getD b cdefault).ip = (p : Int) ∧
      (sh.getD a cdefault).c ≠ 0 ∧ (sh.getD b cdefault).c ≠ 0

/-- A live node's parent pointer, when set, designates an internal node
that lists it as one of its children. -/
def arenaW2 (sh : List cand) : Prop :=
  ∀ q, q < sh.length → (sh.getD q cdefault).c ≠ 0 → (sh.getD q cdefault).ip ≠ -1 →
    ∃ p : Nat, (sh.getD q cdefault).ip = (p : Int) ∧ p < sh.length ∧
      isLeaf (sh.getD p cdefault) = false ∧
      ((sh.getD p cdefault).il = (q : Int) ∨ (sh.getD p cdefault).ir = (q : Int))

/-- Every live leaf of the arena is registered in the queue. -/
def INV1 (sh : List cand) (leaves : List Nat) : Prop :=
  ∀ k, liveLeaf sh k → k ∈ leaves

/-- The subtree rooted at arena index `i` is a well-formed binary tree:
all its nodes lie in `[lo, i]`, cells are live throughout, children
precede parents and carry back-pointers; the fuel bounds the depth. -/
def spanP (sh : List cand) : Nat → Nat → Nat → Prop
  | 0, _, _ => False
  | fuel + 1, lo, i =>
    lo ≤ i ∧ i < sh.length ∧ (sh.getD i cdefault).c ≠ 0 ∧
    ((sh.getD i cdefault).il = -1 ∨
      ∃ a b : Nat, (sh.getD i cdefault).il = (a : Int) ∧
        (sh.getD i cdefault).ir = (b : Int) ∧ lo ≤ a ∧ a < b ∧ b < i ∧
        (sh.getD a cdefault).ip = (i : Int) ∧ (sh.getD b cdefault).ip = (i : Int) ∧
        spanP sh fuel lo a ∧ spanP sh fuel (a + 1) b)

theorem spanP_mono (sh : List cand) : ∀ {f f' : Nat} (lo i : Nat), f ≤ f' →
    spanP sh f lo i → spanP sh f' lo i := by
  intro f
  induction f with
  | zero =>
    intro f' lo i _ hP
    exact absurd hP (by rw [spanP]; exact not_false)
  | succ f ih =>
    intro f' lo i hle hP
    obtain ⟨f'', rfl⟩ : ∃ f'', f' = f'' + 1 := ⟨f' - 1, by omega⟩
    rw [spanP] at hP ⊢
    obtain ⟨h1, h2, h3, h4⟩ := hP
    refine ⟨h1, h2, h3, ?_⟩
    rcases h4 with h4 | ⟨a, b, ha, hb, hla, hab, hbi, hpa, hpb, hsa, hsb⟩
    · exact Or.inl h4
    · exact Or.inr ⟨a, b, ha, hb, hla, hab, hbi, hpa, hpb,
        ih lo a (by omega) hsa, ih (a + 1) b (by omega) hsb⟩

theorem cntIn_add (sh : List cand) {lo a b hi : Nat} (h0 : lo ≤ a) (h1 : a < b)
    (h2 : b ≤ hi) : cntIn sh lo a + cntIn sh (a + 1) b ≤ cntIn sh lo hi := by
  unfold cntIn
  have hdis : Disjoint ((Finset.Icc lo a).filter fun k => liveLeaf sh k)
      ((Finset.Icc (a + 1) b).filter fun k => liveLeaf sh k) := by
    rw [Finset.disjoint_left]
    intro x hx hy
    simp only [Finset.mem_filter, Finset.mem_Icc] at hx hy
    omega
  have hsub : ((Finset.Icc lo a).filter fun k => liveLeaf sh k) ∪
      ((Finset.Icc (a + 1) b).filter fun k => liveLeaf sh k) ⊆
      (Finset.Icc lo hi).filter fun k => liveLeaf sh k := by
    intro x hx
    rcases Finset.mem_union.mp hx with hx | hx <;>
      simp only [Finset.mem_filter, Finset.mem_Icc] at hx ⊢ <;>
      exact ⟨⟨by omega, by omega⟩, hx.2⟩
  calc ((Finset.Icc lo a).filter fun k => liveLeaf sh k).card +
      ((Finset.Icc (a + 1) b).filter fun k => liveLeaf sh k).card
      = (((Finset.Icc lo a).filter fun k => liveLeaf sh k) ∪
        ((Finset.Icc (a + 1) b).filter fun k => liveLeaf sh k)).card :=
      (Finset.card_union_of_disjoint hdis).symm
  _ ≤ _ := Finset.card_le_card hsub

theorem cntIn_le_of_mem (sh : List cand) (leaves : List Nat) (lo hi : Nat)
    (h : ∀ k, liveLeaf sh k → k ∈ leaves) :
    cntIn sh lo hi ≤ leaves.length := by
  calc cntIn sh lo hi ≤ leaves.toFinset.card := by
        apply Finset.card_le_card
        intro x hx
        simp only [Finset.mem_filter] at hx
        exact List.mem_toFinset.mpr (h x hx.2)
  _ ≤ leaves.length := List.toFinset_card_le leaves

theorem getLeaves_bound : ∀ (f : Nat) (sh : List cand) (fs lo i : Nat) (acc : List Nat),
    spanP sh fs lo i →
    (getLeaves sh f i acc).length ≤ acc.length + cntIn sh lo i := by
  intro f
  induction f with
  | zero =>
    intro sh fs lo i acc _
    exact Nat.le_add_right _ _
  | succ f ih =>
    intro sh fs lo i acc hP
    obtain ⟨fs', rfl⟩ : ∃ fs', fs = fs' + 1 := by
      cases fs with
      | zero => exact absurd hP (by rw [spanP]; exact not_false)
      | succ fs' => exact ⟨fs', rfl⟩
    rw [spanP] at hP
    obtain ⟨hlo, hilen, hc, hrest⟩ := hP
    have hone : 1 ≤ cntIn sh lo i → acc.length + 1 ≤ acc.length + cntIn sh lo i := by
      omega
    rcases hrest with hleaf | ⟨a, b, ha, hb, hla, hab, hbi, hpa, hpb, hsa, hsb⟩
    · have hil : isLeaf (sh.getD i cdefault) = true := by
        unfold isLeaf
        rw [hleaf]
        rfl
      rw [getLeaves, if_pos ⟨hc, hil⟩]
      simp only [List.length_append, List.length_cons, List.length_nil]
      apply hone
      show 1 ≤ ((Finset.Icc lo i).filter fun k => liveLeaf sh k).card
      refine Finset.card_pos.mpr ⟨i, ?_⟩
      rw [Finset.mem_filter, Finset.mem_Icc]
      exact ⟨⟨hlo, le_refl i⟩, hilen, hc, hil⟩
    · have hil : isLeaf (sh.getD i cdefault) = false := by
        unfold isLeaf
        rw [ha]
        simp
    
      rw [getLeaves, if_neg (by rw [hil]; simp)]
      rw [ha, hb]
      have hta : ((a : Int)).toNat = a := Int.toNat_natCast a
      have htb : ((b : Int)).toNat = b := Int.toNat_natCast b
      rw [hta, htb]
      calc (getLeaves sh f b (getLeaves sh f a acc)).length
          ≤ (getLeaves sh f a acc).length + cntIn sh (a + 1) b := ih sh fs' (a + 1) b _ hsb
      _ ≤ acc.length + cntIn sh lo a + cntIn sh (a + 1) b := by
          have := ih sh fs' lo a acc hsa
          omega
      _ ≤ acc.length + cntIn sh lo i := by
          have := cntIn_add sh hla hab (le_of_lt hbi)
          omega
/-! ### Effect of `blowup` on the invariants -/

/-- Entry-level description of a successful `blowupF`: children
`a < b` of node `P` were invalidated, `P` became a leaf, and every
other entry is untouched. -/
def blowCtx (sh sh' : List cand) (a b P : Nat) : Prop :=
  a < b ∧ b < P ∧ P < sh.length ∧ sh'.length = sh.length ∧
  (sh.getD P cdefault).il = (a : Int) ∧ (sh.getD P cdefault).ir = (b : Int) ∧
  (sh.getD a cdefault).ip = (P : Int) ∧ (sh.getD b cdefault).ip = (P : Int) ∧
  sh'.getD a cdefault = { sh.getD a cdefault with c := 0 } ∧
  sh'.getD b cdefault = { sh.getD b cdefault with c := 0 } ∧
  sh'.getD P cdefault = { sh.getD P cdefault with il := -1, ir := -1 } ∧
  ∀ k, k ≠ a → k ≠ b → k ≠ P → sh'.getD k cdefault = sh.getD k cdefault

theorem blowupF_spec {sh sh' : List cand} {P : Nat} (hW1 : arenaW1 sh)
    (hP : P < sh.length) (hleaf : isLeaf (sh.getD P cdefault) = false)
    (hb : blowupF sh P = some sh') : ∃ a b : Nat, blowCtx sh sh' a b P := by
  obtain ⟨a, b, hil, hir, hab, hbP, hipa, hipb, hca, hcb⟩ := hW1 P hP hleaf
  refine ⟨a, b, hab, hbP, hP, ?_⟩
  have hP0 : P ≠ 0 := by omega
  have halen : a < sh.length := by omega
  have hblen : b < sh.length := by omega
  unfold blowupF at hb
  rw [if_neg hP0] at hb
  simp only [] at hb
  rw [hil, hir] at hb
  rw [if_pos ⟨by positivity, by rw [Int.toNat_natCast]; exact halen,
    by positivity, by rw [Int.toNat_natCast]; exact hblen⟩] at hb
  rw [Int.toNat_natCast, Int.toNat_natCast] at hb
  have hsh' : sh' = ((sh.set a { sh.getD a cdefault with c := 0 }).set b
      { (sh.set a { sh.getD a cdefault with c := 0 }).getD b cdefault with c := 0 }).set P
      { sh.getD P cdefault with il := -1, ir := -1 } := by
    exact (Option.some.inj hb).symm
  have hb1 : (sh.set a { sh.getD a cdefault with c := 0 }).getD b cdefault =
      sh.getD b cdefault := getD_set_ne _ _ (by omega)
  rw [hb1] at hsh'
  have hlen : sh'.length = sh.length := by rw [hsh']; simp
  have hEa : sh'.getD a cdefault = { sh.getD a cdefault with c := 0 } := by
    rw [hsh', getD_set_ne _ _ (by omega), getD_set_ne _ _ (by omega),
      getD_set_self _ _ halen]
  have hEb : sh'.getD b cdefault = { sh.getD b cdefault with c := 0 } := by
    rw [hsh', getD_set_ne _ _ (by omega), getD_set_self _ _ (by simp [hblen])]
  have hEP : sh'.getD P cdefault = { sh.getD P cdefault with il := -1, ir := -1 } := by
    rw [hsh', getD_set_self _ _ (by simp [hP])]
  refine ⟨hlen, hil, hir, hipa, hipb, hEa, hEb, hEP, ?_⟩
  intro k hka hkb hkP
  rw [hsh', getD_set_ne _ _ (fun hh => hkP hh.symm), getD_set_ne _ _ (fun hh => hkb hh.symm),
    getD_set_ne _ _ (fun hh => hka hh.symm)]

theorem arenaW1_blow {sh sh' : List cand} {a b P : Nat} (hctx : blowCtx sh sh' a b P)
    (hW1 : arenaW1 sh) : arenaW1 sh' := by
  obtain ⟨hab, hbP, hPlen, hlen, hilP, hirP, hipa0, hipb0, hEa, hEb, hEP, hEo⟩ := hctx
  have hPleaf : isLeaf (sh.getD P cdefault) = false := by
    unfold isLeaf
    rw [hilP]
    simp
  intro p hp hpleaf
  rw [hlen] at hp
  have hentry : ∀ q : Nat, (sh'.getD q cdefault).ip = (sh.getD q cdefault).ip ∧
      (sh'.getD q cdefault).c = (sh.getD q cdefault).c ∨ q = a ∨ q = b := by
    intro q
    by_cases hqa : q = a
    · exact Or.inr (Or.inl hqa)
    · by_cases hqb : q = b
      · exact Or.inr (Or.inr hqb)
      · by_cases hqP : q = P
        · subst hqP
          rw [hEP]
          exact Or.inl ⟨rfl, rfl⟩
        · rw [hEo q hqa hqb hqP]
          exact Or.inl ⟨rfl, rfl⟩
  by_cases hpP : p = P
  · subst hpP
    unfold isLeaf at hpleaf
    rw [hEP] at hpleaf
    simp at hpleaf
  · have hEp : sh'.getD p cdefault = sh.getD p cdefault ∨
        ((sh'.getD p cdefault).il = (sh.getD p cdefault).il ∧
         (sh'.getD p cdefault).ir = (sh.getD p cdefault).ir) := by
      by_cases hpa : p = a
      · subst hpa
        rw [hEa]
        exact Or.inr ⟨rfl, rfl⟩
      · by_cases hpb : p = b
        · subst hpb
          rw [hEb]
          exact Or.inr ⟨rfl, rfl⟩
        · exact Or.inl (hEo p hpa hpb hpP)
    have hil_eq : (sh'.getD p cdefault).il = (sh.getD p cdefault).il := by
      rcases hEp with h | h
      · rw [h]
      · exact h.1
    have hir_eq : (sh'.getD p cdefault).ir = (sh.getD p cdefault).ir := by
      rcases hEp with h | h
      · rw [h]
      · exact h.2
    have hpleaf' : isLeaf (sh.getD p cdefault) = false := by
      unfold isLeaf at hpleaf ⊢
      rw [← hil_eq]
      exact hpleaf
    obtain ⟨x, y, hxil, hyir, hxy, hyp, hipx, hipy, hcx, hcy⟩ := hW1 p hp hpleaf'
    have hxa : x ≠ a := by
      intro hh
      subst hh
      rw [hipa0] at hipx
      exact hpP (by exact_mod_cast hipx.symm)
    have hxb : x ≠ b := by
      intro hh
      subst hh
      rw [hipb0] at hipx
      exact hpP (by exact_mod_cast hipx.symm)
    have hya : y ≠ a := by
      intro hh
      subst hh
      rw [hipa0] at hipy
      exact hpP (by exact_mod_cast hipy.symm)
    have hyb : y ≠ b := by
      intro hh
      subst hh
      rw [hipb0] at hipy
      exact hpP (by exact_mod_cast hipy.symm)
    have hex : (sh'.getD x cdefault).ip = (sh.getD x cdefault).ip ∧
        (sh'.getD x cdefault).c = (sh.getD x cdefault).c := by
      rcases hentry x with h | h | h
      · exact h
      · exact absurd h hxa
      · exact absurd h hxb
    have hey : (sh'.getD y cdefault).ip = (sh.getD y cdefault).ip ∧
        (sh'.getD y cdefault).c = (sh.getD y cdefault).c := by
      rcases hentry y with h | h | h
      · exact h
      · exact absurd h hya
      · exact absurd h hyb
    exact ⟨x, y, by rw [hil_eq]; exact hxil, by rw [hir_eq]; exact hyir, hxy, hyp,
      by rw [hex.1]; exact hipx, by rw [hey.1]; exact hipy,
      by rw [hex.2]; exact hcx, by rw [hey.2]; exact hcy⟩
theorem arenaW2_blow {sh sh' : List cand} {a b P : Nat} (hctx : blowCtx sh sh' a b P)
    (hW1 : arenaW1 sh) (hW2 : arenaW2 sh) : arenaW2 sh' := by
  obtain ⟨hab, hbP, hPlen, hlen, hilP, hirP, hipa0, hipb0, hEa, hEb, hEP, hEo⟩ := hctx
  intro q hq hqc hqip
  rw [hlen] at hq
  by_cases hqa : q = a
  · subst hqa
    rw [hEa] at hqc
    simp at hqc
  · by_cases hqb : q = b
    · subst hqb
      rw [hEb] at hqc
      simp at hqc
    · have hqE : (sh'.getD q cdefault).c = (sh.getD q cdefault).c ∧
          (sh'.getD q cdefault).ip = (sh.getD q cdefault).ip := by
        by_cases hqP : q = P
        · subst hqP
          rw [hEP]
          exact ⟨rfl, rfl⟩
        · rw [hEo q hqa hqb hqP]
          exact ⟨rfl, rfl⟩
      rw [hqE.1] at hqc
      rw [hqE.2] at hqip ⊢
      obtain ⟨pp, hpp, hpplen, hppleaf, hppch⟩ := hW2 q hq hqc hqip
      have hppP : pp ≠ P := by
        intro hh
        subst hh
        rcases hppch with hch | hch
        · rw [hilP] at hch
          exact hqa (by exact_mod_cast hch.symm)
        · rw [hirP] at hch
          exact hqb (by exact_mod_cast hch.symm)
      have hppE : (sh'.getD pp cdefault).il = (sh.getD pp cdefault).il ∧
          (sh'.getD pp cdefault).ir = (sh.getD pp cdefault).ir := by
        by_cases hppa : pp = a
        · subst hppa
          rw [hEa]
          exact ⟨rfl, rfl⟩
        · by_cases hppb : pp = b
          · subst hppb
            rw [hEb]
            exact ⟨rfl, rfl⟩
          · rw [hEo pp hppa hppb hppP]
            exact ⟨rfl, rfl⟩
      refine ⟨pp, hpp, by omega, ?_, ?_⟩
      · unfold isLeaf at hppleaf ⊢
        rw [hppE.1]
        exact hppleaf
      · rcases hppch with hch | hch
        · exact Or.inl (by rw [hppE.1]; exact hch)
        · exact Or.inr (by rw [hppE.2]; exact hch)

theorem spanP_blow {sh sh' : List cand} {a b P : Nat} (hctx : blowCtx sh sh' a b P) :
    ∀ (f : Nat) (lo i : Nat), i ≠ a → i ≠ b → spanP sh f lo i → spanP sh' f lo i := by
  obtain ⟨hab, hbP, hPlen, hlen, hilP, hirP, hipa0, hipb0, hEa, hEb, hEP, hEo⟩ := hctx
  intro f
  induction f with
  | zero =>
    intro lo i _ _ hP
    exact absurd hP (by rw [spanP]; exact not_false)
  | succ f ih =>
    intro lo i hia hib hP
    rw [spanP] at hP ⊢
    obtain ⟨h1, h2, h3, h4⟩ := hP
    by_cases hiP : i = P
    · subst hiP
      refine ⟨h1, by omega, by rw [hEP]; exact h3, Or.inl (by rw [hEP])⟩
    · have hEi : sh'.getD i cdefault = sh.getD i cdefault := hEo i hia hib hiP
      refine ⟨h1, by omega, by rw [hEi]; exact h3, ?_⟩
      rcases h4 with h4 | ⟨x, y, hxil, hyir, hlx, hxy, hyi, hipx, hipy, hsx, hsy⟩
      · exact Or.inl (by rw [hEi]; exact h4)
      · have hxa : x ≠ a := by
          intro hh
          rw [hh, hipa0] at hipx
          have hPi : P = i := by exact_mod_cast hipx
          exact hiP hPi.symm
        have hxb : x ≠ b := by
          intro hh
          rw [hh, hipb0] at hipx
          have hPi : P = i := by exact_mod_cast hipx
          exact hiP hPi.symm
        have hya : y ≠ a := by
          intro hh
          rw [hh, hipa0] at hipy
          have hPi : P = i := by exact_mod_cast hipy
          exact hiP hPi.symm
        have hyb : y ≠ b := by
          intro hh
          rw [hh, hipb0] at hipy
          have hPi : P = i := by exact_mod_cast hipy
          exact hiP hPi.symm
        have hipx' : (sh'.getD x cdefault).ip = (sh.getD x cdefault).ip := by
          by_cases hxP : x = P
          · subst hxP
            rw [hEP]
          · rw [hEo x hxa hxb hxP]
        have hipy' : (sh'.getD y cdefault).ip = (sh.getD y cdefault).ip := by
          by_cases hyP : y = P
          · subst hyP
            rw [hEP]
          · rw [hEo y hya hyb hyP]
        exact Or.inr ⟨x, y, by rw [hEi]; exact hxil, by rw [hEi]; exact hyir, hlx, hxy, hyi,
          by rw [hipx']; exact hipx, by rw [hipy']; exact hipy,
          ih lo x hxa hxb hsx, ih (x + 1) y hya hyb hsy⟩

theorem liveLeaf_blow {sh sh' : List cand} {a b P : Nat} (hctx : blowCtx sh sh' a b P) :
    ∀ k, liveLeaf sh' k → k = P ∨ (liveLeaf sh k ∧ k ≠ a ∧ k ≠ b) := by
  obtain ⟨hab, hbP, hPlen, hlen, hilP, hirP, hipa0, hipb0, hEa, hEb, hEP, hEo⟩ := hctx
  rintro k ⟨hk, hc, hl⟩
  by_cases hkP : k = P
  · exact Or.inl hkP
  · by_cases hka : k = a
    · subst hka
      rw [hEa] at hc
      simp at hc
    · by_cases hkb : k = b
      · subst hkb
        rw [hEb] at hc
        simp at hc
      · rw [hEo k hka hkb hkP] at hc hl
        exact Or.inr ⟨⟨by omega, hc, hl⟩, hka, hkb⟩
/-! ### The shave loop keeps the final leaf count within budget -/

/-- Loop invariant of `shave`. -/
def shaveInv (sh : List cand) (leaves : List Nat) : Prop :=
  arenaW1 sh ∧ arenaW2 sh ∧ INV1 sh leaves ∧
  spanP sh (sh.length + 1) 0 (sh.length - 1)

theorem shave_bound : ∀ (fuel : Nat) (sh : List cand) (leaves : List Nat) (ms : Nat)
    (r : List cand ⊕ List Nat), 1 ≤ ms → shaveInv sh leaves →
    shave fuel sh leaves ms = some r →
    (∀ out, r = Sum.inr out → out.length ≤ ms) ∧
    (∀ shF, r = Sum.inl shF →
      (getLeaves shF (shF.length + 1) (shF.length - 1) []).length ≤ ms) := by
  intro fuel
  induction fuel with
  | zero =>
    intro sh leaves ms r _ _ hs
    exact absurd hs (by rw [shave]; simp)
  | succ fuel ih =>
    intro sh leaves ms r hms hinv hs
    obtain ⟨hW1, hW2, hI1, hSp⟩ := hinv
    rw [shave] at hs
    by_cases hlen : 1 < leaves.length
    · rw [if_pos hlen] at hs
      simp only [] at hs
      obtain ⟨hplen, hpmem⟩ := heapPop_facts sh leaves
        (by intro hh; rw [hh] at hlen; simp at hlen)
      by_cases hdead : ((sh.getD (heapPop sh leaves).1 cdefault).c == 0) = true
      · rw [if_pos hdead] at hs
        refine ih sh (heapPop sh leaves).2 ms r hms ⟨hW1, hW2, ?_, hSp⟩ hs
        intro k hk
        rcases (hpmem k).mp (hI1 k hk) with h | h
        · exact h
        · exfalso
          rw [h] at hk
          exact hk.2.1 (by simpa using hdead)
      · rw [if_neg hdead] at hs
        have hlive : (sh.getD (heapPop sh leaves).1 cdefault).c ≠ 0 := by
          intro hh
          exact hdead (by rw [hh]; rfl)
        by_cases hg : ((sh.getD (heapPop sh leaves).1 cdefault).g == 0) = true ∨
            ms ≤ (heapPop sh leaves).2.length
        · rw [if_pos hg] at hs
          by_cases hip : ((sh.getD (heapPop sh leaves).1 cdefault).ip == -1) = true
          · rw [if_pos hip] at hs
            have hr : r = Sum.inr [(sh.getD (heapPop sh leaves).1 cdefault).c] :=
              (Option.some.inj hs).symm
            constructor
            · intro out hout
              rw [hr] at hout
              have ho : [(sh.getD (heapPop sh leaves).1 cdefault).c] = out :=
                Sum.inr.inj hout
              rw [← ho]
              simpa using hms
            · intro shF hshF
              rw [hr] at hshF
              simp at hshF
          · rw [if_neg hip] at hs
            have hilen : (heapPop sh leaves).1 < sh.length := by
              by_contra hnot
              exact hlive (by rw [List.getD_eq_default _ _ (by omega)]; rfl)
            obtain ⟨P, hipP, hPlen, hPleaf, hPch⟩ := hW2 (heapPop sh leaves).1 hilen hlive
              (by simpa using hip)
            rw [hipP, Int.toNat_natCast] at hs
            cases hbl : blowupF sh P with
            | none =>
              rw [hbl] at hs
              simp at hs
            | some sh' =>
              rw [hbl] at hs
              obtain ⟨a, b, hctx⟩ := blowupF_spec hW1 hPlen hPleaf hbl
              have hab := hctx.1
              have hbP := hctx.2.1
              have hlen' := hctx.2.2.2.1
              have hilP := hctx.2.2.2.2.1
              have hirP := hctx.2.2.2.2.2.1
              have hiab : (heapPop sh leaves).1 = a ∨ (heapPop sh leaves).1 = b := by
                rcases hPch with h | h
                · left
                  rw [hilP] at h
                  exact_mod_cast h.symm
                · right
                  rw [hirP] at h
                  exact_mod_cast h.symm
              have hI1' : INV1 sh' (heapPush sh' (heapPop sh leaves).2 P) := by
                intro k hk
                rcases liveLeaf_blow hctx k hk with hkP | ⟨hkl, hka, hkb⟩
                · rw [heapPush_mem]
                  exact Or.inr hkP
                · rcases (hpmem k).mp (hI1 k hkl) with h | h
                  · rw [heapPush_mem]
                    exact Or.inl h
                  · exfalso
                    rcases hiab with hh | hh
                    · exact hka (by rw [h, hh])
                    · exact hkb (by rw [h, hh])
              have hSp' : spanP sh' (sh'.length + 1) 0 (sh'.length - 1) := by
                rw [hlen']
                exact spanP_blow hctx (sh.length + 1) 0 (sh.length - 1)
                  (by omega) (by omega) hSp
              exact ih sh' _ ms r hms
                ⟨arenaW1_blow hctx hW1, arenaW2_blow hctx hW1 hW2, hI1', hSp'⟩ hs
        · rw [if_neg hg] at hs
          by_cases hlt : (heapPop sh leaves).2.length < ms
          · rw [if_pos hlt] at hs
            have hr : r = Sum.inl sh := (Option.some.inj hs).symm
            constructor
            · intro out hout
              rw [hr] at hout
              simp at hout
            · intro shF hshF
              rw [hr] at hshF
              have hF : sh = shF := Sum.inl.inj hshF
              rw [← hF]
              have hb1 := getLeaves_bound (sh.length + 1) sh (sh.length + 1) 0
                (sh.length - 1) [] hSp
              have hb2 : cntIn sh 0 (sh.length - 1) ≤
                  ((heapPop sh leaves).2 ++ [(heapPop sh leaves).1]).length := by
                refine cntIn_le_of_mem sh _ 0 (sh.length - 1) ?_
                intro k hk
                rcases (hpmem k).mp (hI1 k hk) with h | h
                · exact List.mem_append.mpr (Or.inl h)
                · exact List.mem_append.mpr (Or.inr (by simp [h]))
              rw [List.length_append, List.length_cons, List.length_nil] at hb2
              simp only [List.length_nil] at hb1
              omega
          · rw [if_neg hlt] at hs
            exfalso
            push_neg at hg
            omega
    · rw [if_neg hlen] at hs
      have hr : r = Sum.inl sh := (Option.some.inj hs).symm
      constructor
      · intro out hout
        rw [hr] at hout
        simp at hout
      · intro shF hshF
        rw [hr] at hshF
        have hF : sh = shF := Sum.inl.inj hshF
        rw [← hF]
        have hb1 := getLeaves_bound (sh.length + 1) sh (sh.length + 1) 0
          (sh.length - 1) [] hSp
        have hb2 : cntIn sh 0 (sh.length - 1) ≤ leaves.length :=
          cntIn_le_of_mem sh leaves 0 (sh.length - 1) hI1
        simp only [List.length_nil] at hb1
        omega
/-! ### The two children of a cell, on the normal form -/

theorem lor_two_pow_of_testBit {x k : Nat} (h : x.testBit k = true) : x ||| 2 ^ k = x := by
  apply Nat.eq_of_testBit_eq
  intro i
  rw [Nat.testBit_lor, Nat.testBit_two_pow]
  by_cases hki : k = i
  · subst hki
    rw [h]
    simp
  · simp [hki]

theorem children_form {m k : Nat} (hk : 1 ≤ k) (h : (2 * m + 1) * 2 ^ k < U64) :
    (children ((2 * m + 1) * 2 ^ k)).1 = (2 * (2 * m) + 1) * 2 ^ (k - 1) ∧
    (children ((2 * m + 1) * 2 ^ k)).2 = (2 * (2 * m + 1) + 1) * 2 ^ (k - 1) := by
  have hk64 : k < 64 := form_k_lt h
  have hm : 2 * m + 1 < 2 ^ (64 - k) := form_m_lt h
  have hp : lsb ((2 * m + 1) * 2 ^ k) / 2 = 2 ^ (k - 1) := by
    rw [lsb_form h]
    obtain ⟨k', rfl⟩ : ∃ k', k = k' + 1 := ⟨k - 1, by omega⟩
    rw [pow_succ]
    simp
  have hp2 : 2 ^ (k - 1) * 2 = 2 ^ k := Nat.pow_pred_mul (by omega)
  have hcr' : (2 * (2 * m + 1) + 1) * 2 ^ (k - 1) < U64 := by
    rw [U64_eq]
    have he1 : (2 : Nat) ^ (64 - k) * 2 ^ k = 2 ^ 64 := by
      rw [← pow_add]
      congr 1
      omega
    have he2 : (2 : Nat) ^ (k - 1) * 2 = 2 ^ k := hp2
    nlinarith [Nat.pos_pow_of_pos (k - 1) (show 0 < 2 by norm_num)]
  have hc' : (2 * m + 1) * 2 ^ k ||| 2 ^ (k - 1) = (2 * (2 * m + 1) + 1) * 2 ^ (k - 1) := by
    apply Nat.eq_of_testBit_eq
    intro i
    rw [Nat.testBit_lor, testBit_form, testBit_form, Nat.testBit_two_pow]
    rcases Nat.lt_trichotomy i (k - 1) with hik | hik | hik
    · have h1 : ¬(k ≤ i) := by omega
      have h2 : ¬(k - 1 = i) := by omega
      have h3 : ¬(k - 1 ≤ i) := by omega
      simp [h1, h2, h3]
    · have h1 : ¬(k ≤ i) := by omega
      have h2 : k - 1 ≤ i := by omega
      rw [← hik]
      simp only [decide_eq_false h1, Bool.false_and, Bool.false_or,
        decide_eq_true rfl, decide_eq_true h2, Bool.true_and, Nat.sub_self]
      rw [testBit_two_mul_add_one_zero]
      simp
    · have h1 : k ≤ i := by omega
      have h2 : ¬(k - 1 = i) := by omega
      have h3 : k - 1 ≤ i := by omega
      obtain ⟨d, hd⟩ : ∃ d, i - (k - 1) = d + 1 := ⟨i - k, by omega⟩
      have hd2 : i - k = d := by omega
      simp only [decide_eq_true h1, decide_eq_true h3, Bool.true_and,
        decide_eq_false h2, Bool.or_false, hd, hd2]
      rw [testBit_two_mul_add_one_succ]
  constructor
  · show ((2 * m + 1) * 2 ^ k ||| lsb ((2 * m + 1) * 2 ^ k) / 2) &&&
        not64 (lsb ((2 * m + 1) * 2 ^ k) / 2 * 2) = _
    rw [hp, hp2, hc']
    have hnot : not64 (2 ^ k) = 2 ^ k ^^^ (2 ^ 64 - 1) := by
      unfold not64
      rw [Nat.mod_eq_of_lt (by rw [U64_eq]; exact Nat.pow_lt_pow_right (by norm_num) hk64)]
      rfl
    rw [hnot]
    apply Nat.eq_of_testBit_eq
    intro i
    have hbit1 : (2 ^ 64 - 1 : Nat).testBit i = decide (i < 64) := by
      have := testBit_two_pow_sub_one_sub (show (0 : Nat) < 2 ^ 64 by positivity) i
      rw [Nat.sub_zero] at this
      rw [this, Nat.zero_testBit]
      simp
    rw [Nat.testBit_land, Nat.testBit_xor, Nat.testBit_two_pow, hbit1,
      testBit_form, testBit_form]
    by_cases hi64 : i < 64
    · rcases Nat.lt_trichotomy i (k - 1) with hik | hik | hik
      · have h2 : ¬(k - 1 ≤ i) := by omega
        simp [h2]
      · have h2 : k - 1 ≤ i := by omega
        have h3 : ¬(k = i) := by omega
        rw [← hik]
        simp only [decide_eq_true h2, Bool.true_and, decide_eq_false h3,
          decide_eq_true hi64, Nat.sub_self]
        rw [testBit_two_mul_add_one_zero, testBit_two_mul_add_one_zero]
        simp
      · have h2 : k - 1 ≤ i := by omega
        obtain ⟨d, hd⟩ : ∃ d, i - (k - 1) = d + 1 := ⟨i - k, by omega⟩
        have hd2 : i - k = d := by omega
        simp only [decide_eq_true h2, Bool.true_and, decide_eq_true hi64, hd]
        rw [testBit_two_mul_add_one_succ, testBit_two_mul_add_one_succ]
        by_cases hki : k = i
        · have hdz : d = 0 := by omega
          subst hdz
          rw [decide_eq_true hki, testBit_two_mul_add_one_zero, testBit_two_mul_zero]
          simp
        · simp only [decide_eq_false hki]
          have hd1 : 1 ≤ d := by omega
          obtain ⟨e, he⟩ : ∃ e, d = e + 1 := ⟨d - 1, by omega⟩
          rw [he, testBit_two_mul_add_one_succ, testBit_two_mul_succ]
          cases hb : (m.testBit e) <;> simp [hb]
    · have hpowe : (2 : Nat) ^ (65 - k) = 2 * 2 ^ (64 - k) := by
        rw [show 65 - k = (64 - k) + 1 by omega, pow_succ]
        ring
      have hup : 2 * (2 * m + 1) + 1 < 2 ^ (65 - k) := by omega
      have hle : (2 : Nat) ^ (65 - k) ≤ 2 ^ (i - (k - 1)) :=
        Nat.pow_le_pow_right (by norm_num) (by omega)
      have hfa : (2 * (2 * m + 1) + 1).testBit (i - (k - 1)) = false :=
        Nat.testBit_lt_two_pow (lt_of_lt_of_le hup hle)
      have hfb : (2 * (2 * m) + 1).testBit (i - (k - 1)) = false :=
        Nat.testBit_lt_two_pow (lt_of_lt_of_le (by omega) hle)
      rw [hfa, hfb]
      simp
  · show ((2 * m + 1) * 2 ^ k ||| lsb ((2 * m + 1) * 2 ^ k) / 2) |||
        lsb ((2 * m + 1) * 2 ^ k) / 2 * 2 = _
    rw [hp, hp2, hc']
    apply lor_two_pow_of_testBit
    rw [testBit_form]
    have h2 : k - 1 ≤ k := by omega
    obtain ⟨d, hd⟩ : ∃ d, k - (k - 1) = d + 1 := ⟨0, by omega⟩
    have hdz : d = 0 := by omega
    rw [decide_eq_true h2, Bool.true_and, hd, hdz, testBit_two_mul_add_one_succ,
      testBit_two_mul_add_one_zero]

/-! ### Canonical-list and slice facts used by the `shape` invariant -/

theorem lsb_pos {c : Nat} (hc : cvalid c) : 0 < lsb c := by
  obtain ⟨m, k, rfl⟩ := form_exists hc.1
  rw [lsb_form hc.2]
  positivity

theorem countExact_single (x : Nat) : CountExact [x] = lsb x := by
  show 0 + lsb x = lsb x
  omega

theorem countExact_pos {l : List Nat} (hv : ∀ c ∈ l, cvalid c) (hne : l ≠ []) :
    0 < CountExact l := by
  cases l with
  | nil => exact absurd rfl hne
  | cons c t =>
    rw [countExact_cons]
    have := lsb_pos (hv c (by simp))
    omega

theorem countExact_le_of_canonical : ∀ (s : List Nat) (b : Nat), b ≤ 2 ^ 63 →
    (∀ c ∈ s, cvalid c) → List.Chain' canonPair s →
    (∀ x, s.head? = some x → b ≤ cbegin x) → b + CountExact s ≤ 2 ^ 63 := by
  intro s
  induction s with
  | nil =>
    intro b hb _ _ _
    show b + 0 ≤ 2 ^ 63
    omega
  | cons c t ih =>
    intro b hb hv hch hhd
    have hcv : cvalid c := hv c (by simp)
    have hbc : b ≤ cbegin c := hhd c rfl
    have hce := cend_eq_begin_add_lsb hcv
    have hend := cvalid_end_le hcv
    rw [countExact_cons]
    cases t with
    | nil =>
      show b + (lsb c + 0) ≤ 2 ^ 63
      omega
    | cons d t' =>
      obtain ⟨hcd, hch'⟩ := List.chain'_cons.mp hch
      have := ih (cend c) hend (fun x hx => hv x (by simp [hx])) hch'
        (fun x hx => by
          have hxd : x = d := by
            have := hx
            simp at this
            omega
          rw [hxd]
          exact hcd.1)
      omega

theorem slice_length (s : List Nat) (i j : Nat) (hij : i ≤ j) (hj : j ≤ s.length) :
    ((s.drop i).take (j - i)).length = j - i := by
  rw [List.length_take, List.length_drop]
  omega

theorem slice_one (s : List Nat) (i : Nat) (hi : i < s.length) :
    (s.drop i).take 1 = [s.getD i 0] := by
  rw [List.drop_eq_getElem_cons hi, List.getD_eq_getElem s 0 hi]
  rfl

theorem slice_split (s : List Nat) (i m j : Nat) (him : i ≤ m) (hmj : m ≤ j) :
    (s.drop i).take (j - i) = (s.drop i).take (m - i) ++ (s.drop m).take (j - m) := by
  have h1 : j - i = (m - i) + (j - m) := by omega
  rw [h1, List.take_add, List.drop_drop]
  have h2 : i + (m - i) = m := by omega
  rw [h2]

theorem slice_mem {s : List Nat} {i j c : Nat} (h : c ∈ (s.drop i).take (j - i)) :
    c ∈ s :=
  List.mem_of_mem_drop (List.mem_of_mem_take h)

theorem countExact_slice_le (s : List Nat) (i j : Nat) :
    CountExact ((s.drop i).take (j - i)) ≤ CountExact s := by
  have h2 := countExact_append ((s.drop i).take (j - i)) ((s.drop i).drop (j - i))
  rw [List.take_append_drop] at h2
  have h1 := countExact_append (s.take i) (s.drop i)
  rw [List.take_append_drop] at h1
  omega

theorem slice_getD (s : List Nat) (i j p : Nat) (hp : p < j - i) (hj : j ≤ s.length) :
    ((s.drop i).take (j - i)).getD p 0 = s.getD (i + p) 0 := by
  have hip : i + p < s.length := by omega
  have hpd : p < (s.drop i).length := by rw [List.length_drop]; omega
  have hpt : p < ((s.drop i).take (j - i)).length := by
    rw [List.length_take, List.length_drop]
    omega
  rw [List.getD_eq_getElem _ 0 hpt, List.getD_eq_getElem s 0 hip]
  rw [List.getElem_take, List.getElem_drop]

theorem canonical_sep_getD {s : List Nat} (hv : ∀ c ∈ s, cvalid c)
    (hc : List.Chain' canonPair s) : ∀ p q, p < q → q < s.length →
    cend (s.getD p 0) ≤ cbegin (s.getD q 0) := by
  intro p q hpq hq
  have hsepP := canonical_pairwise_sep s hv hc
  have hp : p < s.length := by omega
  rw [List.getD_eq_getElem s 0 hp, List.getD_eq_getElem s 0 hq]
  exact List.pairwise_iff_getElem.mp hsepP p q hp hq hpq

theorem canonical_mono_getD {s : List Nat} (hv : ∀ c ∈ s, cvalid c)
    (hc : List.Chain' canonPair s) : ∀ p q, p < q → q < s.length →
    s.getD p 0 < s.getD q 0 := by
  intro p q hpq hq
  exact val_lt_of_sep (hv _ (mem_getD_of_lt (by omega))) (hv _ (mem_getD_of_lt hq))
    (canonical_sep_getD hv hc p q hpq hq)

theorem promote_ne_zero : ∀ (f cc g : Nat), cc ≠ 0 → promote f cc g ≠ 0 := by
  intro f
  induction f with
  | zero =>
    intro cc g h
    exact h
  | succ f ih =>
    intro cc g h
    rw [promote]
    by_cases h1 : lsb cc < g
    · rw [if_pos h1]
      by_cases h2 : (parent cc == 0) = true
      · rw [if_pos h2]
        exact h
      · rw [if_neg h2]
        exact ih _ g (by simpa using h2)
    · rw [if_neg h1]
      exact h

theorem set_append_right (l1 l2 : List cand) (n : Nat) (v : cand) (h : l1.length ≤ n) :
    (l1 ++ l2).set n v = l1 ++ l2.set (n - l1.length) v := by
  induction l1 generalizing n with
  | nil => simp
  | cons x l1' ih =>
    cases n with
    | zero => simp at h
    | succ n' =>
      show x :: (l1' ++ l2).set n' v = _
      rw [ih n' (by simpa using h)]
      have he : n' + 1 - (x :: l1').length = n' - l1'.length := by
        simp only [List.length_cons]
        omega
      rw [he]
      rfl

theorem spanP_stable {shA shB : List cand} : ∀ (f lo i : Nat),
    (∀ k, lo ≤ k → k ≤ i → (shB.getD k cdefault).c = (shA.getD k cdefault).c ∧
      (shB.getD k cdefault).il = (shA.getD k cdefault).il ∧
      (shB.getD k cdefault).ir = (shA.getD k cdefault).ir) →
    (∀ k, lo ≤ k → k < i → (shB.getD k cdefault).ip = (shA.getD k cdefault).ip) →
    i < shB.length →
    spanP shA f lo i → spanP shB f lo i := by
  intro f
  induction f with
  | zero =>
    intro lo i _ _ _ hP
    exact absurd hP (by rw [spanP]; exact not_false)
  | succ f ih =>
    intro lo i hE hip hlen hP
    rw [spanP] at hP ⊢
    obtain ⟨h1, h2, h3, h4⟩ := hP
    obtain ⟨hec, heil, heir⟩ := hE i h1 (le_refl i)
    refine ⟨h1, hlen, by rw [hec]; exact h3, ?_⟩
    rcases h4 with h4 | ⟨a, b, ha, hb, hla, hab, hbi, hpa, hpb, hsa, hsb⟩
    · exact Or.inl (by rw [heil]; exact h4)
    · refine Or.inr ⟨a, b, by rw [heil]; exact ha, by rw [heir]; exact hb, hla, hab, hbi,
        by rw [hip a hla (by omega)]; exact hpa, by rw [hip b (by omega) (by omega)]; exact hpb,
        ?_, ?_⟩
      · exact ih lo a (fun k hk1 hk2 => hE k hk1 (by omega))
          (fun k hk1 hk2 => hip k hk1 (by omega)) (by omega) hsa
      · exact ih (a + 1) b (fun k hk1 hk2 => hE k (by omega) (by omega))
          (fun k hk1 hk2 => hip k (by omega) (by omega)) (by omega) hsb


/-! ### Splitting the cells under a candidate between its two halves -/

/-- A valid cell strictly inside the dyadic range of `(2m+1)*2^k` lies
entirely in one half, and its value compares with the candidate's value
accordingly. -/
theorem cell_split {m k n j : Nat} (hk : 1 ≤ k)
    (hcU : (2 * m + 1) * 2 ^ k < U64) (hdU : (2 * n + 1) * 2 ^ j < U64)
    (hlo : m * 2 ^ k ≤ n * 2 ^ j) (hhi : (n + 1) * 2 ^ j ≤ (m + 1) * 2 ^ k)
    (hne : (2 * n + 1) * 2 ^ j ≠ (2 * m + 1) * 2 ^ k) :
    ((n + 1) * 2 ^ j ≤ m * 2 ^ k + 2 ^ (k - 1) ∧
      (2 * n + 1) * 2 ^ j < (2 * m + 1) * 2 ^ k) ∨
    (m * 2 ^ k + 2 ^ (k - 1) ≤ n * 2 ^ j ∧
      (2 * m + 1) * 2 ^ k < (2 * n + 1) * 2 ^ j) := by
  have e1 : (n + 1) * 2 ^ j = n * 2 ^ j + 2 ^ j := by ring
  have e2 : (m + 1) * 2 ^ k = m * 2 ^ k + 2 ^ k := by ring
  have e3 : (2 * n + 1) * 2 ^ j = 2 * (n * 2 ^ j) + 2 ^ j := by ring
  have e4 : (2 * m + 1) * 2 ^ k = 2 * (m * 2 ^ k) + 2 ^ k := by ring
  have hpj : 0 < (2 : Nat) ^ j := Nat.pos_pow_of_pos j (by norm_num)
  have hpk1 : 0 < (2 : Nat) ^ (k - 1) := Nat.pos_pow_of_pos (k - 1) (by norm_num)
  have hA : (2 : Nat) ^ j ≤ 2 ^ k := by omega
  have hjk : j ≤ k := by
    by_contra hcon
    push_neg at hcon
    have := Nat.pow_lt_pow_right (show 1 < 2 by norm_num) hcon
    omega
  rcases eq_or_lt_of_le hjk with hjke | hjkl
  · exfalso
    rw [hjke] at hlo hhi hne
    have hmn : m ≤ n := Nat.le_of_mul_le_mul_right hlo (Nat.pos_pow_of_pos k (by norm_num))
    have hnm : n + 1 ≤ m + 1 :=
      Nat.le_of_mul_le_mul_right hhi (Nat.pos_pow_of_pos k (by norm_num))
    have : n = m := by omega
    rw [this] at hne
    exact hne rfl
  · have et : (2 : Nat) ^ (k - 1) = 2 ^ (k - 1 - j) * 2 ^ j := by
      rw [← pow_add]
      congr 1
      omega
    have eB : (2 : Nat) ^ k = 2 ^ (k - 1) * 2 := (@Nat.pow_pred_mul 2 k (by omega)).symm
    have em : m * 2 ^ k + 2 ^ (k - 1) = (2 * m + 1) * 2 ^ (k - 1 - j) * 2 ^ j := by
      calc m * 2 ^ k + 2 ^ (k - 1) = (2 * m + 1) * 2 ^ (k - 1) := by rw [eB]; ring
      _ = (2 * m + 1) * 2 ^ (k - 1 - j) * 2 ^ j := by rw [et]; ring
    have key : (n + 1) ≤ (2 * m + 1) * 2 ^ (k - 1 - j) ∨
        (2 * m + 1) * 2 ^ (k - 1 - j) ≤ n := by omega
    rcases key with h | h
    · left
      have hmul : (n + 1) * 2 ^ j ≤ (2 * m + 1) * 2 ^ (k - 1 - j) * 2 ^ j :=
        Nat.mul_le_mul_right _ h
      constructor
      · omega
      · omega
    · right
      have hmul : (2 * m + 1) * 2 ^ (k - 1 - j) * 2 ^ j ≤ n * 2 ^ j :=
        Nat.mul_le_mul_right _ h
      constructor
      · omega
      · omega

/-- `search` splits the cells lying under candidate `(2m+1)*2^k` of a
canonical set exactly at the candidate's midpoint. -/
theorem shape_search_split {s : List Nat} (hv : ∀ c ∈ s, cvalid c)
    (hc : List.Chain' canonPair s) {i j m k : Nat} (hij2 : i + 1 < j)
    (hjs : j ≤ s.length) (hcU : (2 * m + 1) * 2 ^ k < U64)
    (hrange : ∀ p, i ≤ p → p < j → m * 2 ^ k ≤ cbegin (s.getD p 0) ∧
      cend (s.getD p 0) ≤ (m + 1) * 2 ^ k) :
    1 ≤ k ∧
    i ≤ search s i j ((2 * m + 1) * 2 ^ k) ∧
    search s i j ((2 * m + 1) * 2 ^ k) ≤ j ∧
    (∀ p, i ≤ p → p < search s i j ((2 * m + 1) * 2 ^ k) →
      m * 2 ^ k ≤ cbegin (s.getD p 0) ∧
      cend (s.getD p 0) ≤ m * 2 ^ k + 2 ^ (k - 1)) ∧
    (∀ p, search s i j ((2 * m + 1) * 2 ^ k) ≤ p → p < j →
      m * 2 ^ k + 2 ^ (k - 1) ≤ cbegin (s.getD p 0) ∧
      cend (s.getD p 0) ≤ (m + 1) * 2 ^ k) := by
  have hvp : ∀ p, i ≤ p → p < j → cvalid (s.getD p 0) := by
    intro p _ hp
    exact hv _ (mem_getD_of_lt (by omega))
  have hbl : ∀ p, i ≤ p → p < j → cbegin (s.getD p 0) < cend (s.getD p 0) := by
    intro p h1 h2
    exact cvalid_begin_lt_end (hvp p h1 h2)
  have hne : ∀ p, i ≤ p → p < j → s.getD p 0 ≠ (2 * m + 1) * 2 ^ k := by
    intro p hp1 hp2 heq
    have hbe : cbegin (s.getD p 0) = m * 2 ^ k ∧ cend (s.getD p 0) = (m + 1) * 2 ^ k := by
      rw [heq, cbegin_form hcU, cend_form hcU]
      exact ⟨rfl, rfl⟩
    by_cases hpi : p = i
    · have hsep := canonical_sep_getD hv hc i (i + 1) (by omega) (by omega)
      have hr := hrange (i + 1) (by omega) (by omega)
      have hb := hbl (i + 1) (by omega) (by omega)
      rw [hpi] at hbe
      omega
    · have hsep := canonical_sep_getD hv hc i p (by omega) (by omega)
      have hr := hrange i (by omega) (by omega)
      have hb := hbl i (by omega) (by omega)
      omega
  have hk1 : 1 ≤ k := by
    by_contra hcon
    have hk0 : k = 0 := by omega
    have h1 := hrange i (by omega) (by omega)
    have h2 := hrange (i + 1) (by omega) (by omega)
    have h3 := hbl i (by omega) (by omega)
    have h4 := hbl (i + 1) (by omega) (by omega)
    have hsep := canonical_sep_getD hv hc i (i + 1) (by omega) (by omega)
    rw [hk0, pow_zero] at h1 h2
    omega
  have hmono : ∀ p q, p < q → q < s.length → s.getD p 0 < s.getD q 0 :=
    canonical_mono_getD hv hc
  obtain ⟨b1, b2, b3, b4⟩ := searchF_spec (j - i) s ((2 * m + 1) * 2 ^ k) i j hjs
    (by omega) (le_refl _) hmono
  have hse : search s i j ((2 * m + 1) * 2 ^ k) =
      searchF (j - i) s i j ((2 * m + 1) * 2 ^ k) := rfl
  rw [hse]
  have hsplit : ∀ p, i ≤ p → p < j →
      ((cend (s.getD p 0) ≤ m * 2 ^ k + 2 ^ (k - 1) ∧
        s.getD p 0 < (2 * m + 1) * 2 ^ k) ∨
       (m * 2 ^ k + 2 ^ (k - 1) ≤ cbegin (s.getD p 0) ∧
        (2 * m + 1) * 2 ^ k < s.getD p 0)) := by
    intro p h1 h2
    obtain ⟨nn, jj, hform⟩ := form_exists (hvp p h1 h2).1
    have hdU : (2 * nn + 1) * 2 ^ jj < U64 := hform ▸ (hvp p h1 h2).2
    have hr := hrange p h1 h2
    rw [hform, cbegin_form hdU, cend_form hdU] at hr ⊢
    have hnef : (2 * nn + 1) * 2 ^ jj ≠ (2 * m + 1) * 2 ^ k := hform ▸ hne p h1 h2
    rcases cell_split hk1 hcU hdU hr.1 hr.2 hnef with ⟨hx, hy⟩ | ⟨hx, hy⟩
    · exact Or.inl ⟨hx, hform ▸ hy⟩
    · exact Or.inr ⟨hx, hform ▸ hy⟩
  refine ⟨hk1, b1, b2, ?_, ?_⟩
  · intro p h1 h2
    have hlt := b3 p h1 h2
    have hr := hrange p h1 (by omega)
    rcases hsplit p h1 (by omega) with ⟨hx, _⟩ | ⟨_, hy⟩
    · exact ⟨hr.1, hx⟩
    · omega
  · intro p h1 h2
    have hge := b4 p h1 h2
    have hr := hrange p (by omega) h2
    rcases hsplit p (by omega) h2 with ⟨_, hy⟩ | ⟨hx, _⟩
    · exfalso
      have := hne p (by omega) h2
      omega
    · exact ⟨hx, hr.2⟩


/-! ### Building blocks of the `shape` arena -/

/-- Local wellformedness of the arena nodes appended by one `shape`
call: every node in `[base, len)` is live; every internal one has
ordered in-block children with back-pointers; every set parent pointer
designates a later in-block internal node listing it as a child. -/
def blockOK (res : List cand) (base : Nat) : Prop :=
  (∀ q, base ≤ q → q < res.length → (res.getD q cdefault).c ≠ 0) ∧
  (∀ q, base ≤ q → q < res.length → isLeaf (res.getD q cdefault) = false →
    ∃ a b : Nat, (res.getD q cdefault).il = (a : Int) ∧
      (res.getD q cdefault).ir = (b : Int) ∧ base ≤ a ∧ a < b ∧ b < q ∧
      (res.getD a cdefault).ip = (q : Int) ∧ (res.getD b cdefault).ip = (q : Int)) ∧
  (∀ q, base ≤ q → q < res.length → (res.getD q cdefault).ip ≠ -1 →
    ∃ p : Nat, (res.getD q cdefault).ip = (p : Int) ∧ q < p ∧ p < res.length ∧
      isLeaf (res.getD p cdefault) = false ∧
      ((res.getD p cdefault).il = (q : Int) ∨ (res.getD p cdefault).ir = (q : Int)))

theorem natCast_beq_neg_one (a : Nat) : (((a : Int)) == -1) = false := by
  rw [beq_eq_false_iff_ne]
  omega

theorem getDc_append_self (l : List cand) (v : cand) :
    (l ++ [v]).getD l.length cdefault = v := by
  rw [List.getD_append_right _ _ _ _ (le_refl _)]
  simp

/-- What `blockOK`, `spanP` and entry preservation look like for a
single appended leaf. -/
theorem shape_leaf_block (sh0 : List cand) (v : cand) (hc : v.c ≠ 0)
    (hleaf : v.il = -1) (hip : v.ip = -1) :
    blockOK (sh0 ++ [v]) sh0.length ∧
    spanP (sh0 ++ [v]) 1 sh0.length ((sh0 ++ [v]).length - 1) ∧
    (∀ q, q < sh0.length → (sh0 ++ [v]).getD q cdefault = sh0.getD q cdefault) := by
  have hlen : (sh0 ++ [v]).length = sh0.length + 1 := by simp
  have hself : (sh0 ++ [v]).getD sh0.length cdefault = v := getDc_append_self sh0 v
  have hql : ∀ q, sh0.length ≤ q → q < (sh0 ++ [v]).length → q = sh0.length := by
    intro q h1 h2
    omega
  refine ⟨⟨?_, ?_, ?_⟩, ?_, ?_⟩
  · intro q h1 h2
    rw [hql q h1 h2, hself]
    exact hc
  · intro q h1 h2 hlf
    exfalso
    rw [hql q h1 h2, hself] at hlf
    unfold isLeaf at hlf
    rw [hleaf] at hlf
    simp at hlf
  · intro q h1 h2 hipq
    exfalso
    rw [hql q h1 h2, hself] at hipq
    exact hipq hip
  · show spanP (sh0 ++ [v]) (0 + 1) sh0.length ((sh0 ++ [v]).length - 1)
    rw [spanP, hlen]
    have hsimp : sh0.length + 1 - 1 = sh0.length := by omega
    rw [hsimp, hself]
    exact ⟨le_refl _, by omega, hc, Or.inl hleaf⟩
  · intro q hq
    rw [List.getD_append _ _ _ _ hq]

/-- What the invariants look like after the combining step of `shape`:
the two sub-blocks get their roots' parent pointers set and the parent
node is appended. -/
theorem shape_combine (sh0 blkL blkR : List cand) (hLne : blkL ≠ []) (hRne : blkR ≠ [])
    (hBOKL : blockOK (sh0 ++ blkL) sh0.length)
    (hBOKR : blockOK ((sh0 ++ blkL) ++ blkR) (sh0 ++ blkL).length)
    (hSpL : spanP (sh0 ++ blkL) blkL.length sh0.length ((sh0 ++ blkL).length - 1))
    (hSpR : spanP ((sh0 ++ blkL) ++ blkR) blkR.length (sh0 ++ blkL).length
      (((sh0 ++ blkL) ++ blkR).length - 1))
    (hpres : ∀ q, q < (sh0 ++ blkL).length →
      ((sh0 ++ blkL) ++ blkR).getD q cdefault = (sh0 ++ blkL).getD q cdefault)
    (c w gg : Nat) (hcne : c ≠ 0) :
    ∃ blkN, ((((sh0 ++ blkL) ++ blkR).set ((sh0 ++ blkL).length - 1)
        { ((sh0 ++ blkL) ++ blkR).getD ((sh0 ++ blkL).length - 1) cdefault with
          ip := (((sh0 ++ blkL) ++ blkR).length : Int), g := gg }).set
        (((sh0 ++ blkL) ++ blkR).length - 1)
        { ((sh0 ++ blkL) ++ blkR).getD (((sh0 ++ blkL) ++ blkR).length - 1) cdefault with
          ip := (((sh0 ++ blkL) ++ blkR).length : Int), g := gg } ++
        [⟨c, w, ((sh0 ++ blkL).length : Int) - 1, (((sh0 ++ blkL) ++ blkR).length : Int) - 1,
          -1, 0⟩]) = sh0 ++ blkN ∧
      blkN ≠ [] ∧ blkN.length = blkL.length + blkR.length + 1 ∧
      blockOK (sh0 ++ blkN) sh0.length ∧
      spanP (sh0 ++ blkN) (blkL.length + blkR.length + 1) sh0.length
        ((sh0 ++ blkN).length - 1) ∧
      (∀ q, q < sh0.length → (sh0 ++ blkN).getD q cdefault = sh0.getD q cdefault) := by
  have hLpos : 0 < blkL.length := List.length_pos.mpr hLne
  have hRpos : 0 < blkR.length := List.length_pos.mpr hRne
  set X := (sh0 ++ blkL) ++ blkR with hXdef
  set LA := (sh0 ++ blkL).length with hLAdef
  set LX := X.length with hLXdef
  have hLA : LA = sh0.length + blkL.length := by simp [hLAdef]
  have hLX : LX = sh0.length + blkL.length + blkR.length := by
    simp [hLXdef, hXdef, hLAdef]
    omega
  set iA := LA - 1 with hiAdef
  set iB := LX - 1 with hiBdef
  set vA : cand := { X.getD iA cdefault with ip := (LX : Int), g := gg } with hvAdef
  set vB : cand := { X.getD iB cdefault with ip := (LX : Int), g := gg } with hvBdef
  set nn : cand := ⟨c, w, (LA : Int) - 1, (LX : Int) - 1, -1, 0⟩ with hnndef
  set Y := (X.set iA vA).set iB vB with hYdef
  have hYlen : Y.length = LX := by simp [hYdef, hLXdef]
  set F := Y ++ [nn] with hFdef
  have hFlen : F.length = LX + 1 := by simp [hFdef, hYlen]
  -- entry computations
  have hiAB : iA < iB := by omega
  have hEA : F.getD iA cdefault = vA := by
    rw [hFdef, List.getD_append _ _ _ _ (by rw [hYlen]; omega), hYdef,
      getD_set_ne _ _ (by omega), getD_set_self _ _ (by omega)]
  have hEB : F.getD iB cdefault = vB := by
    rw [hFdef, List.getD_append _ _ _ _ (by rw [hYlen]; omega), hYdef,
      getD_set_self _ _ (by simp; omega)]
  have hEN : F.getD LX cdefault = nn := by
    have h1 : F.getD Y.length cdefault = nn := getDc_append_self Y nn
    rw [hYlen] at h1
    exact h1
  have hEO : ∀ q, q < LX → q ≠ iA → q ≠ iB → F.getD q cdefault = X.getD q cdefault := by
    intro q h1 h2 h3
    rw [hFdef, List.getD_append _ _ _ _ (by rw [hYlen]; omega), hYdef,
      getD_set_ne _ _ (fun hh => h3 hh.symm), getD_set_ne _ _ (fun hh => h2 hh.symm)]
  have hnnil : nn.il = (iA : Int) := by
    rw [hnndef]
    show (LA : Int) - 1 = (iA : Int)
    omega
  have hnnir : nn.ir = (iB : Int) := by
    rw [hnndef]
    show (LX : Int) - 1 = (iB : Int)
    omega
  -- the result is sh0 ++ blkN
  have hXs : X = sh0 ++ (blkL ++ blkR) := by rw [hXdef, List.append_assoc]
  have hset1 : X.set iA vA = sh0 ++ (blkL ++ blkR).set (iA - sh0.length) vA := by
    rw [hXs, set_append_right _ _ _ _ (by omega)]
  have hset2 : Y = sh0 ++ ((blkL ++ blkR).set (iA - sh0.length) vA).set
      (iB - sh0.length) vB := by
    rw [hYdef, hset1, set_append_right _ _ _ _ (by omega)]
  refine ⟨((blkL ++ blkR).set (iA - sh0.length) vA).set (iB - sh0.length) vB ++ [nn],
    ?_, by simp, by simp, ?_, ?_, ?_⟩
  · rw [hFdef, hset2, List.append_assoc]
  · -- blockOK
    have hFeq : sh0 ++ (((blkL ++ blkR).set (iA - sh0.length) vA).set
        (iB - sh0.length) vB ++ [nn]) = F := by
      rw [hFdef, hset2, List.append_assoc]
    rw [hFeq]
    obtain ⟨hL1, hL2, hL3⟩ := hBOKL
    obtain ⟨hR1, hR2, hR3⟩ := hBOKR
    -- transported liveness of X entries in the block range
    have hX1 : ∀ q, sh0.length ≤ q → q < LX → (X.getD q cdefault).c ≠ 0 := by
      intro q h1 h2
      by_cases hq : q < LA
      · rw [hpres q hq]
        exact hL1 q h1 hq
      · exact hR1 q (by omega) (by omega)
    have hF1 : ∀ q, sh0.length ≤ q → q < LX + 1 → (F.getD q cdefault).c ≠ 0 := by
      intro q h1 h2
      by_cases hqN : q = LX
      · rw [hqN, hEN]
        exact hcne
      · by_cases hqA : q = iA
        · rw [hqA, hEA, hvAdef]
          exact hX1 iA (by omega) (by omega)
        · by_cases hqB : q = iB
          · rw [hqB, hEB, hvBdef]
            exact hX1 iB (by omega) (by omega)
          · rw [hEO q (by omega) hqA hqB]
            exact hX1 q h1 (by omega)
    refine ⟨fun q h1 h2 => hF1 q h1 (by rw [hFlen] at h2; omega), ?_, ?_⟩
    · -- internal nodes
      intro q h1 h2 hlf
      rw [hFlen] at h2
      by_cases hqN : q = LX
      · refine ⟨iA, iB, ?_, ?_, by omega, hiAB, by omega, ?_, ?_⟩
        · rw [hqN, hEN, hnnil]
        · rw [hqN, hEN, hnnir]
        · rw [hEA, hvAdef, hqN]
        · rw [hEB, hvBdef, hqN]
      · -- q < LX: old node, entry has same il/ir
        have hqLX : q < LX := by omega
        have hsame : (F.getD q cdefault).il = (X.getD q cdefault).il ∧
            (F.getD q cdefault).ir = (X.getD q cdefault).ir := by
          by_cases hqA : q = iA
          · rw [hqA, hEA, hvAdef]
            exact ⟨rfl, rfl⟩
          · by_cases hqB : q = iB
            · rw [hqB, hEB, hvBdef]
              exact ⟨rfl, rfl⟩
            · rw [hEO q hqLX hqA hqB]
              exact ⟨rfl, rfl⟩
        have hlfX : isLeaf (X.getD q cdefault) = false := by
          unfold isLeaf at hlf ⊢
          rw [← hsame.1]
          exact hlf
        -- children facts from the sub-blocks
        have hch : ∃ a b : Nat, (X.getD q cdefault).il = (a : Int) ∧
            (X.getD q cdefault).ir = (b : Int) ∧ sh0.length ≤ a ∧ a < b ∧ b < q ∧
            (X.getD a cdefault).ip = (q : Int) ∧ (X.getD b cdefault).ip = (q : Int) := by
          by_cases hq : q < LA
          · have hlfL : isLeaf ((sh0 ++ blkL).getD q cdefault) = false := by
              rw [← hpres q hq]
              exact hlfX
            obtain ⟨a, b, u1, u2, u3, u4, u5, u6, u7⟩ := hL2 q h1 hq hlfL
            exact ⟨a, b, by rw [hpres q hq]; exact u1, by rw [hpres q hq]; exact u2,
              u3, u4, u5, by rw [hpres a (by omega)]; exact u6,
              by rw [hpres b (by omega)]; exact u7⟩
          · obtain ⟨a, b, u1, u2, u3, u4, u5, u6, u7⟩ := hR2 q (by omega) (by omega) hlfX
            exact ⟨a, b, u1, u2, by omega, u4, u5, u6, u7⟩
        obtain ⟨a, b, u1, u2, u3, u4, u5, u6, u7⟩ := hch
        -- child entries keep their ip unless the child is a sub-root
        have hipm : ∀ x : Nat, x < q → (X.getD x cdefault).ip = (q : Int) →
            (F.getD x cdefault).ip = (q : Int) := by
          intro x hx hxip
          by_cases hxA : x = iA
          · -- iA's parent would be q with iA < q < LX; but the only node above iA
            -- inside the left block is none: contradiction unless q is in the right
            -- block; the left root's old parent pointer is whatever the left block
            -- says, but hR2/hL2 gave us x < q so q > iA means q is in blkR or q = iB;
            -- either way the entry was overwritten, so derive from hxip directly.
            rw [hxA, hEA, hvAdef]
            -- vA.ip = LX ≠ q since q < LX + 1 and q ≠ LX... need q = LX: contradiction
            -- with hqN. So this case must be impossible: show False from hxip.
            exfalso
            -- x = iA is a child of q, q < LX. If q < LA: the left block's B3 at iA?
            -- We know from hL2/hR2-derived u-facts that children have back-pointers;
            -- here x = iA has (X.getD iA).ip = q. The left block's root iA has,
            -- inside sh0 ++ blkL, some ip value; hpres moves it to X. But B3 of the
            -- left block applied at iA says: if that ip ≠ -1 then its parent is
            -- inside the left block and LARGER than iA, impossible since iA is the
            -- left block's last index. Hence ip = -1, contradicting hxip.
            have hiAlt : iA < LA := by omega
            have hipX : (X.getD iA cdefault).ip = ((sh0 ++ blkL).getD iA cdefault).ip := by
              rw [hpres iA hiAlt]
            by_cases hipz : ((sh0 ++ blkL).getD iA cdefault).ip = -1
            · rw [hxA, hipX, hipz] at hxip
              omega
            · obtain ⟨p, w1, w2, w3, w4, w5⟩ := hL3 iA (by omega) hiAlt hipz
              omega
          · by_cases hxB : x = iB
            · exfalso
              have hib1 : (sh0 ++ blkL).length ≤ iB := by omega
              by_cases hipz : (X.getD iB cdefault).ip = -1
              · rw [hxB, hipz] at hxip
                omega
              · obtain ⟨p, w1, w2, w3, w4, w5⟩ := hR3 iB hib1 (by omega) hipz
                omega
            · rw [hEO x (by omega) hxA hxB]
              exact hxip
        refine ⟨a, b, by rw [hsame.1]; exact u1, by rw [hsame.2]; exact u2, u3, u4, u5,
          hipm a (by omega) u6, hipm b (by omega) u7⟩
    · -- parent pointers
      intro q h1 h2 hipq
      rw [hFlen] at h2
      by_cases hqN : q = LX
      · exfalso
        rw [hqN, hEN] at hipq
        exact hipq rfl
      · by_cases hqA : q = iA
        · refine ⟨LX, ?_, by omega, by omega, ?_, ?_⟩
          · rw [hqA, hEA, hvAdef]
          · rw [hEN]
            unfold isLeaf
            rw [hnnil, natCast_beq_neg_one]
          · exact Or.inl (by rw [hEN, hnnil, hqA])
        · by_cases hqB : q = iB
          · refine ⟨LX, ?_, by omega, by omega, ?_, ?_⟩
            · rw [hqB, hEB, hvBdef]
            · rw [hEN]
              unfold isLeaf
              rw [hnnil, natCast_beq_neg_one]
            · exact Or.inr (by rw [hEN, hnnir, hqB])
          · have hqLX : q < LX := by omega
            have hsameip : (F.getD q cdefault).ip = (X.getD q cdefault).ip := by
              rw [hEO q hqLX hqA hqB]
            rw [hsameip] at hipq
            have hfacts : ∃ p : Nat, (X.getD q cdefault).ip = (p : Int) ∧ q < p ∧
                p < LX ∧ isLeaf (X.getD p cdefault) = false ∧
                ((X.getD p cdefault).il = (q : Int) ∨ (X.getD p cdefault).ir = (q : Int)) := by
              by_cases hq : q < LA
              · have hipL : (X.getD q cdefault).ip = ((sh0 ++ blkL).getD q cdefault).ip := by
                  rw [hpres q hq]
                rw [hipL] at hipq ⊢
                obtain ⟨p, w1, w2, w3, w4, w5⟩ := hL3 q h1 hq hipq
                refine ⟨p, w1, w2, by omega, ?_, ?_⟩
                · unfold isLeaf at w4 ⊢
                  rw [hpres p (by omega)]
                  exact w4
                · rw [hpres p (by omega)]
                  exact w5
              · obtain ⟨p, w1, w2, w3, w4, w5⟩ := hR3 q (by omega) (by omega) hipq
                exact ⟨p, w1, w2, by omega, w4, w5⟩
            obtain ⟨p, w1, w2, w3, w4, w5⟩ := hfacts
            refine ⟨p, by rw [hsameip]; exact w1, w2, by omega, ?_, ?_⟩
            · -- p's leaf-ness in F
              by_cases hpA : p = iA
              · unfold isLeaf at w4 ⊢
                rw [hpA, hEA, hvAdef]
                rw [hpA] at w4
                exact w4
              · by_cases hpB : p = iB
                · unfold isLeaf at w4 ⊢
                  rw [hpB, hEB, hvBdef]
                  rw [hpB] at w4
                  exact w4
                · unfold isLeaf at w4 ⊢
                  rw [hEO p w3 hpA hpB]
                  exact w4
            · by_cases hpA : p = iA
              · rw [hpA, hEA, hvAdef]
                rw [hpA] at w5
                exact w5
              · by_cases hpB : p = iB
                · rw [hpB, hEB, hvBdef]
                  rw [hpB] at w5
                  exact w5
                · rw [hEO p w3 hpA hpB]
                  exact w5
  · -- spanP
    have hFeq : sh0 ++ (((blkL ++ blkR).set (iA - sh0.length) vA).set
        (iB - sh0.length) vB ++ [nn]) = F := by
      rw [hFdef, hset2, List.append_assoc]
    rw [hFeq, hFlen]
    have hroot : LX + 1 - 1 = LX := by omega
    rw [hroot]
    show spanP F ((blkL.length + blkR.length) + 1) sh0.length LX
    rw [spanP]
    have hSpLF : spanP F blkL.length sh0.length iA := by
      refine spanP_stable blkL.length sh0.length iA ?_ ?_ (by rw [hFlen]; omega) hSpL
      · intro x h1 h2
        by_cases hxA : x = iA
        · rw [hxA, hEA, hvAdef, hpres iA (by omega)]
          exact ⟨rfl, rfl, rfl⟩
        · rw [hEO x (by omega) hxA (by omega), hpres x (by omega)]
          exact ⟨rfl, rfl, rfl⟩
      · intro x h1 h2
        rw [hEO x (by omega) (by omega) (by omega), hpres x (by omega)]
    have hSpRF : spanP F blkR.length (iA + 1) iB := by
      have hiA1 : LA = iA + 1 := by omega
      rw [hiA1] at hSpR
      refine spanP_stable blkR.length (iA + 1) iB ?_ ?_ (by rw [hFlen]; omega) hSpR
      · intro x h1 h2
        by_cases hxB : x = iB
        · rw [hxB, hEB, hvBdef]
          exact ⟨rfl, rfl, rfl⟩
        · rw [hEO x (by omega) (by omega) hxB]
          exact ⟨rfl, rfl, rfl⟩
      · intro x h1 h2
        rw [hEO x (by omega) (by omega) (by omega)]
    refine ⟨by omega, by rw [hFlen]; omega, by rw [hEN]; exact hcne,
      Or.inr ⟨iA, iB, ?_, ?_, by omega, hiAB, by omega, ?_, ?_, ?_, ?_⟩⟩
    · rw [hEN, hnnil]
    · rw [hEN, hnnir]
    · rw [hEA, hvAdef]
    · rw [hEB, hvBdef]
    · exact spanP_mono F sh0.length iA (by omega) hSpLF
    · exact spanP_mono F (iA + 1) iB (by omega) hSpRF
  · -- prefix preservation
    intro q hq
    have hFeq : sh0 ++ (((blkL ++ blkR).set (iA - sh0.length) vA).set
        (iB - sh0.length) vB ++ [nn]) = F := by
      rw [hFdef, hset2, List.append_assoc]
    rw [hFeq, hEO q (by omega) (by omega) (by omega), hpres q (by omega),
      List.getD_append _ _ _ _ (by omega)]


/-- Main construction lemma: one `shape` call appends a wellformed
block whose weight is the exact count of the covered slice. -/
theorem shape_wf {s : List Nat} (hv : ∀ c ∈ s, cvalid c) (hch : List.Chain' canonPair s)
    (hCEU : CountExact s < U64) :
    ∀ (fuel i j m k g : Nat) (sh0 : List cand),
    i ≤ j → j ≤ s.length → (2 * m + 1) * 2 ^ k < U64 → k < fuel →
    (∀ p, i ≤ p → p < j → m * 2 ^ k ≤ cbegin (s.getD p 0) ∧
      cend (s.getD p 0) ≤ (m + 1) * 2 ^ k) →
    ∃ blk, (shape s fuel i j ((2 * m + 1) * 2 ^ k) g sh0).1 = sh0 ++ blk ∧
      (shape s fuel i j ((2 * m + 1) * 2 ^ k) g sh0).2 =
        CountExact ((s.drop i).take (j - i)) ∧
      (∀ q, q < sh0.length →
        (shape s fuel i j ((2 * m + 1) * 2 ^ k) g sh0).1.getD q cdefault =
          sh0.getD q cdefault) ∧
      (i = j → blk = []) ∧
      (i < j → blk ≠ [] ∧
        blockOK (shape s fuel i j ((2 * m + 1) * 2 ^ k) g sh0).1 sh0.length ∧
        spanP (shape s fuel i j ((2 * m + 1) * 2 ^ k) g sh0).1 blk.length sh0.length
          ((shape s fuel i j ((2 * m + 1) * 2 ^ k) g sh0).1.length - 1)) := by
  intro fuel
  induction fuel with
  | zero =>
    intro i j m k g sh0 _ _ _ hk _
    omega
  | succ fuel ih =>
    intro i j m k g sh0 hij hjs hU hkf hrange
    have hsvalid : ∀ p, p < s.length → cvalid (s.getD p 0) := by
      intro p hp
      exact hv _ (mem_getD_of_lt hp)
    by_cases hije : i = j
    · -- empty slice
      have hc1 : (i == j) = true := by simp [hije]
      rw [shape, if_pos hc1]
      refine ⟨[], by simp, ?_, by intro q _; rfl, fun _ => rfl, by omega⟩
      show 0 = CountExact ((s.drop i).take (j - i))
      rw [show j - i = 0 by omega]
      rfl
    · have hc1 : ¬ ((i == j) = true) := by simpa using hije
      have hijlt : i < j := by omega
      have hslice : CountExact ((s.drop i).take (j - i)) < U64 :=
        lt_of_le_of_lt (countExact_slice_le s i j) hCEU
      by_cases hgr : lsb ((2 * m + 1) * 2 ^ k) < g * 2 % U64
      · -- count leaf
        rw [shape, if_neg hc1, if_pos hgr]
        simp only []
        have hw : Count ((s.drop i).take (j - i)) = CountExact ((s.drop i).take (j - i)) :=
          Count_eq_CountExact hslice
        obtain ⟨hB, hS, hP⟩ := shape_leaf_block sh0
          ⟨(2 * m + 1) * 2 ^ k, Count ((s.drop i).take (j - i)), -1, -1, -1, 0⟩
          (by positivity) rfl rfl
        refine ⟨[⟨(2 * m + 1) * 2 ^ k, Count ((s.drop i).take (j - i)), -1, -1, -1, 0⟩],
          rfl, hw, hP, by intro hh; omega, fun _ => ⟨by simp, hB, hS⟩⟩
      · by_cases hsing : i + 1 = j
        · -- single-cell leaf
          have hc3 : (i + 1 == j) = true := by simp [hsing]
          rw [shape, if_neg hc1, if_neg hgr, if_pos hc3]
          simp only []
          have hilen : i < s.length := by omega
          have hcc : promote 64 (s.getD i 0) g ≠ 0 :=
            promote_ne_zero 64 _ g (by have := (hsvalid i hilen).1; omega)
          have hwv : lsb (s.getD i 0) = CountExact ((s.drop i).take (j - i)) := by
            rw [show j - i = 1 by omega, slice_one s i hilen]
            show _ = List.foldl (fun n v => n + lsb v) 0 [s.getD i 0]
            show lsb (s.getD i 0) = 0 + lsb (s.getD i 0)
            omega
          obtain ⟨hB, hS, hP⟩ := shape_leaf_block sh0
            ⟨promote 64 (s.getD i 0) g, lsb (s.getD i 0), -1, -1, -1, 0⟩ hcc rfl rfl
          refine ⟨[⟨promote 64 (s.getD i 0) g, lsb (s.getD i 0), -1, -1, -1, 0⟩],
            rfl, hwv, hP, by intro hh; omega, fun _ => ⟨by simp, hB, hS⟩⟩
        · -- internal
          have hc3 : ¬ ((i + 1 == j) = true) := by simpa using hsing
          have hij2 : i + 1 < j := by omega
          obtain ⟨hk1, b1, b2, hrgL, hrgR⟩ :=
            shape_search_split hv hch hij2 hjs hU hrange
          rw [shape, if_neg hc1, if_neg hgr, if_neg hc3]
          simp only []
          obtain ⟨hclf, hcrf⟩ := children_form hk1 hU
          rw [hclf, hcrf]
          set mm := search s i j ((2 * m + 1) * 2 ^ k) with hmm
          -- bounds for the children
          have hpk1 : 0 < (2 : Nat) ^ (k - 1) := Nat.pos_pow_of_pos (k - 1) (by norm_num)
          have heB : (2 : Nat) ^ k = 2 ^ (k - 1) * 2 := (@Nat.pow_pred_mul 2 k (by omega)).symm
          have hclU : (2 * (2 * m) + 1) * 2 ^ (k - 1) < U64 := by
            have : (2 * (2 * m) + 1) * 2 ^ (k - 1) < (2 * m + 1) * 2 ^ k := by
              rw [heB]
              nlinarith
            omega
          have hm64 : 2 * m + 1 < 2 ^ (64 - k) := form_m_lt hU
          have hcrU : (2 * (2 * m + 1) + 1) * 2 ^ (k - 1) < U64 := by
            have h64 : (2 : Nat) ^ (65 - k) * 2 ^ (k - 1) = 2 ^ 64 := by
              rw [← pow_add]
              congr 1
              have := form_k_lt hU
              omega
            have hpe : (2 : Nat) ^ (65 - k) = 2 * 2 ^ (64 - k) := by
              rw [show 65 - k = (64 - k) + 1 by have := form_k_lt hU; omega, pow_succ]
              ring
            have hlt : (2 * (2 * m + 1) + 1) * 2 ^ (k - 1) < 2 ^ (65 - k) * 2 ^ (k - 1) :=
              (Nat.mul_lt_mul_right hpk1).mpr (by omega)
            rw [U64_eq]
            omega
          -- the two sub-calls
          obtain ⟨blkL, hL1, hL2, hL3, hL4, hL5⟩ := ih i mm (2 * m) (k - 1) g sh0
            b1 (by omega) hclU (by omega) (by
              intro p h1 h2
              have := hrgL p h1 h2
              constructor
              · have he : 2 * m * 2 ^ (k - 1) = m * 2 ^ k := by rw [heB]; ring
                omega
              · have he : (2 * m + 1) * 2 ^ (k - 1) = m * 2 ^ k + 2 ^ (k - 1) := by
                  rw [heB]; ring
                omega)
          rw [hL1]
          obtain ⟨blkR, hR1, hR2, hR3, hR4, hR5⟩ := ih mm j (2 * m + 1) (k - 1) g
            (sh0 ++ blkL) b2 hjs hcrU (by omega) (by
              intro p h1 h2
              have := hrgR p h1 h2
              constructor
              · have he : (2 * m + 1) * 2 ^ (k - 1) = m * 2 ^ k + 2 ^ (k - 1) := by
                  rw [heB]; ring
                omega
              · have he : (2 * m + 1 + 1) * 2 ^ (k - 1) = (m + 1) * 2 ^ k := by
                  rw [heB]; ring
                omega)
          rw [hR1, hL2, hR2]
          -- relate emptiness of the two slices with the split position
          have hsliceeq : (s.drop i).take (j - i) =
              (s.drop i).take (mm - i) ++ (s.drop mm).take (j - mm) :=
            slice_split s i mm j b1 b2
          have hCEsum : CountExact ((s.drop i).take (j - i)) =
              CountExact ((s.drop i).take (mm - i)) +
              CountExact ((s.drop mm).take (j - mm)) := by
            rw [hsliceeq, countExact_append]
          have hLz : i = mm → CountExact ((s.drop i).take (mm - i)) = 0 := by
            intro hh
            rw [show mm - i = 0 by omega]
            rfl
          have hLnz : i < mm → CountExact ((s.drop i).take (mm - i)) ≠ 0 := by
            intro hh
            have hne : (s.drop i).take (mm - i) ≠ [] := by
              have := slice_length s i mm (by omega) (by omega)
              intro hnil
              rw [hnil] at this
              simp at this
              omega
            exact Nat.pos_iff_ne_zero.mp (countExact_pos
              (fun d hd => hv d (slice_mem hd)) hne)
          have hRz : mm = j → CountExact ((s.drop mm).take (j - mm)) = 0 := by
            intro hh
            rw [show j - mm = 0 by omega]
            rfl
          have hRnz : mm < j → CountExact ((s.drop mm).take (j - mm)) ≠ 0 := by
            intro hh
            have hne : (s.drop mm).take (j - mm) ≠ [] := by
              have := slice_length s mm j (by omega) (by omega)
              intro hnil
              rw [hnil] at this
              simp at this
              omega
            exact Nat.pos_iff_ne_zero.mp (countExact_pos
              (fun d hd => hv d (slice_mem hd)) hne)
          by_cases him : i = mm
          · -- left slice empty
            have hz : CountExact ((s.drop i).take (mm - i)) = 0 := hLz him
            rw [if_neg (by rw [hz]; simp)]
            have hblkL : blkL = [] := hL4 him
            subst hblkL
            have hmmj : mm < j := by omega
            obtain ⟨hRne, hRB, hRS⟩ := hR5 hmmj
            rw [List.append_nil] at hR1 hR3 hRB hRS ⊢
            rw [hR1] at hR3 hRB hRS
            refine ⟨blkR, ?_, ?_, ?_, by intro hh; omega, fun _ => ⟨hRne, ?_, ?_⟩⟩
            · rfl
            · show (CountExact ((s.drop i).take (mm - i)) +
                  CountExact ((s.drop mm).take (j - mm))) % U64 = _
              rw [hz, hCEsum, hz]
              have hle : CountExact ((s.drop mm).take (j - mm)) < U64 := by omega
              simp [Nat.mod_eq_of_lt hle]
            · exact hR3
            · exact hRB
            · exact hRS
          · have him : i < mm := by omega
            by_cases hmj : mm = j
            · -- right slice empty
              have hz : CountExact ((s.drop mm).take (j - mm)) = 0 := hRz hmj
              rw [if_neg (by rw [hz]; simp)]
              have hblkR : blkR = [] := hR4 hmj
              subst hblkR
              obtain ⟨hLne, hLB, hLS⟩ := hL5 him
              rw [List.append_nil]
              rw [hL1] at hL3 hLB hLS
              refine ⟨blkL, rfl, ?_, hL3, by intro hh; omega, fun _ => ⟨hLne, hLB, hLS⟩⟩
              show (CountExact ((s.drop i).take (mm - i)) +
                  CountExact ((s.drop mm).take (j - mm))) % U64 = _
              rw [hz, hCEsum, hz]
              have hle : CountExact ((s.drop i).take (mm - i)) < U64 := by omega
              simp [Nat.mod_eq_of_lt hle]
            · -- both nonempty: combine
              have hmmj : mm < j := by omega
              have hnl := hLnz him
              have hnr := hRnz hmmj
              rw [if_pos ⟨hnl, hnr⟩]
              simp only []
              obtain ⟨hLne, hLB, hLS⟩ := hL5 him
              obtain ⟨hRne, hRB, hRS⟩ := hR5 hmmj
              rw [hL1] at hLB hLS
              rw [hR1] at hRB hRS hR3
              have hLpos : 0 < (sh0 ++ blkL).length := by
                have hp := List.length_pos.mpr hLne
                rw [List.length_append]
                omega
              have htoA : (((sh0 ++ blkL).length : Int) - 1).toNat =
                  (sh0 ++ blkL).length - 1 := by omega
              have htoB : ((((sh0 ++ blkL) ++ blkR).length : Int) - 1).toNat =
                  ((sh0 ++ blkL) ++ blkR).length - 1 := by omega
              rw [htoA, htoB]
              obtain ⟨blkN, hN1, hN2, hN3, hN4, hN5, hN6⟩ := shape_combine sh0 blkL blkR
                hLne hRne hLB hRB hLS hRS hR3 ((2 * m + 1) * 2 ^ k)
                ((CountExact ((s.drop i).take (mm - i)) +
                  CountExact ((s.drop mm).take (j - mm))) % U64)
                (sub64 (sub64 (waste ⟨(2 * m + 1) * 2 ^ k,
                  (CountExact ((s.drop i).take (mm - i)) +
                    CountExact ((s.drop mm).take (j - mm))) % U64,
                  ((sh0 ++ blkL).length : Int) - 1, (((sh0 ++ blkL) ++ blkR).length : Int) - 1,
                  -1, 0⟩)
                  (waste (((sh0 ++ blkL) ++ blkR).getD ((sh0 ++ blkL).length - 1) cdefault)))
                  (waste (((sh0 ++ blkL) ++ blkR).getD (((sh0 ++ blkL) ++ blkR).length - 1)
                    cdefault)))
                (by positivity)
              rw [hN1]
              have hwmod : (CountExact ((s.drop i).take (mm - i)) +
                  CountExact ((s.drop mm).take (j - mm))) % U64 =
                  CountExact ((s.drop i).take (j - i)) := by
                rw [hCEsum]
                exact Nat.mod_eq_of_lt (by omega)
              refine ⟨blkN, rfl, hwmod, hN6, by intro hh; omega,
                fun _ => ⟨hN2, hN4, ?_⟩⟩
              rw [hN3]
              exact hN5


/-! ### C4: the size bound of `Cover` -/

theorem foldl_push_mem (sh : List cand) : ∀ (ks acc : List Nat) (x : Nat),
    (x ∈ acc ∨ (x ∈ ks ∧ isLeaf (sh.getD x cdefault) = true)) →
    x ∈ ks.foldl (fun lv i => if isLeaf (sh.getD i cdefault) then heapPush sh lv i
      else lv) acc := by
  intro ks
  induction ks with
  | nil =>
    intro acc x h
    rcases h with h | ⟨h, _⟩
    · exact h
    · simp at h
  | cons y ys ih =>
    intro acc x h
    show x ∈ ys.foldl _ (if isLeaf (sh.getD y cdefault) then heapPush sh acc y else acc)
    apply ih
    rcases h with h | ⟨hm, hl⟩
    · left
      by_cases hy : isLeaf (sh.getD y cdefault)
      · rw [if_pos hy, heapPush_mem]
        exact Or.inl h
      · rw [if_neg hy]
        exact h
    · rcases List.mem_cons.mp hm with he | hm'
      · left
        rw [he, if_pos (by rw [← he]; exact hl), heapPush_mem]
        exact Or.inr rfl
      · right
        exact ⟨hm', hl⟩

/-- C4: for a canonical set and positive `maxSize`, whenever `Cover`
returns (it panics on none of these executions only if the embedded
fuel or `blowup` guards fire, embedded as `none`), the result uses at
most `maxSize` cells. -/
theorem C4_cover_size {s : List Nat} (hs : Canonical s) (m : Int) (g : Nat)
    (hm : 0 < m) {C : List Nat} (hC : Cover s m g = some C) :
    (C.length : Int) ≤ m := by
  obtain ⟨hv, hch⟩ := canonical_iff.mp hs
  unfold Cover at hC
  by_cases hemp : s.isEmpty
  · rw [if_pos hemp] at hC
    have hCe : C = [] := (Option.some.inj hC).symm
    rw [hCe]
    simp
    omega
  · rw [if_neg hemp] at hC
    simp only [] at hC
    have hlen : 0 < s.length := by
      cases s
      · simp at hemp
      · simp
    have hCE63 : CountExact s ≤ 2 ^ 63 := by
      have := countExact_le_of_canonical s 0 (by positivity) hv hch (fun x _ => by omega)
      omega
    have hCEU : CountExact s < U64 := by
      rw [U64_eq]
      have : (2 : Nat) ^ 63 < 2 ^ 64 := by norm_num
      omega
    have hform : unity63 = (2 * 0 + 1) * 2 ^ 63 := by norm_num [unity63]
    rw [hform] at hC
    obtain ⟨blk, he1, _, _, _, hlt⟩ := shape_wf hv hch hCEU 64 0 s.length 0 63 g []
      (by omega) (le_refl _) (by rw [U64_eq]; norm_num) (by omega)
      (by
        intro p _ hp
        refine ⟨by omega, ?_⟩
        have := cvalid_end_le (hv _ (mem_getD_of_lt hp))
        omega)
    obtain ⟨hne, hBOK, hspan⟩ := hlt hlen
    rw [List.nil_append] at he1
    set shA := (shape s 64 0 s.length ((2 * 0 + 1) * 2 ^ 63) g []).1 with hsha
    set leaves := (List.range shA.length).foldl
      (fun lv i => if isLeaf (shA.getD i cdefault) then heapPush shA lv i else lv) []
      with hlvs
    obtain ⟨hB1, hB2, hB3⟩ := hBOK
    rw [List.length_nil] at hB1 hB2 hB3 hspan
    have hW1 : arenaW1 shA := by
      intro p hp hleaf
      obtain ⟨a, b, u1, u2, u3, u4, u5, u6, u7⟩ := hB2 p (by omega) hp hleaf
      exact ⟨a, b, u1, u2, u4, u5, u6, u7, hB1 a (by omega) (by omega),
        hB1 b (by omega) (by omega)⟩
    have hW2 : arenaW2 shA := by
      intro q hq hqc hqip
      obtain ⟨p, u1, u2, u3, u4, u5⟩ := hB3 q (by omega) hq hqip
      exact ⟨p, u1, u3, u4, u5⟩
    have hI1 : INV1 shA leaves := by
      rintro x ⟨hx1, hx2, hx3⟩
      rw [hlvs]
      exact foldl_push_mem shA (List.range shA.length) [] x
        (Or.inr ⟨List.mem_range.mpr hx1, hx3⟩)
    have hblklen : shA.length = blk.length := by rw [he1]
    have hSp : spanP shA (shA.length + 1) 0 (shA.length - 1) :=
      spanP_mono shA 0 (shA.length - 1) (by omega) hspan
    have hinv : shaveInv shA leaves := ⟨hW1, hW2, hI1, hSp⟩
    have hms1 : 1 ≤ (if m < 1 ∨ (s.length : Int) < m then (s.length : Int) else m).toNat := by
      by_cases hc : m < 1 ∨ (s.length : Int) < m
      · rw [if_pos hc]
        omega
      · rw [if_neg hc]
        push_neg at hc
        omega
    have hmsle : ((if m < 1 ∨ (s.length : Int) < m then (s.length : Int) else m).toNat : Int)
        ≤ m := by
      by_cases hc : m < 1 ∨ (s.length : Int) < m
      · rw [if_pos hc]
        rcases hc with hc | hc
        · omega
        · omega
      · rw [if_neg hc]
        omega
    cases hsv : shave ((shA.length + leaves.length + 1) * 4) shA leaves
        (if m < 1 ∨ (s.length : Int) < m then (s.length : Int) else m).toNat with
    | none =>
      rw [hsv] at hC
      simp at hC
    | some r =>
      rw [hsv] at hC
      obtain ⟨hout, hin⟩ := shave_bound ((shA.length + leaves.length + 1) * 4) shA leaves
        (if m < 1 ∨ (s.length : Int) < m then (s.length : Int) else m).toNat r
        hms1 hinv hsv
      cases r with
      | inl shF =>
        have hCC : some (getLeaves shF (shF.length + 1) (shF.length - 1) []) = some C := hC
        have hCe : C = getLeaves shF (shF.length + 1) (shF.length - 1) [] :=
          (Option.some.inj hCC).symm
        have := hin shF rfl
        rw [← hCe] at this
        omega
      | inr out =>
        have hCC : some out = some C := hC
        have hCe : C = out := (Option.some.inj hCC).symm
        have := hout out rfl
        rw [← hCe] at this
        omega

/-- C4 witness: the bound at a concrete input. -/
theorem C4_cover_size_witness :
    Canonical [1] ∧ (0 : Int) < 1 ∧ Cover [1] 1 1 = some [1] ∧
    (([1] : List Nat).length : Int) ≤ 1 :=
  ⟨Canonical_of_all (by decide) (by decide), by norm_num, by decide,
    @C4_cover_size [1] (Canonical_of_all (by decide) (by decide)) 1 1 (by norm_num)
      [1] (by decide)⟩

end Dense
